import Mathlib

/-!
Signature-V4 signing and verification of `minio-service-broker/auth/v4.go`.

A shallow embedding of the header-based signer `CredentialsV4.Sign`, the
verifier `CredentialsV4.IsSigned` and the helpers they are built from.

Go strings are byte sequences; a string is modelled as the list of its bytes
(`Str = List Nat`, each element below 256).  The standard-library functions the
source calls (`crypto/sha256`, `crypto/hmac`, `encoding/hex`, `strings`,
`net/textproto`, `net/http.Header`, `time`) are modelled from their documented
behaviour, next to the functions of the source that use them.
-/

namespace V4

/-- Go `string`: the list of its bytes. -/
abbrev Str := List Nat

/-- Bytes of an ASCII literal. -/
def lit (s : String) : Str := s.toList.map Char.toNat

/-! ## crypto/sha256 (FIPS 180-4) -/

/-- Rotate a 32-bit word right by `k` bits. -/
def rotr (x k : Nat) : Nat := (x >>> k ||| x <<< (32 - k)) % 2 ^ 32

/-- The 64 round constants of SHA-256. -/
def sha256K : List Nat :=
  [0x428a2f98, 0x71374491, 0xb5c0fbcf, 0xe9b5dba5, 0x3956c25b, 0x59f111f1, 0x923f82a4, 0xab1c5ed5,
   0xd807aa98, 0x12835b01, 0x243185be, 0x550c7dc3, 0x72be5d74, 0x80deb1fe, 0x9bdc06a7, 0xc19bf174,
   0xe49b69c1, 0xefbe4786, 0x0fc19dc6, 0x240ca1cc, 0x2de92c6f, 0x4a7484aa, 0x5cb0a9dc, 0x76f988da,
   0x983e5152, 0xa831c66d, 0xb00327c8, 0xbf597fc7, 0xc6e00bf3, 0xd5a79147, 0x06ca6351, 0x14292967,
   0x27b70a85, 0x2e1b2138, 0x4d2c6dfc, 0x53380d13, 0x650a7354, 0x766a0abb, 0x81c2c92e, 0x92722c85,
   0xa2bfe8a1, 0xa81a664b, 0xc24b8b70, 0xc76c51a3, 0xd192e819, 0xd6990624, 0xf40e3585, 0x106aa070,
   0x19a4c116, 0x1e376c08, 0x2748774c, 0x34b0bcb5, 0x391c0cb3, 0x4ed8aa4a, 0x5b9cca4f, 0x682e6ff3,
   0x748f82ee, 0x78a5636f, 0x84c87814, 0x8cc70208, 0x90befffa, 0xa4506ceb, 0xbef9a3f7, 0xc67178f2]

/-- Working state of the compression function: the eight words a..h. -/
structure Sha256State where
  a : Nat
  b : Nat
  c : Nat
  d : Nat
  e : Nat
  f : Nat
  g : Nat
  h : Nat

/-- Initial hash value of SHA-256. -/
def sha256Init : Sha256State :=
  ⟨0x6a09e667, 0xbb67ae85, 0x3c6ef372, 0xa54ff53a, 0x510e527f, 0x9b05688c, 0x1f83d9ab, 0x5be0cd19⟩

/-- Big-endian 32-bit word of four bytes. -/
def beWord (b0 b1 b2 b3 : Nat) : Nat :=
  ((b0 % 256) * 2 ^ 24 + (b1 % 256) * 2 ^ 16 + (b2 % 256) * 2 ^ 8 + b3 % 256)

/-- The first sixteen schedule words: the block read as big-endian words. -/
def blockWords : List Nat → List Nat
  | b0 :: b1 :: b2 :: b3 :: rest => beWord b0 b1 b2 b3 :: blockWords rest
  | _ => []

/-- Extend the message schedule by `n` words; `w` holds the schedule so far,
most recent word first. -/
def extendSchedule : Nat → List Nat → List Nat
  | 0, w => w
  | n + 1, w =>
    let w2 := w.getD 1 0
    let w7 := w.getD 6 0
    let w15 := w.getD 14 0
    let w16 := w.getD 15 0
    let s0 := rotr w15 7 ^^^ rotr w15 18 ^^^ (w15 >>> 3)
    let s1 := rotr w2 17 ^^^ rotr w2 19 ^^^ (w2 >>> 10)
    extendSchedule n (((w16 + s0 + w7 + s1) % 2 ^ 32) :: w)

/-- The 64-word message schedule of a block, in order. -/
def schedule (block : List Nat) : List Nat :=
  (extendSchedule 48 (blockWords block).reverse).reverse

/-- One round of the compression function. -/
def sha256Round (s : Sha256State) (kw : Nat × Nat) : Sha256State :=
  let S1 := rotr s.e 6 ^^^ rotr s.e 11 ^^^ rotr s.e 25
  let ch := (s.e &&& s.f) ^^^ ((s.e ^^^ (2 ^ 32 - 1)) &&& s.g)
  let t1 := (s.h + S1 + ch + kw.1 + kw.2) % 2 ^ 32
  let S0 := rotr s.a 2 ^^^ rotr s.a 13 ^^^ rotr s.a 22
  let maj := (s.a &&& s.b) ^^^ (s.a &&& s.c) ^^^ (s.b &&& s.c)
  let t2 := (S0 + maj) % 2 ^ 32
  ⟨(t1 + t2) % 2 ^ 32, s.a, s.b, s.c, (s.d + t1) % 2 ^ 32, s.e, s.f, s.g⟩

/-- Compression of one 64-byte block into the running hash. -/
def sha256Block (s : Sha256State) (block : List Nat) : Sha256State :=
  let r := (sha256K.zip (schedule block)).foldl sha256Round s
  ⟨(s.a + r.a) % 2 ^ 32, (s.b + r.b) % 2 ^ 32, (s.c + r.c) % 2 ^ 32, (s.d + r.d) % 2 ^ 32,
   (s.e + r.e) % 2 ^ 32, (s.f + r.f) % 2 ^ 32, (s.g + r.g) % 2 ^ 32, (s.h + r.h) % 2 ^ 32⟩

/-- Big-endian bytes of a number, `n` bytes wide. -/
def beBytes : Nat → Nat → List Nat
  | 0, _ => []
  | n + 1, x => (x / 256 ^ n) % 256 :: beBytes n x

/-- Message padding: a 0x80 byte, zeros up to 56 mod 64, the bit length on 8 bytes. -/
def sha256Pad (data : Str) : List Nat :=
  data ++ 0x80 :: List.replicate ((119 - data.length % 64) % 64) 0 ++ beBytes 8 (8 * data.length)

/-- Run the compression function over `n` successive 64-byte blocks. -/
def sha256Blocks : Nat → Sha256State → List Nat → Sha256State
  | 0, s, _ => s
  | n + 1, s, bs => sha256Blocks n (sha256Block s (bs.take 64)) (bs.drop 64)

/-- SHA-256 digest of a byte string (32 bytes). -/
def sha256 (data : Str) : Str :=
  let p := sha256Pad data
  let s := sha256Blocks (p.length / 64) sha256Init p
  beBytes 4 s.a ++ beBytes 4 s.b ++ beBytes 4 s.c ++ beBytes 4 s.d ++
    beBytes 4 s.e ++ beBytes 4 s.f ++ beBytes 4 s.g ++ beBytes 4 s.h

/-! ## crypto/hmac -/

/-- HMAC-SHA256 of `data` under `key` (RFC 2104, block size 64). -/
def hmacSha256 (key data : Str) : Str :=
  let k0 := if key.length > 64 then sha256 key else key
  let k := k0 ++ List.replicate (64 - k0.length) 0
  sha256 (k.map (· ^^^ 0x5c) ++ sha256 (k.map (· ^^^ 0x36) ++ data))

/-! ## encoding/hex -/

/-- One lowercase hexadecimal digit. -/
def hexDigit (n : Nat) : Nat := if n < 10 then 48 + n else 87 + n

/-- Model of `hex.EncodeToString`: two lowercase hexadecimal digits per byte. -/
def hexEncode : Str → Str
  | [] => []
  | b :: bs => hexDigit (b / 16 % 16) :: hexDigit (b % 16) :: hexEncode bs

/-! ## unicode/utf8 -/

/-- The replacement rune U+FFFD (`utf8.RuneError`). -/
def RuneError : Nat := 0xFFFD

/-- A UTF-8 continuation byte lying in `[lo, hi]`. -/
def inRange (lo hi b : Nat) : Bool := decide (lo ≤ b) && decide (b ≤ hi)

/-- Model of `utf8.DecodeRuneInString`: the first rune of `s` and its width in
bytes; `(RuneError, 0)` for the empty string and `(RuneError, 1)` for an
invalid or truncated encoding. -/
def decodeRune : Str → Nat × Nat
  | [] => (RuneError, 0)
  | b0 :: rest =>
    if b0 < 0x80 then (b0, 1)
    else if b0 < 0xC2 then (RuneError, 1)
    else if b0 < 0xE0 then
      match rest with
      | b1 :: _ =>
        if inRange 0x80 0xBF b1 then ((b0 % 32) * 64 + b1 % 64, 2) else (RuneError, 1)
      | _ => (RuneError, 1)
    else if b0 < 0xF0 then
      match rest with
      | b1 :: b2 :: _ =>
        let lo := if b0 = 0xE0 then 0xA0 else 0x80
        let hi := if b0 = 0xED then 0x9F else 0xBF
        if inRange lo hi b1 && inRange 0x80 0xBF b2 then
          ((b0 % 16) * 4096 + (b1 % 64) * 64 + b2 % 64, 3)
        else (RuneError, 1)
      | _ => (RuneError, 1)
    else if b0 < 0xF5 then
      match rest with
      | b1 :: b2 :: b3 :: _ =>
        let lo := if b0 = 0xF0 then 0x90 else 0x80
        let hi := if b0 = 0xF4 then 0x8F else 0xBF
        if inRange lo hi b1 && inRange 0x80 0xBF b2 && inRange 0x80 0xBF b3 then
          ((b0 % 8) * 262144 + (b1 % 64) * 4096 + (b2 % 64) * 64 + b3 % 64, 4)
        else (RuneError, 1)
      | _ => (RuneError, 1)
    else (RuneError, 1)

/-- Model of `utf8.RuneLen`: the number of bytes of the encoding of a rune,
`none` (Go: -1) when the rune is not a valid value to encode. -/
def RuneLen (r : Nat) : Option Nat :=
  if r ≤ 0x7F then some 1
  else if r ≤ 0x7FF then some 2
  else if 0xD800 ≤ r ∧ r ≤ 0xDFFF then none
  else if r ≤ 0xFFFF then some 3
  else if r ≤ 0x10FFFF then some 4
  else none

/-- Model of `utf8.EncodeRune` / `string(rune)`: the UTF-8 bytes of a rune, those
of U+FFFD when the rune is a surrogate or out of range. -/
def EncodeRune (r : Nat) : Str :=
  if r ≤ 0x7F then [r]
  else if r ≤ 0x7FF then [0xC0 + r / 64, 0x80 + r % 64]
  else if (0xD800 ≤ r ∧ r ≤ 0xDFFF) ∨ 0x10FFFF < r then [0xEF, 0xBF, 0xBD]
  else if r ≤ 0xFFFF then [0xE0 + r / 4096, 0x80 + r / 64 % 64, 0x80 + r % 64]
  else [0xF0 + r / 262144, 0x80 + r / 4096 % 64, 0x80 + r / 64 % 64, 0x80 + r % 64]

/-- The runes a `for _, s := range str` loop visits; `n` bounds the number of
iterations (the length of the string is enough, every step consumes a byte). -/
def runesAux : Nat → Str → List Nat
  | 0, _ => []
  | _, [] => []
  | n + 1, b :: bs =>
    let d := decodeRune (b :: bs)
    d.1 :: runesAux n (bs.drop (d.2 - 1))

/-- The runes of a string, as `range` yields them. -/
def runes (s : Str) : List Nat := runesAux s.length s

/-! ## strings -/

/-- ASCII upper-case letter. -/
def isUpper (c : Nat) : Bool := decide (65 ≤ c) && decide (c ≤ 90)

/-- ASCII lower-case letter. -/
def isLower (c : Nat) : Bool := decide (97 ≤ c) && decide (c ≤ 122)

/-- ASCII decimal digit. -/
def isDigit (c : Nat) : Bool := decide (48 ≤ c) && decide (c ≤ 57)

/-- Lower-case of an ASCII byte. -/
def lowerByte (c : Nat) : Nat := if isUpper c then c + 32 else c

/-- Upper-case of an ASCII byte. -/
def upperByte (c : Nat) : Nat := if isLower c then c - 32 else c

/-- The case tables of package `unicode` for the runes above U+007F: the
lower-case and the upper-case mapping of a rune. -/
structure CaseTables where
  lower : Nat → Nat
  upper : Nat → Nat

/-- Model of `unicode.ToLower`. -/
def unicodeToLower (U : CaseTables) (r : Nat) : Nat :=
  if r ≤ 0x7F then lowerByte r else U.lower r

/-- Model of `unicode.ToUpper`. -/
def unicodeToUpper (U : CaseTables) (r : Nat) : Nat :=
  if r ≤ 0x7F then upperByte r else U.upper r

/-- Model of `strings.ToLower`: bytewise on an all-ASCII string, otherwise rune
by rune (`strings.Map(unicode.ToLower, s)`). -/
def ToLower (U : CaseTables) (s : Str) : Str :=
  if s.all (fun c => decide (c < 0x80)) then s.map lowerByte
  else (runes s).flatMap (fun r => EncodeRune (unicodeToLower U r))

/-- Model of `strings.ToUpper`, same shape as `ToLower`. -/
def ToUpper (U : CaseTables) (s : Str) : Str :=
  if s.all (fun c => decide (c < 0x80)) then s.map upperByte
  else (runes s).flatMap (fun r => EncodeRune (unicodeToUpper U r))

/-- Model of `strings.Join`. -/
def Join : List Str → Str → Str
  | [], _ => []
  | [a], _ => a
  | a :: b :: rest, sep => a ++ sep ++ Join (b :: rest) sep

/-- Model of `strings.Split(s, sep)` for a one-byte separator: the pieces of `s`
between the occurrences of `sep` (one more piece than occurrences). -/
def Split (s : Str) (sep : Nat) : List Str :=
  match s with
  | [] => [[]]
  | c :: cs =>
    if c = sep then [] :: Split cs sep
    else
      match Split cs sep with
      | [] => [[c]]
      | p :: ps => (c :: p) :: ps

/-- Model of `strings.TrimSuffix(s, suffix)` for a one-byte suffix. -/
def TrimSuffix (s : Str) (suffix : Nat) : Str :=
  if s.getLast? = some suffix then s.dropLast else s

/-- Model of `strings.Replace(s, old, new, -1)` for a one-byte `old`. -/
def Replace (s : Str) (old : Nat) (new : Str) : Str :=
  s.flatMap (fun c => if c = old then new else [c])

/-- Go string comparison `a <= b`: lexicographic on bytes. -/
def strLe : Str → Str → Bool
  | [], _ => true
  | _ :: _, [] => false
  | a :: as, b :: bs => decide (a < b) || (decide (a = b) && strLe as bs)

/-- Model of `sort.Strings`: the list in ascending byte order. -/
def sortStrings (l : List Str) : List Str :=
  l.insertionSort (fun a b => strLe a b = true)

/-! ## net/textproto and net/http -/

/-- Model of `textproto.validHeaderFieldByte`: the token characters of RFC 7230. -/
def validHeaderFieldByte (c : Nat) : Bool :=
  isDigit c || isLower c || isUpper c ||
    [33, 35, 36, 37, 38, 39, 42, 43, 45, 46, 94, 95, 96, 124, 126].contains c

/-- Canonical letter case: upper after the start and after each dash, lower elsewhere. -/
def canonicalCase : Bool → Str → Str
  | _, [] => []
  | upper, c :: cs =>
    let c1 := if upper && isLower c then c - 32 else if !upper && isUpper c then c + 32 else c
    c1 :: canonicalCase (c1 == 45) cs

/-- Model of `textproto.CanonicalMIMEHeaderKey`: a key made of token bytes only is
put in canonical case; any other key is returned unchanged. -/
def CanonicalMIMEHeaderKey (s : Str) : Str :=
  if s.all validHeaderFieldByte then canonicalCase true s else s

/-- Go `http.Header`, a `map[string][]string`: the list of its entries, in the
order a `range` loop happens to visit them. -/
abbrev Header := List (Str × List Str)

/-- Map index `headers[key]`: the values stored under `key`, nil when absent. -/
def Header.index (h : Header) (key : Str) : List Str := (h.lookup key).getD []

/-- Model of `http.Header.Get`: the first value under the canonical form of `key`,
the empty string when there is none. -/
def Header.Get (h : Header) (key : Str) : Str :=
  (h.index (CanonicalMIMEHeaderKey key)).headD []

/-- Model of `http.Header.Set`: the entry under the canonical form of `key` is
replaced by the single value `value`. -/
def Header.Set (h : Header) (key value : Str) : Header :=
  (CanonicalMIMEHeaderKey key, [value]) ::
    h.filter (fun e => !decide (e.1 = CanonicalMIMEHeaderKey key))

/-! ## time -/

/-- Go `time.Time` in UTC, as far as the layouts of the source read it: the
civil date and the time of day. -/
structure Time where
  year : Nat
  month : Nat
  day : Nat
  hour : Nat
  minute : Nat
  second : Nat
deriving DecidableEq, Repr

/-- The zero `Time{}`: January 1, year 1, 00:00:00 UTC. -/
def zeroTime : Time := ⟨1, 1, 1, 0, 0, 0⟩

/-- Decimal digits of `x`, most significant first; `n` bounds the number of
digits (`x + 1` is enough). -/
def decimalDigits : Nat → Nat → Str
  | 0, _ => []
  | n + 1, x => if x < 10 then [48 + x] else decimalDigits n (x / 10) ++ [48 + x % 10]

/-- Model of `time.appendInt`: decimal digits of `x`, zero-padded to `width`. -/
def appendInt (x width : Nat) : Str :=
  List.replicate (width - (decimalDigits (x + 1) x).length) 48 ++ decimalDigits (x + 1) x

/-- Model of `date.Format(yyyymmdd)`, layout "20060102". -/
def Time.formatYYYYMMDD (t : Time) : Str :=
  appendInt t.year 4 ++ appendInt t.month 2 ++ appendInt t.day 2

/-- Model of `date.Format(DateFormat)`, layout "20060102T150405Z". -/
def Time.formatDateFormat (t : Time) : Str :=
  t.formatYYYYMMDD ++ [84] ++ appendInt t.hour 2 ++ appendInt t.minute 2 ++
    appendInt t.second 2 ++ [90]

/-- Model of `time.getnum`: one or two leading digits, exactly two when `fixed`. -/
def getnum (s : Str) ( fixed : Bool) : Option (Nat × Str) :=
  match s with
  | a :: rest =>
    if isDigit a then
      match rest with
      | b :: rest2 =>
        if isDigit b then some ((a - 48) * 10 + (b - 48), rest2)
        else if fixed then none else some (a - 48, rest)
      | [] => if fixed then none else some (a - 48, rest)
    else none
  | [] => none

/-- Model of `time.isLeap`. -/
def isLeap (year : Nat) : Bool :=
  year % 4 == 0 && (year % 100 != 0 || year % 400 == 0)

/-- Model of `time.daysIn`. -/
def daysIn (month year : Nat) : Nat :=
  if month = 2 then (if isLeap year then 29 else 28)
  else if month = 4 ∨ month = 6 ∨ month = 9 ∨ month = 11 then 30 else 31

/-- A fractional second right after the seconds, which `time.Parse` accepts and
skips although the layout has none: a period or comma and the digits after it. -/
def skipFraction (s : Str) : Str :=
  match s with
  | c :: d :: rest =>
    if (c == 46 || c == 44) && isDigit d then rest.dropWhile isDigit else s
  | _ => s

/-- Model of `time.Parse(DateFormat, value)` for the layout "20060102T150405Z":
a four-digit year, two-digit month and day, the letter T, an hour of one or two
digits, two-digit minute and second, the letter Z and nothing after it, every
field in range; `none` stands for a parse error. -/
def parseDateFormat (value : Str) : Option Time :=
  match value with
  | y0 :: y1 :: y2 :: y3 :: v1 =>
    if isDigit y0 && isDigit y1 && isDigit y2 && isDigit y3 then
      let year := (y0 - 48) * 1000 + (y1 - 48) * 100 + (y2 - 48) * 10 + (y3 - 48)
      match getnum v1 true with
      | some (month, v2) =>
        if month = 0 ∨ 12 < month then none else
        match getnum v2 true with
        | some (day, 84 :: v3) =>
          match getnum v3 false with
          | some (hour, v4) =>
            if 24 ≤ hour then none else
            match getnum v4 true with
            | some (minute, v5) =>
              if 60 ≤ minute then none else
              match getnum v5 true with
              | some (second, v6) =>
                if 60 ≤ second then none else
                match skipFraction v6 with
                | [90] =>
                  if day < 1 ∨ daysIn month year < day then none
                  else some ⟨year, month, day, hour, minute, second⟩
                | _ => none
              | none => none
            | none => none
          | none => none
        | _ => none
      | none => none
    else none
  | _ => none

/-- The statement `date, _ := time.Parse(DateFormat, dateStr)`: the parsed time,
the zero time on a parse error. -/
def parseDate (dateStr : Str) : Time := (parseDateFormat dateStr).getD zeroTime

/-! ## net/url -/

/-- Upper-case hexadecimal digit, as `url.QueryEscape` writes it. -/
def upperHexDigit (n : Nat) : Nat := if n < 10 then 48 + n else 55 + n

/-- Hexadecimal digit test of package `url` (`ishex`). -/
def ishex (c : Nat) : Bool :=
  isDigit c || inRange 97 102 c || inRange 65 70 c

/-- Value of a hexadecimal digit (`unhex`). -/
def unhex (c : Nat) : Nat :=
  if isDigit c then c - 48 else if inRange 97 102 c then c - 97 + 10
  else if inRange 65 70 c then c - 65 + 10 else 0

/-- Bytes `url.QueryEscape` leaves as they are: letters, digits and `-_.~`. -/
def queryUnreserved (c : Nat) : Bool :=
  isDigit c || isLower c || isUpper c || c == 45 || c == 95 || c == 46 || c == 126

/-- Model of `url.QueryEscape`: a space becomes `+`, every other byte that is
not unreserved becomes `%XX`. -/
def QueryEscape (s : Str) : Str :=
  s.flatMap (fun c =>
    if queryUnreserved c then [c]
    else if c = 32 then [43]
    else [37, upperHexDigit (c / 16 % 16), upperHexDigit (c % 16)])

/-- Model of `url.QueryUnescape`: `%XX` becomes the byte, `+` a space; `none`
when a `%` is not followed by two hexadecimal digits. -/
def QueryUnescape : Str → Option Str
  | [] => some []
  | 37 :: a :: b :: rest =>
    if ishex a && ishex b then (QueryUnescape rest).map (fun t => (unhex a * 16 + unhex b) :: t)
    else none
  | 37 :: _ => none
  | c :: rest => (QueryUnescape rest).map (fun t => (if c = 43 then 32 else c) :: t)

/-- Go `url.Values`, a `map[string][]string`, as the list of its entries. -/
abbrev Values := List (Str × List Str)

/-- The statement `m[key] = append(m[key], value)`. -/
def Values.add : Values → Str → Str → Values
  | [], key, value => [(key, [value])]
  | (k, vs) :: rest, key, value =>
    if k = key then (k, vs ++ [value]) :: rest else (k, vs) :: Values.add rest key value

/-- Model of `strings.Cut(s, sep)` for a one-byte separator, without the flag. -/
def Cut (s : Str) (sep : Nat) : Str × Str :=
  (s.takeWhile (fun c => !decide (c = sep)), (s.dropWhile (fun c => !decide (c = sep))).drop 1)

/-- One `&`-separated piece of a query in `url.parseQuery`: skipped when it is
empty, holds a semicolon or does not unescape, otherwise added to the map. -/
def parseQueryPiece (m : Values) (piece : Str) : Values :=
  if piece.contains 59 then m
  else if piece = [] then m
  else
    match QueryUnescape (Cut piece 61).1, QueryUnescape (Cut piece 61).2 with
    | some key, some value => m.add key value
    | _, _ => m

/-- Model of `m, _ := url.ParseQuery(query)`: the values parsed from the pieces
of `query` between `&`, the error dropped. -/
def ParseQuery (query : Str) : Values :=
  (Split query 38).foldl parseQueryPiece []

/-- Model of `url.Values.Encode`: `key=value` pairs, escaped, joined by `&`,
sorted by key. -/
def Values.Encode (v : Values) : Str :=
  Join ((sortStrings (v.map Prod.fst)).flatMap (fun k =>
    ((v.lookup k).getD []).map (fun val => QueryEscape k ++ [61] ++ QueryEscape val))) [38]

/-! ## auth/v4.go -/

/-- The constant `SignV4Algorithm`. -/
def SignV4Algorithm : Str := lit "AWS4-HMAC-SHA256"

/-- The map `ignoredHeaders`: headers left out of the signature calculation. -/
def ignoredHeaders (lkey : Str) : Bool :=
  [lit "authorization", lit "content-type", lit "content-length", lit "user-agent"].contains lkey

/-- S3 credentials for Sign-V4 (`CredentialsV4`). -/
structure CredentialsV4 where
  AccessKey : Str
  SecretKey : Str
  Region : Str

/-- The fields of `*http.Request` the signer reads or writes. -/
structure Request where
  Method : Str
  Path : Str
  RawQuery : Str
  Host : Str
  Header : Header

/-- Embeds `sum256`: the SHA-256 sum of a byte array. -/
def sum256 (data : Str) : Str := sha256 data

/-- Embeds `sumHMAC`: the HMAC-SHA256 of `data` under `key`. -/
def sumHMAC (key data : Str) : Str := hmacSha256 key data

/-- Embeds `sortQuery`. -/
def sortQuery (encodedQuery : Str) : Str :=
  Replace (ParseQuery encodedQuery).Encode 43 (lit "%20")

/-- The loop of `encodePath` over the runes of the path; `none` is the early
`return pathName`. -/
def encodePathLoop (U : CaseTables) : List Nat → Str → Option Str
  | [], encodedPathname => some encodedPathname
  | s :: rest, encodedPathname =>
    if isUpper s || isLower s || isDigit s then
      encodePathLoop U rest (encodedPathname ++ EncodeRune s)
    else if s = 45 ∨ s = 95 ∨ s = 46 ∨ s = 126 ∨ s = 47 then
      encodePathLoop U rest (encodedPathname ++ EncodeRune s)
    else
      match RuneLen s with
      | none => none
      | some _ =>
        encodePathLoop U rest
          (encodedPathname ++ (EncodeRune s).flatMap (fun r => 37 :: ToUpper U (hexEncode [r])))

/-- Embeds `encodePath`. -/
def encodePath (U : CaseTables) (pathName : Str) : Str :=
  (encodePathLoop U (runes pathName) []).getD pathName

/-- Embeds `signedHeaders`: the lower-cased names of the headers that are not
ignored, sorted. -/
def signedHeaders (U : CaseTables) (headers : Header) : List Str :=
  sortStrings ((headers.map (fun e => ToLower U e.1)).filter (fun lkey => !ignoredHeaders lkey))

/-- Embeds `getSignedHeaders`. -/
def getSignedHeaders (U : CaseTables) (headers : Header) : Str :=
  Join (signedHeaders U headers) (lit ";")

/-- Embeds `getCanonicalHeaders`. -/
def getCanonicalHeaders (U : CaseTables) (headers : Header) : Str :=
  Join ((signedHeaders U headers).map (fun key =>
    key ++ lit ":" ++ Join (headers.index (CanonicalMIMEHeaderKey key)) (lit ","))) (lit "\n")
    ++ lit "\n"

/-- Embeds `getHashedPayload`. -/
def getHashedPayload (headers : Header) : Str :=
  if headers.Get (lit "X-Amz-Content-Sha256") = [] then
    lit "e3b0c44298fc1c149afbf4c8996fb92427ae41e4649b934ca495991b7852b855"
  else headers.Get (lit "X-Amz-Content-Sha256")

/-- Embeds `getCanonicalRequest`. -/
def getCanonicalRequest (U : CaseTables) (method encodedResource encodedQuery : Str)
    (headers : Header) : Str :=
  Join [method, encodedResource, sortQuery encodedQuery, getCanonicalHeaders U headers,
    getSignedHeaders U headers, getHashedPayload headers] (lit "\n")

/-- Embeds `getScope`. -/
def getScope (region : Str) (date : Time) : Str :=
  Join [date.formatYYYYMMDD, region, lit "s3", lit "aws4_request"] (lit "/")

/-- Embeds `getCredential`. -/
def getCredential (accessKey region : Str) (date : Time) : Str :=
  accessKey ++ lit "/" ++ getScope region date

/-- Embeds `getSigningKey`. -/
def getSigningKey (secret region : Str) (date : Time) : Str :=
  let dateKey := sumHMAC (lit "AWS4" ++ secret) date.formatYYYYMMDD
  let dateRegionKey := sumHMAC dateKey region
  let dateRegionServiceKey := sumHMAC dateRegionKey (lit "s3")
  sumHMAC dateRegionServiceKey (lit "aws4_request")

/-- Embeds `getSignature`. -/
def getSignature (signingKey stringToSign : Str) : Str :=
  hexEncode (sumHMAC signingKey stringToSign)

/-- Embeds `CredentialsV4.authz`: the Authorization header value. -/
def CredentialsV4.authz (U : CaseTables) (c : CredentialsV4)
    (method encodedResource encodedQuery : Str) (headers : Header) : Str :=
  let dateStr := headers.Get (lit "X-Amz-Date")
  let date := parseDate dateStr
  let canonicalReq := getCanonicalRequest U method encodedResource encodedQuery headers
  let stringToSign := Join [SignV4Algorithm, date.formatDateFormat, getScope c.Region date,
    hexEncode (sum256 canonicalReq)] (lit "\n")
  let signingKey := getSigningKey c.SecretKey c.Region date
  let credential := getCredential c.AccessKey c.Region date
  let signedHeaders := getSignedHeaders U headers
  let signature := getSignature signingKey stringToSign
  Join [SignV4Algorithm ++ lit " Credential=" ++ credential,
    lit " SignedHeaders=" ++ signedHeaders,
    lit " Signature=" ++ signature] (lit ",")

/-- Embeds `getRequestSignedHeaders`; `none` is the runtime panic of an index out
of range at `signedHeadersList[1]`. -/
def getRequestSignedHeaders (r : Request) : Option Header :=
  let authz := r.Header.Get (lit "Authorization")
  let signedHeadersField := Split authz 32
  if signedHeadersField.length < 3 then some []
  else
    let signedHeadersList := Split (signedHeadersField.getD 2 []) 61
    if signedHeadersField.length < 2 then some []
    else
      match signedHeadersList.get? 1 with
      | none => none
      | some names =>
        let h := (Split names 59).foldl (fun (h : Header) header =>
          h.Set (TrimSuffix header 44) (r.Header.Get (TrimSuffix header 44))) []
        some (h.Set (lit "Host") r.Host)

/-- Embeds `CredentialsV4.Sign`; `now` is the value of `time.Now().UTC()`. -/
def CredentialsV4.Sign (U : CaseTables) (c : CredentialsV4) (now : Time) (r : Request) : Request :=
  let h1 := r.Header.Set (lit "X-Amz-Date") now.formatDateFormat
  let h2 := h1.Set (lit "Host") r.Host
  let h3 := h2.Set (lit "X-Amz-Content-Sha256") (lit "UNSIGNED-PAYLOAD")
  let authz := c.authz U r.Method (encodePath U r.Path) (ParseQuery r.RawQuery).Encode h3
  { r with Header := h3.Set (lit "Authorization") authz }

/-- Embeds `CredentialsV4.IsSigned`; `none` is the runtime panic raised in
`getRequestSignedHeaders`. -/
def CredentialsV4.IsSigned (U : CaseTables) (c : CredentialsV4) (r : Request) : Option Bool :=
  let gotAuthz := r.Header.Get (lit "Authorization")
  match getRequestSignedHeaders r with
  | none => none
  | some headers =>
    let expectedAuthz := c.authz U r.Method (encodePath U r.Path) (ParseQuery r.RawQuery).Encode headers
    some (decide (gotAuthz = expectedAuthz))

/-! ## Vocabulary of the statements -/

/-- Case tables that leave every rune above U+007F as it is; enough to run the
model on ASCII header names. -/
def asciiTables : CaseTables := ⟨id, id⟩

/-- Map assignment `headers[key] = values`. -/
def Header.assign (h : Header) (key : Str) (values : List Str) : Header :=
  (key, values) :: h.filter (fun e => !decide (e.1 = key))

/-- Map deletion `delete(headers, key)`. -/
def Header.delete (h : Header) (key : Str) : Header :=
  h.filter (fun e => !decide (e.1 = key))

/-- A request with its header map replaced. -/
def Request.withHeader (r : Request) (h : V4.Header) : Request := { r with Header := h }

/-- The line of one signed header in the canonical headers:
lowercase name, a colon, the values under the canonical key joined by commas, a
newline. -/
def canonicalHeaderLine (headers : Header) (key : Str) : Str :=
  key ++ lit ":" ++ Join (headers.index (CanonicalMIMEHeaderKey key)) (lit ",") ++ lit "\n"

/-- Model of `strings.TrimSpace` on ASCII white space (space, tab, new line,
vertical tab, form feed, carriage return). -/
def TrimSpace (s : Str) : Str :=
  ((s.dropWhile (fun c => [9, 10, 11, 12, 13, 32].contains c)).reverse.dropWhile
    (fun c => [9, 10, 11, 12, 13, 32].contains c)).reverse

/-- A header map with the single header `X-Foo`, its value wrapped in spaces. -/
def paddedHeader : Header := [(lit "X-Foo", [lit " a "])]

/-- The same header map with the value trimmed. -/
def trimmedHeader : Header := [(lit "X-Foo", [lit "a"])]

/-- The header names declared in the `SignedHeaders=` field of the request's
Authorization value, as `getRequestSignedHeaders` reads them: the third
space-separated field, the part after its first "=", split at ";", a trailing
"," removed. Empty when the value has fewer than three fields or no "=". -/
def declaredSignedHeaders (r : Request) : List Str :=
  match (Split ((Split (r.Header.Get (lit "Authorization")) 32).getD 2 []) 61).get? 1 with
  | some names => (Split names 59).map (fun header => TrimSuffix header 44)
  | none => []

/-- Credentials used in the worked examples. -/
def exampleCreds : CredentialsV4 := ⟨lit "AK", lit "SK", lit "us-east-1"⟩

/-- Noon of January 1, 2016 (UTC), the signing time of the worked examples. -/
def exampleTime : Time := ⟨2016, 1, 1, 12, 0, 0⟩

/-- A GET request with one single-valued header. -/
def exampleRequest : Request :=
  ⟨lit "GET", lit "/bucket/object", lit "prefix=a", lit "s3.example.com",
    [(lit "Accept", [lit "text/plain"])]⟩

/-- The example request after `Sign`. -/
def exampleSigned : Request := exampleCreds.Sign asciiTables exampleTime exampleRequest

/-- The signature `authz` computes: the local variable `signature` of the source. -/
def CredentialsV4.signature (U : CaseTables) (c : CredentialsV4)
    (method encodedResource encodedQuery : Str) (headers : Header) : Str :=
  getSignature (getSigningKey c.SecretKey c.Region (parseDate (headers.Get (lit "X-Amz-Date"))))
    (Join [SignV4Algorithm, (parseDate (headers.Get (lit "X-Amz-Date"))).formatDateFormat,
      getScope c.Region (parseDate (headers.Get (lit "X-Amz-Date"))),
      hexEncode (sum256 (getCanonicalRequest U method encodedResource encodedQuery headers))]
      (lit "\n"))

/-- A request whose Authorization value has three space-separated fields, the
third without "=". -/
def malformedAuthRequest : Request :=
  ⟨lit "GET", lit "/", [], lit "s3.example.com", [(lit "Authorization", [lit "AWS4-HMAC-SHA256 x y"])]⟩

/-- A well-formed X-Amz-Date value: sixteen bytes YYYYMMDD'T'HHMMSS'Z' of decimal
digits around the letters T and Z, with a month 01..12, a day of that month,
an hour below 24 and minute and second below 60. -/
def wellFormedDate (ts : Str) : Bool :=
  match ts with
  | [y0, y1, y2, y3, m0, m1, d0, d1, 84, h0, h1, n0, n1, s0, s1, 90] =>
    isDigit y0 && isDigit y1 && isDigit y2 && isDigit y3 && isDigit m0 && isDigit m1 &&
    isDigit d0 && isDigit d1 && isDigit h0 && isDigit h1 && isDigit n0 && isDigit n1 &&
    isDigit s0 && isDigit s1 &&
    decide (1 ≤ (m0 - 48) * 10 + (m1 - 48)) && decide ((m0 - 48) * 10 + (m1 - 48) ≤ 12) &&
    decide (1 ≤ (d0 - 48) * 10 + (d1 - 48)) &&
    decide ((d0 - 48) * 10 + (d1 - 48) ≤ daysIn ((m0 - 48) * 10 + (m1 - 48))
      ((y0 - 48) * 1000 + (y1 - 48) * 100 + (y2 - 48) * 10 + (y3 - 48))) &&
    decide ((h0 - 48) * 10 + (h1 - 48) < 24) && decide ((n0 - 48) * 10 + (n1 - 48) < 60) &&
    decide ((s0 - 48) * 10 + (s1 - 48) < 60)
  | _ => false

/-- Lower-case hexadecimal digit: one of 0-9 a-f. -/
def isLowerHex (c : Nat) : Bool := isDigit c || inRange 97 102 c

/-- A header map with a host and a well-formed date. -/
def exampleHeaders : Header :=
  [(lit "Host", [lit "s3.example.com"]), (lit "X-Amz-Date", [lit "20160101T120000Z"])]

/-- A GET request whose header Accept has two values. -/
def multiValueRequest : Request :=
  ⟨lit "GET", lit "/bucket/object", lit "prefix=a", lit "s3.example.com",
    [(lit "Accept", [lit "text/plain", lit "text/html"])]⟩

/-- A canonical header line with the value given by `val`: name, colon, value,
newline. -/
def headerLine (val : Str → Str) (key : Str) : Str := key ++ lit ":" ++ val key ++ lit "\n"

/-- The payload hash `getHashedPayload` derives from the value `v` of
X-Amz-Content-Sha256. -/
def payloadOf (v : Str) : Str :=
  if v = [] then lit "e3b0c44298fc1c149afbf4c8996fb92427ae41e4649b934ca495991b7852b855" else v

/-- The header set `IsSigned` recomputes the Authorization value over: the
result of `getRequestSignedHeaders`. -/
def verifierHeaders (r : Request) : Header := (getRequestSignedHeaders r).getD []

/-- The canonical request `IsSigned` hashes. -/
def verifierCanonicalRequest (U : CaseTables) (r : Request) : Str :=
  getCanonicalRequest U r.Method (encodePath U r.Path) (ParseQuery r.RawQuery).Encode
    (verifierHeaders r)

/-- The signing key `IsSigned` derives. -/
def verifierSigningKey (c : CredentialsV4) (r : Request) : Str :=
  getSigningKey c.SecretKey c.Region (parseDate ((verifierHeaders r).Get (lit "X-Amz-Date")))

/-- The string to sign `IsSigned` builds. -/
def verifierStringToSign (U : CaseTables) (c : CredentialsV4) (r : Request) : Str :=
  Join [SignV4Algorithm, (parseDate ((verifierHeaders r).Get (lit "X-Amz-Date"))).formatDateFormat,
    getScope c.Region (parseDate ((verifierHeaders r).Get (lit "X-Amz-Date"))),
    hexEncode (sum256 (verifierCanonicalRequest U r))] (lit "\n")

/-- A header map as `net/http` builds it: every key is a token in canonical
MIME form, no key occurs twice, and every header has one value at most. -/
def Header.Clean (h : Header) : Prop :=
  (∀ e ∈ h, e.1.all validHeaderFieldByte = true ∧ CanonicalMIMEHeaderKey e.1 = e.1 ∧
    e.2.length ≤ 1) ∧ (h.map Prod.fst).Nodup

/-- Credentials whose access key holds a space. -/
def spacedCreds : CredentialsV4 := ⟨lit "A K", lit "SK", lit "us-east-1"⟩

/-! ## Vocabulary of the path and query statements -/

/-- Steps of `utf8.ValidString`: every rune decodes without the error of an
invalid or truncated encoding; `n` bounds the number of runes. -/
def validStringAux : Nat → Str → Bool
  | _, [] => true
  | 0, _ :: _ => false
  | n + 1, b :: bs =>
    !((decodeRune (b :: bs)).1 == RuneError && (decodeRune (b :: bs)).2 == 1) &&
      validStringAux n (bs.drop ((decodeRune (b :: bs)).2 - 1))

/-- Model of `utf8.ValidString`: the string is valid UTF-8. -/
def ValidString (s : Str) : Bool := validStringAux s.length s

/-- The bytes `encodePath` leaves as they are: A-Z a-z 0-9 - _ . ~ / -/
def isUnreservedPathByte (b : Nat) : Bool :=
  isUpper b || isLower b || isDigit b || b == 45 || b == 95 || b == 46 || b == 126 || b == 47

/-- The escape of one byte: "%" and its two upper-case hexadecimal digits. -/
def percentEncodeByte (b : Nat) : Str := [37, upperHexDigit (b / 16 % 16), upperHexDigit (b % 16)]

/-- Byte-wise percent-encoding of a path: unreserved bytes as they are, every
other byte escaped. -/
def percentEncodePath (p : Str) : Str :=
  p.flatMap (fun b => if isUnreservedPathByte b then [b] else percentEncodeByte b)

/-- A path of five bytes: "/a b" followed by the two bytes of U+00E9. -/
def examplePath : Str := [47, 97, 32, 0xC3, 0xA9]

/-- A string of the single byte 0xFF, which is not valid UTF-8. -/
def invalidName : Str := [0xFF]


/-! ## Vocabulary for the canonical query string -/

/-- What `url.parseQuery` reads from one `&`-separated piece: the unescaped key
and value, or `none` when the piece is skipped (empty, holding a semicolon, or
not unescapable). -/
def parsePiece (piece : Str) : Option (Str × Str) :=
  if piece.contains 59 then none
  else if piece = [] then none
  else
    match QueryUnescape (Cut piece 61).1, QueryUnescape (Cut piece 61).2 with
    | some key, some value => some (key, value)
    | _, _ => none

/-- The parameters of a query string in the order they are written. -/
def parsedParams (query : Str) : List (Str × Str) :=
  (Split query 38).filterMap parsePiece

/-- The parameters added to a map one after the other. -/
def Values.addAll (m : Values) (ps : List (Str × Str)) : Values :=
  ps.foldl (fun acc kv => acc.add kv.1 kv.2) m

/-- The key/value pairs of a map, entry by entry. -/
def Values.pairs (v : Values) : List (Str × Str) :=
  v.flatMap (fun e => e.2.map (fun val => (e.1, val)))

/-- The key/value pairs of a map in the order `Values.Encode` writes them: the
keys sorted, the values of one key in the order they were added. -/
def Values.sortedPairs (v : Values) : List (Str × Str) :=
  (sortStrings (v.map Prod.fst)).flatMap (fun k =>
    ((v.lookup k).getD []).map (fun val => (k, val)))

/-- The parameters of a query string in the order `sortQuery` writes them. -/
def sortedParams (query : Str) : List (Str × Str) :=
  (ParseQuery query).sortedPairs

/-- The values a parameter list gives for one key, in the order they are written. -/
def valuesOf (ps : List (Str × Str)) (k : Str) : List Str :=
  (ps.filter (fun kv => decide (kv.1 = k))).map Prod.snd

/-- A key or value as `sortQuery` writes it: `QueryEscape` with every `+`
replaced by `%20`. -/
def escape20 (s : Str) : Str :=
  Replace (QueryEscape s) 43 (lit "%20")

/-- Percent-encoding of a key or value: unreserved bytes as they are, every
other byte, the space included, as `%XX`. -/
def percentEncodeQuery (s : Str) : Str :=
  s.flatMap (fun c => if queryUnreserved c then [c] else percentEncodeByte c)

/-! ## Machine integers -/

/-- A value of the Go types `int`, `int64` and `time.Duration` after an
arithmetic operation: the exact result reduced to 64-bit two's complement. -/
def wrap64 (x : Int) : Int := (x + 2 ^ 63) % 2 ^ 64 - 2 ^ 63
end V4

namespace Aminer

open V4

/-- The loop of `urlEncodeName` (aminer/urlencode.go) over the runes of the name;
`none` is the early return of the error "invalid utf-8". -/
def urlEncodeNameLoop (U : CaseTables) : List Nat → Str → Option Str
  | [], encodedName => some encodedName
  | s :: rest, encodedName =>
    if isUpper s || isLower s || isDigit s then
      urlEncodeNameLoop U rest (encodedName ++ EncodeRune s)
    else if s = 45 ∨ s = 95 ∨ s = 46 ∨ s = 126 then
      urlEncodeNameLoop U rest (encodedName ++ EncodeRune s)
    else
      match RuneLen s with
      | none => none
      | some _ =>
        urlEncodeNameLoop U rest
          (encodedName ++ (EncodeRune s).flatMap (fun r => 37 :: ToUpper U (hexEncode [r])))

/-- Embeds `urlEncodeName`: the encoded name, or the error message. -/
def urlEncodeName (U : CaseTables) (name : Str) : Except Str Str :=
  match urlEncodeNameLoop U (runes name) [] with
  | some encodedName => .ok encodedName
  | none => .error (lit "invalid utf-8")

end Aminer

namespace S3Verify

open V4

/-! ## s3verify/cmd/retry.go -/

/-- The dynamic type of a Go error value, as far as the type switches of
`isNetErrorRetryable` tell types apart: `*net.DNSError`, `*net.OpError`,
`net.UnknownNetworkError`, `*url.Error`, another type that implements
`net.Error`, or a type that does not implement `net.Error`. -/
inductive ErrorKind
  | dnsError
  | opError
  | unknownNetworkError
  | urlError
  | otherNetError
  | notNetError
  deriving DecidableEq

/-- A Go `error` value: its dynamic type and the text of `err.Error()`. -/
structure GoError where
  kind : ErrorKind
  message : Str
  deriving DecidableEq

/-- The variable `MaxRetry` as it is initialised. -/
def MaxRetry : Int := 5

/-- The variable `TCPretry`: the messages of errors that are retried. -/
def TCPretry : List Str :=
  [lit "i/o timeout", lit "net/http: TLS handshake timeout", lit "connection reset by peer",
    lit "read: operation timed out"]

/-- Model of `strings.Contains`. -/
def Contains : Str → Str → Bool
  | [], substr => substr.isEmpty
  | c :: cs, substr => substr.isPrefixOf (c :: cs) || Contains cs substr

/-- The values the loop `for _ = range newRetryTimer(maxRetry, unit, doneCh)`
receives when `doneCh` is signalled only once the loop is left: the goroutine
sends `i + 1` for `i` from 0 while `i < maxRetry`. -/
def retryAttempts (maxRetry : Int) : List Nat :=
  List.range' 1 maxRetry.toNat

/-- Model of `isNetErrorRetryable`: the outer type switch lets only values that
implement `net.Error` in; the inner one accepts DNS, operation and unknown
network errors, a URL error with the text "Connection closed by foreign host",
and any other value whose text holds one of the `TCPretry` messages. -/
def isNetErrorRetryable (err : GoError) : Bool :=
  match err.kind with
  | .notNetError => false
  | .dnsError => true
  | .opError => true
  | .unknownNetworkError => true
  | .urlError => Contains err.message (lit "Connection closed by foreign host")
  | .otherNetError => TCPretry.any (fun errString => Contains err.message errString)

/-- The keys of the map `retryableS3Codes`. -/
def retryableS3Codes : List Str :=
  [lit "RequestError", lit "RequestTimeout", lit "Throttling", lit "ThrottlingException",
    lit "RequestLimitExceeded", lit "RequestThrottled", lit "InternalError", lit "ExpiredToken",
    lit "ExpiredTokenException"]

/-- Model of `isS3CodeRetryable`. -/
def isS3CodeRetryable (s3Code : Str) : Bool :=
  retryableS3Codes.contains s3Code

/-- The keys of the map `retryableHTTPStatusCodes`. -/
def retryableHTTPStatusCodes : List Int := [429, 500, 502, 503]

/-- Model of `isHTTPStatusRetryable`. -/
def isHTTPStatusRetryable (httpStatusCode : Int) : Bool :=
  retryableHTTPStatusCodes.contains httpStatusCode

/-! ## s3verify/cmd/utils.go -/

/-- The variable `successStatus`: `http.StatusOK`, `http.StatusNoContent`,
`http.StatusPartialContent`. -/
def successStatus : List Int := [200, 204, 206]

/-! ## s3verify/cmd/requests.go -/

/-- The body of an HTTP response: as the transport delivers it (the bytes that
can be read, and the error the read ends with, if any), or a
`ioutil.NopCloser(bytes.NewReader(data))` at a read offset. -/
inductive Body
  | stream (data : Str) (failure : Option GoError)
  | reader (data : Str) (offset : Nat)
  deriving DecidableEq

/-- Model of `ioutil.ReadAll(body)`: the bytes read, the error, and the body
after the read. -/
def Body.readAll : Body → Str × Option GoError × Body
  | .stream data failure => (data, failure, .stream [] failure)
  | .reader data offset => (data.drop offset, none, .reader data (max offset data.length))

/-- The bytes a caller can still read from a body. -/
def Body.remaining : Body → Str
  | .stream data _ => data
  | .reader data offset => data.drop offset

/-- The fields of `http.Response` that `execRequest` looks at. -/
structure Response where
  StatusCode : Int
  Body : Body
  deriving DecidableEq

/-- What `c.Client.Do(req)` returns: an error, with the response that comes
with it (as a rule nil), or a response. -/
inductive TransportOutcome
  | failed (resp : Option Response) (err : GoError)
  | answered (resp : Response)

/-- What the surroundings of `execRequest` do in one round of its loop: the
error of `bodySeeker.Seek(0, 0)`, the error of `c.newRequest`, and what
`c.Client.Do` returns. -/
structure Attempt where
  seek : Option GoError
  newRequest : Option GoError
  transport : TransportOutcome

/-- The field `customReq.contentBody`: nil, a reader that is an `io.Seeker`, or
a reader that is not. -/
inductive ContentBody
  | absent
  | seekable
  | plain
  deriving DecidableEq

/-- The functions `ToErrorResponse` and `httpRespToErrorResponse`, which are
not among the sources, as far as `execRequest` depends on them: the code of
`ToErrorResponse(err)`, the code of
`ToErrorResponse(httpRespToErrorResponse(resp, bucketName, objectName))` for a
status and a buffered body, and the number of bytes of the buffered body that
are read to find it. -/
structure ErrorDecoder where
  ofError : GoError → Str
  ofResponse : Int → Str → Str
  reads : Int → Str → Nat

/-- What `execRequest` does to its surroundings in a round: a `Seek(0, 0)` of
the request body, which went well or not, and a call of `c.Client.Do`. -/
inductive Event
  | seek (attempt : Nat) (ok : Bool)
  | call (attempt : Nat)
  deriving DecidableEq

/-- A call of `c.Client.Do`. -/
def Event.isCall : Event → Bool
  | .call _ => true
  | .seek _ _ => false

/-- The results `resp` and `err` of `execRequest`, with the events so far. -/
structure Result where
  resp : Option Response
  err : Option GoError
  trace : List Event
  deriving DecidableEq

/-- The number of network calls made. -/
def Result.calls (r : Result) : Nat :=
  (r.trace.filter Event.isCall).length

/-- The loop body of `execRequest` from the values `c.Client.Do` returned on:
the new `resp` and `err`, and whether the loop goes on (`continue`) or is left
(`return`, or `break` and the `return resp, err` after the loop). -/
def afterDo (D : ErrorDecoder) : TransportOutcome → Option Response × Option GoError × Bool
  | .failed resp err => (resp, some err, isNetErrorRetryable err)
  | .answered resp =>
    if successStatus.contains resp.StatusCode then (some resp, none, false)
    else
      match resp.Body.readAll with
      | (_, some err, rest) => (some ⟨resp.StatusCode, rest⟩, some err, false)
      | (errBodyBytes, none, _) =>
        if isS3CodeRetryable (D.ofResponse resp.StatusCode errBodyBytes) then
          (some ⟨resp.StatusCode, .reader errBodyBytes
            (min (D.reads resp.StatusCode errBodyBytes) errBodyBytes.length)⟩, none, true)
        else if isHTTPStatusRetryable resp.StatusCode then
          (some ⟨resp.StatusCode, .reader errBodyBytes
            (min (D.reads resp.StatusCode errBodyBytes) errBodyBytes.length)⟩, none, true)
        else (some ⟨resp.StatusCode, .reader errBodyBytes 0⟩, none, false)

/-- The loop body of `execRequest` from `c.newRequest` on. -/
def sendRequest (D : ErrorDecoder) (a : Attempt) (k : Nat) (s : Result) : Result × Bool :=
  match a.newRequest with
  | some err =>
    if isS3CodeRetryable (D.ofError err) then (⟨s.resp, some err, s.trace⟩, true)
    else (⟨none, some err, s.trace⟩, false)
  | none =>
    (⟨(afterDo D a.transport).1, (afterDo D a.transport).2.1, s.trace ++ [.call k]⟩,
      (afterDo D a.transport).2.2)

/-- One round of the loop of `execRequest`: the state after it, and whether the
loop goes on. The body is rewound only when `isRetryable`, that is when it is
an `io.Seeker`. -/
def execAttempt (D : ErrorDecoder) (contentBody : ContentBody) (a : Attempt) (k : Nat)
    (s : Result) : Result × Bool :=
  if contentBody = .seekable then
    match a.seek with
    | some err => (⟨s.resp, some err, s.trace ++ [.seek k false]⟩, false)
    | none => sendRequest D a k ⟨s.resp, s.err, s.trace ++ [.seek k true]⟩
  else sendRequest D a k s

/-- The loop of `execRequest` over the attempts the retry timer delivers. -/
def execLoop (D : ErrorDecoder) (contentBody : ContentBody) (env : Nat → Attempt) :
    List Nat → Result → Result
  | [], s => s
  | k :: ks, s =>
    if (execAttempt D contentBody (env k) k s).2 then
      execLoop D contentBody env ks (execAttempt D contentBody (env k) k s).1
    else (execAttempt D contentBody (env k) k s).1

/-- Model of `ServerConfig.execRequest`: `maxRetry` is the value of `MaxRetry`,
`env k` what the surroundings do in round `k`. -/
def execRequest (D : ErrorDecoder) (maxRetry : Int) (contentBody : ContentBody)
    (env : Nat → Attempt) : Result :=
  execLoop D contentBody env (retryAttempts maxRetry) ⟨none, none, []⟩

/-! ## Vocabulary for the statements about retries -/

/-- An outcome that is retried, in the words of the specification: a network
error accepted by `isNetErrorRetryable`, or a response whose status is not
200, 204 or 206 and whose S3 error code is one of the nine listed or whose
status is 429, 500, 502 or 503. -/
def retryableOutcome (D : ErrorDecoder) : TransportOutcome → Bool
  | .failed _ err => isNetErrorRetryable err
  | .answered resp =>
    !([200, 204, 206].contains resp.StatusCode) &&
      ([lit "RequestError", lit "RequestTimeout", lit "Throttling", lit "ThrottlingException",
          lit "RequestLimitExceeded", lit "RequestThrottled", lit "InternalError",
          lit "ExpiredToken", lit "ExpiredTokenException"].contains
            (D.ofResponse resp.StatusCode resp.Body.readAll.1) ||
        [429, 500, 502, 503].contains resp.StatusCode)

/-- The error body of a response can be read: the read of the body of a
response without a success status ends without an error. -/
def TransportOutcome.readable : TransportOutcome → Bool
  | .failed _ _ => true
  | .answered resp => successStatus.contains resp.StatusCode || resp.Body.readAll.2.1.isNone

/-- The round gets as far as the network call: the rewind of a seekable body
and the construction of the request go well. -/
def Attempt.prepared (contentBody : ContentBody) (a : Attempt) : Bool :=
  (!decide (contentBody = .seekable) || a.seek.isNone) && a.newRequest.isNone

/-- The text of the first element opened by `tag`, up to the next `<`. -/
def tagText (tag : Str) : Str → Str
  | [] => []
  | c :: cs =>
    if tag.isPrefixOf (c :: cs) then ((c :: cs).drop tag.length).takeWhile (fun b => b != 60)
    else tagText tag cs

/-- Modelled from the spec: the error body is buffered and decoded as XML to
obtain an S3 error code. Here the code is the text of the element `Code`, the
whole buffered body is read, and an error of `newRequest` has no code. -/
def xmlDecoder : ErrorDecoder :=
  ⟨fun _ => [], fun _ body => tagText (lit "<Code>") body, fun _ body => body.length⟩

/-- An XML error body with the given code. -/
def errorBody (code : Str) : Str :=
  lit "<Error><Code>" ++ code ++ lit "</Code></Error>"

/-- A round in which the transport answers with a status and an error body. -/
def answer (status : Int) (code : Str) : Attempt :=
  ⟨none, none, .answered ⟨status, .stream (errorBody code) none⟩⟩

/-- A transport that always answers HTTP 500 with the code `InternalError`. -/
def alwaysInternalError : Nat → Attempt :=
  fun _ => answer 500 (lit "InternalError")

/-- A transport that answers HTTP 404 with the code `NoSuchKey`. -/
def noSuchKey : Nat → Attempt :=
  fun _ => answer 404 (lit "NoSuchKey")

/-- A transport that answers HTTP 503 twice and then HTTP 200. -/
def twiceUnavailable : Nat → Attempt :=
  fun k => if k ≤ 2 then answer 503 (lit "ServiceUnavailable")
    else ⟨none, none, .answered ⟨200, .stream (lit "hello") none⟩⟩

/-- A round in which the transport answers with a status and an error body
that breaks off: the read of the body ends with an error. -/
def brokenAnswer (status : Int) : Attempt :=
  ⟨none, none,
    .answered ⟨status, .stream (lit "<Err") (some ⟨.notNetError, lit "unexpected EOF"⟩)⟩⟩

/-- A transport that answers HTTP 503 with a body that breaks off, and HTTP 200
from then on. -/
def brokenThenOk : Nat → Attempt :=
  fun k => if k = 1 then brokenAnswer 503
    else ⟨none, none, .answered ⟨200, .stream (lit "hello") none⟩⟩

/-- A transport that always answers HTTP 500 with a body that breaks off. -/
def alwaysBroken : Nat → Attempt :=
  fun _ => brokenAnswer 500

/-- A seekable body whose rewind fails in the second round. -/
def seekFailsSecond : Nat → Attempt :=
  fun k => if k = 2 then ⟨some ⟨.notNetError, lit "seek failed"⟩, none,
      .answered ⟨500, .stream (errorBody (lit "InternalError")) none⟩⟩
    else answer 500 (lit "InternalError")


/-! ## The retry timer of s3verify/cmd/retry.go -/

/-- The conversion `uint(x)` of an `int`. -/
def toUint64 (x : Int) : Nat := (x % 2 ^ 64).toNat

/-- The shift `x << s` of an `int64` by an unsigned count: 0 from 64 bits on. -/
def shiftLeft64 (x : Int) (s : Nat) : Int :=
  if s < 64 then wrap64 (x * 2 ^ s) else 0

/-- The closure `binomialWait` of `newRetryTimer`:
`unit * time.Duration(1<<uint(attempt-1))`. -/
def binomialWait (unit attempt : Int) : Int :=
  wrap64 (unit * shiftLeft64 1 (toUint64 (wrap64 (attempt - 1))))

/-- What the goroutine of `newRetryTimer` does: it sends an attempt index on
the channel, it starts a timer and the timer fires, it starts a timer and the
done signal comes first, it closes the channel. -/
inductive TimerEvent
  | yield (attempt : Int)
  | wait (d : Int)
  | stop (d : Int)
  | close
  deriving DecidableEq

/-- The loop of the goroutine of `newRetryTimer` over the values of `i` that
are left; `doneFires i` tells whether the done signal is received in the
`select` of round `i`. The deferred `close(attemptCh)` ends every run. -/
def retryTimerFrom (unit : Int) (doneFires : Nat → Bool) : List Nat → List TimerEvent
  | [] => [.close]
  | i :: rest =>
    .yield ((i : Int) + 1) ::
      (if doneFires i then [.stop (binomialWait unit i), .close]
      else .wait (binomialWait unit i) :: retryTimerFrom unit doneFires rest)

/-- Model of `newRetryTimer(maxRetry, unit, doneCh)` with a receiver that takes
every value sent: the events of the goroutine, `i` running from 0 while
`i < maxRetry`. -/
def newRetryTimer (maxRetry unit : Int) (doneFires : Nat → Bool) : List TimerEvent :=
  retryTimerFrom unit doneFires (List.range maxRetry.toNat)

/-- The attempt index an event sends, if it sends one. -/
def TimerEvent.yielded : TimerEvent → Option Int
  | .yield attempt => some attempt
  | _ => none

/-- The attempt indices sent on the channel, in the order they are sent. -/
def yields (trace : List TimerEvent) : List Int :=
  trace.filterMap TimerEvent.yielded

/-- The waits between the attempt indices, in order. -/
def waits (trace : List TimerEvent) : List Int :=
  trace.filterMap (fun ev => match ev with
    | .wait d => some d
    | _ => none)

/-! ## s3verify/cmd/put-object.go -/

/-- The hexadecimal digits of a number, most significant first; `fuel` bounds
their number. -/
def hexNat : Nat → Nat → Str
  | 0, _ => []
  | fuel + 1, n => if n < 16 then [hexDigit n] else hexNat fuel (n / 16) ++ [hexDigit (n % 16)]

/-- Model of `fmt.Sprintf("%x", n)` for an `int64`: the hexadecimal digits of
the absolute value, after a minus sign when `n` is negative. -/
def sprintfHex (n : Int) : Str :=
  if n < 0 then 45 :: hexNat 16 (-n).toNat else hexNat 16 n.toNat

/-- Model of `calculateSignedChunkLength`. -/
def calculateSignedChunkLength (chunkDataSize : Int) : Int :=
  wrap64 ((sprintfHex chunkDataSize).length + 17 + 64 + 2 + chunkDataSize + 2)

/-- Model of `calculateStreamContentLength`; `none` is the panic of the integer
division by zero. -/
def calculateStreamContentLength (dataLen chunkSize : Int) : Option Int :=
  if dataLen ≤ 0 then some 0
  else if chunkSize = 0 then none
  else
    some (wrap64
      ((if Int.tmod dataLen chunkSize > 0 then
          wrap64 (wrap64 (0 + wrap64 (wrap64 (Int.tdiv dataLen chunkSize) *
            calculateSignedChunkLength chunkSize)) +
            calculateSignedChunkLength (Int.tmod dataLen chunkSize))
        else wrap64 (0 + wrap64 (wrap64 (Int.tdiv dataLen chunkSize) *
            calculateSignedChunkLength chunkSize))) +
        calculateSignedChunkLength 0))

/-- The length of the frame of a chunk of `n` bytes, in the words of the
specification: `len(hex(n)) + 17 + 64 + 2 + n + 2`. -/
def frame (n : Int) : Int :=
  (sprintfHex n).length + 17 + 64 + 2 + n + 2

/-- The declared length of a stream, in the words of the specification: the
frames of the full chunks, of the remainder chunk if there is one, and of the
zero-length chunk that ends the stream. -/
def streamFormula (dataLen chunkSize : Int) : Int :=
  dataLen / chunkSize * frame chunkSize +
    (if dataLen % chunkSize > 0 then frame (dataLen % chunkSize) else 0) + frame 0
end S3Verify


namespace Xray

open V4

/-! ## Package image of the standard library -/

/-- The type `image.Point`. -/
structure Point where
  X : Int
  Y : Int
  deriving DecidableEq

/-- The type `image.Rectangle`: the points with `Min.X <= x < Max.X` and
`Min.Y <= y < Max.Y`. -/
structure Rectangle where
  Min : Point
  Max : Point
  deriving DecidableEq

/-- The zero rectangle `image.ZR`, also the value of `image.Rectangle{}`. -/
def ZR : Rectangle := ⟨⟨0, 0⟩, ⟨0, 0⟩⟩

/-- Model of `image.Rect`: the coordinates are put in order. -/
def Rect (x0 y0 x1 y1 : Int) : Rectangle :=
  ⟨⟨if x0 > x1 then x1 else x0, if y0 > y1 then y1 else y0⟩,
    ⟨if x0 > x1 then x0 else x1, if y0 > y1 then y0 else y1⟩⟩

/-- Model of `Rectangle.Dx`. -/
def Rectangle.Dx (r : Rectangle) : Int := wrap64 (r.Max.X - r.Min.X)

/-- Model of `Rectangle.Dy`. -/
def Rectangle.Dy (r : Rectangle) : Int := wrap64 (r.Max.Y - r.Min.Y)

/-- Model of `Rectangle.Size`. -/
def Rectangle.Size (r : Rectangle) : Point :=
  ⟨wrap64 (r.Max.X - r.Min.X), wrap64 (r.Max.Y - r.Min.Y)⟩

/-- Model of `Rectangle.Empty`. -/
def Rectangle.Empty (r : Rectangle) : Bool :=
  decide (r.Min.X ≥ r.Max.X) || decide (r.Min.Y ≥ r.Max.Y)

/-- The receiver of `Rectangle.Intersect` after its four assignments: the
larger of the two `Min` and the smaller of the two `Max`, coordinate by
coordinate. -/
def Rectangle.clip (r s : Rectangle) : Rectangle :=
  ⟨⟨if r.Min.X < s.Min.X then s.Min.X else r.Min.X,
      if r.Min.Y < s.Min.Y then s.Min.Y else r.Min.Y⟩,
    ⟨if r.Max.X > s.Max.X then s.Max.X else r.Max.X,
      if r.Max.Y > s.Max.Y then s.Max.Y else r.Max.Y⟩⟩

/-- Model of `Rectangle.Intersect`: the largest rectangle inside both, the
zero rectangle when that is empty. -/
def Rectangle.Intersect (r s : Rectangle) : Rectangle :=
  if (r.clip s).Empty then ZR else r.clip s

/-- Model of `Rectangle.Union`: the smallest rectangle around both; an empty
rectangle does not count. -/
def Rectangle.Union (r s : Rectangle) : Rectangle :=
  if r.Empty then s
  else if s.Empty then r
  else
    ⟨⟨if r.Min.X > s.Min.X then s.Min.X else r.Min.X,
        if r.Min.Y > s.Min.Y then s.Min.Y else r.Min.Y⟩,
      ⟨if r.Max.X < s.Max.X then s.Max.X else r.Max.X,
        if r.Max.Y < s.Max.Y then s.Max.Y else r.Max.Y⟩⟩

/-- Model of `Rectangle.In`: every point of `r` is in `s`. -/
def Rectangle.In (r s : Rectangle) : Bool :=
  r.Empty ||
    (decide (s.Min.X ≤ r.Min.X) && decide (r.Max.X ≤ s.Max.X) &&
      decide (s.Min.Y ≤ r.Min.Y) && decide (r.Max.Y ≤ s.Max.Y))

/-- Model of `Point.In`: the point lies in the rectangle. -/
def Point.In (p : Point) (r : Rectangle) : Bool :=
  decide (r.Min.X ≤ p.X) && decide (p.X < r.Max.X) && decide (r.Min.Y ≤ p.Y) &&
    decide (p.Y < r.Max.Y)

/-- One coordinate of `Rectangle.Inset`: both sides moved inwards by `n`, or
both put at the middle when the side is shorter than `2 * n`. -/
def insetAxis (lo hi n : Int) : Int × Int :=
  if wrap64 (hi - lo) < wrap64 (2 * n) then
    (Int.tdiv (wrap64 (lo + hi)) 2, Int.tdiv (wrap64 (lo + hi)) 2)
  else (wrap64 (lo + n), wrap64 (hi - n))

/-- Model of `Rectangle.Inset`. -/
def Rectangle.Inset (r : Rectangle) (n : Int) : Rectangle :=
  ⟨⟨(insetAxis r.Min.X r.Max.X n).1, (insetAxis r.Min.Y r.Max.Y n).1⟩,
    ⟨(insetAxis r.Min.X r.Max.X n).2, (insetAxis r.Min.Y r.Max.Y n).2⟩⟩

/-! ## Package strconv of the standard library -/

/-- The errors `strconv.ErrSyntax` and `strconv.ErrRange`. -/
inductive NumError
  | ErrSyntax
  | ErrRange
  deriving DecidableEq

/-- The digits of a decimal numeral after its sign. -/
def unsigned : Str → Str
  | 43 :: rest => rest
  | 45 :: rest => rest
  | s => s

/-- The numeral starts with a minus sign. -/
def negative : Str → Bool
  | 45 :: _ => true
  | _ => false

/-- The loop of `strconv.ParseUint` for base 10 and 64 bits over the bytes that
are left, `n` being the value so far: a byte that is not a digit is a syntax
error, a value that no longer fits a `uint64` a range error, whichever comes
first. -/
def parseUintFrom : Str → Nat → Except NumError Nat
  | [], n => .ok n
  | c :: rest, n =>
    if !isDigit c then .error .ErrSyntax
    else if n ≥ (2 ^ 64 - 1) / 10 + 1 then .error .ErrRange
    else if n * 10 + (c - 48) ≥ 2 ^ 64 then .error .ErrRange
    else parseUintFrom rest (n * 10 + (c - 48))

/-- Model of `strconv.Atoi` for a 64-bit `int`: an optional sign and at least
one decimal digit, the value within the range of `int`. -/
def Atoi (s : Str) : Except NumError Int :=
  if unsigned s = [] then .error .ErrSyntax
  else
    match parseUintFrom (unsigned s) 0 with
    | .error err => .error err
    | .ok un =>
      if negative s then (if un > 2 ^ 63 then .error .ErrRange else .ok (-(un : Int)))
      else if un ≥ 2 ^ 63 then .error .ErrRange
      else .ok (un : Int)

/-- The operations on `float64` that the code uses, with the values of its
floating-point constants and `strconv.ParseFloat(s, 64)`: the conversions
`float64(n)` and `int(x)`, `+`, `*`, `/`, `>=`, the constants 0.002 and 0.004. -/
structure Float64 (F : Type) where
  ofInt : Int → F
  toInt : F → Int
  add : F → F → F
  mul : F → F → F
  div : F → F → F
  ge : F → F → Bool
  thresholdBase : F
  thresholdBoost : F
  ParseFloat : Str → Except NumError F

/-! ## xray/cmd/image.go -/

/-- The type `frameStruct`. -/
structure frameStruct where
  ID : Str
  Format : Str
  Width : Str
  Height : Str
  Rotation : Str
  Timestamp : Str
  deriving DecidableEq

/-- The type `pointStruct`. -/
structure pointStruct where
  X : Str
  Y : Str
  deriving DecidableEq

/-- The fields of `faceStruct` that the code reads. -/
structure faceStruct where
  ID : Str
  FacePT1 : pointStruct
  FacePT2 : pointStruct
  deriving DecidableEq

/-- The fields of `frameRecord` that the code reads. -/
structure frameRecord where
  ClientID : Str
  Frame : frameStruct
  Faces : List faceStruct
  deriving DecidableEq

/-- Model of `frameRecord.GetFullFrameRect`: the rectangle, the frame id and
the error. The height is converted from `fr.Frame.Width`, as in the source. -/
def frameRecord.GetFullFrameRect (fr : frameRecord) : Rectangle × Int × Option NumError :=
  match Atoi fr.Frame.Width with
  | .error err => (ZR, 0, some err)
  | .ok width =>
    match Atoi fr.Frame.Width with
    | .error err => (ZR, 0, some err)
    | .ok height =>
      match Atoi fr.Frame.ID with
      | .error err => (ZR, 0, some err)
      | .ok frameID => (⟨⟨0, 0⟩, ⟨width, height⟩⟩, frameID, none)

/-- The rectangle of one face in `GetFaceRectangles`, or the first error of
`strconv.ParseFloat`. -/
def faceRectangle {F : Type} (fl : Float64 F) (face : faceStruct) : Except NumError Rectangle :=
  match fl.ParseFloat face.FacePT1.X with
  | .error err => .error err
  | .ok x1 =>
    match fl.ParseFloat face.FacePT1.Y with
    | .error err => .error err
    | .ok y1 =>
      match fl.ParseFloat face.FacePT2.X with
      | .error err => .error err
      | .ok x2 =>
        match fl.ParseFloat face.FacePT2.Y with
        | .error err => .error err
        | .ok y2 => .ok ⟨⟨fl.toInt x1, fl.toInt y1⟩, ⟨fl.toInt x2, fl.toInt y2⟩⟩

/-- The loop of `GetFaceRectangles` over the faces that are left. -/
def faceRectangles {F : Type} (fl : Float64 F) :
    List faceStruct → List Rectangle → List Rectangle × Option NumError
  | [], faces => (faces, none)
  | face :: rest, faces =>
    match faceRectangle fl face with
    | .error err => ([], some err)
    | .ok rect => faceRectangles fl rest (faces ++ [rect])

/-- Model of `frameRecord.GetFaceRectangles`. -/
def frameRecord.GetFaceRectangles {F : Type} (fl : Float64 F) (fr : frameRecord) :
    List Rectangle × Option NumError :=
  faceRectangles fl fr.Faces []

/-- The constant `zoomOutBorderSize`. -/
def zoomOutBorderSize : Int := 50

/-- The constant `nozoomBorderSize`. -/
def nozoomBorderSize : Int := 75

/-- The constant `zoomBoost`. -/
def zoomBoost : Int := 5

/-- The value of `final` in `calculateOptimalZoomFactor`: the union of the
rectangles, from the zero rectangle on. -/
def unionAll (rects : List Rectangle) : Rectangle :=
  rects.foldl Rectangle.Union ZR

/-- The value of `inset` in `calculateOptimalZoomFactor`. -/
def zoomInset (zoomInBox1 : Rectangle) : Int :=
  if zoomInBox1.Size.X < zoomInBox1.Size.Y then
    Int.tdiv (Int.tdiv zoomInBox1.Size.X 4) 2
  else Int.tdiv (Int.tdiv zoomInBox1.Size.Y 4) 2

/-- Model of `calculateOptimalZoomFactor`. -/
def calculateOptimalZoomFactor (rects : List Rectangle) (boundingBox : Rectangle) : Int :=
  if (unionAll rects).Empty then -1
  else if (unionAll rects).In
      ((((boundingBox.Inset zoomOutBorderSize).Inset nozoomBorderSize).Inset
        (zoomInset ((boundingBox.Inset zoomOutBorderSize).Inset nozoomBorderSize))).Inset
        (zoomInset ((boundingBox.Inset zoomOutBorderSize).Inset nozoomBorderSize))) then
    3 * zoomBoost
  else if (unionAll rects).In
      (((boundingBox.Inset zoomOutBorderSize).Inset nozoomBorderSize).Inset
        (zoomInset ((boundingBox.Inset zoomOutBorderSize).Inset nozoomBorderSize))) then
    2 * zoomBoost
  else if (unionAll rects).In ((boundingBox.Inset zoomOutBorderSize).Inset nozoomBorderSize) then
    1 * zoomBoost
  else if (unionAll rects).In (boundingBox.Inset zoomOutBorderSize) then 0
  else -1 * zoomBoost

/-! ## xray/cmd/motion.go -/

/-- The function `max` of motion.go. -/
def max (a b : Int) : Int := if a > b then a else b

/-- The function `min` of motion.go. -/
def min (a b : Int) : Int := if a < b then a else b

/-- The rectangles `XorRects` returns for two rectangles that overlap, from the
sorted coordinates `a <= b < c <= d` and `e <= f < g <= h`: the four pieces
next to the sides of the intersection, and two corner pieces. -/
def xorPieces (r s : Rectangle) (a b c d e f g h : Int) : List Rectangle :=
  [Rect b e c f, Rect a f b g, Rect c f d g, Rect b g c h] ++
    (if (r.Min.X = a ∧ r.Min.Y = e) ∨ (s.Min.X = a ∧ s.Min.Y = e) then
      [Rect a e b f, Rect c g d h]
    else [Rect c e d f, Rect a g b h])

/-- Model of `XorRects`. -/
def XorRects (r s : Rectangle) : List Rectangle :=
  if (r.Intersect s).Empty then [r, s]
  else
    xorPieces r s (min r.Min.X s.Min.X) (max r.Min.X s.Min.X) (min r.Max.X s.Max.X)
      (max r.Max.X s.Max.X) (min r.Min.Y s.Min.Y) (max r.Min.Y s.Min.Y)
      (min r.Max.Y s.Max.Y) (max r.Max.Y s.Max.Y)

/-- The value `Min.X + Dx()` that `findClosestRectangle` takes for the centre
of a rectangle in x. -/
def Rectangle.centerX (r : Rectangle) : Int := wrap64 (r.Min.X + r.Dx)

/-- The value `Min.Y + Dy()` that `findClosestRectangle` takes for the centre
of a rectangle in y. -/
def Rectangle.centerY (r : Rectangle) : Int := wrap64 (r.Min.Y + r.Dy)

/-- The value of `di` in `findClosestRectangle`. -/
def squareDistance (prevCenterX prevCenterY nextCenterX nextCenterY : Int) : Int :=
  wrap64 (wrap64 (wrap64 (prevCenterX - nextCenterX) * wrap64 (prevCenterX - nextCenterX)) +
    wrap64 (wrap64 (prevCenterY - nextCenterY) * wrap64 (prevCenterY - nextCenterY)))

/-- The loop of `findClosestRectangle` from index `j` on, with the values of
`n` and `distance` so far. -/
def findClosestFrom (prevCenterX prevCenterY : Int) :
    List Rectangle → Int → Int → Int → Int
  | [], _, n, _ => n
  | next :: rest, j, n, distance =>
    if squareDistance prevCenterX prevCenterY next.centerX next.centerY < distance then
      findClosestFrom prevCenterX prevCenterY rest (j + 1) j
        (squareDistance prevCenterX prevCenterY next.centerX next.centerY)
    else findClosestFrom prevCenterX prevCenterY rest (j + 1) n distance

/-- Model of `findClosestRectangle`: `n` starts at -1 and `distance` at
`math.MaxInt64`. -/
def findClosestRectangle (face : Rectangle) (faces : List Rectangle) : Int :=
  findClosestFrom face.centerX face.centerY faces 0 (-1) (2 ^ 63 - 1)

/-- The value of `diff` at the end of the loop of `sumAreas`. -/
def sumAreasInt (rects : List Rectangle) : Int :=
  rects.foldl (fun diff r => wrap64 (diff + wrap64 (r.Dx * r.Dy))) 0

/-- Model of `sumAreas`. -/
def sumAreas {F : Type} (fl : Float64 F) (rects : List Rectangle) : F :=
  fl.ofInt (sumAreasInt rects)

/-- The element `l[i]` of a slice; `none` is the panic of an index out of
range. -/
def index {α : Type} (l : List α) (i : Int) : Option α :=
  if i < 0 then none else l.get? i.toNat

/-- The first loop of `analyseBetweenFrames`, over the faces of the next frame
that have a face of the previous frame to go with. -/
def analysePaired {F : Type} (fl : Float64 F) (prevFaces : List Rectangle) :
    List Rectangle → F → Option F
  | [], result => some result
  | nextFace :: rest, result =>
    match index prevFaces (findClosestRectangle nextFace prevFaces) with
    | none => none
    | some prevFace =>
      analysePaired fl prevFaces rest (fl.add result (sumAreas fl (XorRects prevFace nextFace)))

/-- The second loop of `analyseBetweenFrames`, over the new faces. -/
def analyseNew {F : Type} (fl : Float64 F) : List Rectangle → F → F
  | [], result => result
  | nextFace :: rest, result =>
    analyseNew fl rest (fl.add result (sumAreas fl (XorRects ZR nextFace)))

/-- Model of `analyseBetweenFrames`; `none` is a panic. -/
def analyseBetweenFrames {F : Type} (fl : Float64 F) (prev next : frameRecord) : Option F :=
  match analysePaired fl (prev.GetFaceRectangles fl).1
      ((next.GetFaceRectangles fl).1.take
        (Min.min (prev.GetFaceRectangles fl).1.length (next.GetFaceRectangles fl).1.length))
      (fl.ofInt 0) with
  | none => none
  | some result =>
    some (fl.div
      (analyseNew fl
        ((next.GetFaceRectangles fl).1.drop
          (Min.min (prev.GetFaceRectangles fl).1.length (next.GetFaceRectangles fl).1.length))
        result)
      (fl.ofInt (wrap64 (prev.GetFullFrameRect.1.Dx * prev.GetFullFrameRect.1.Dy))))

/-- The type `motionRecorder`, without its mutex; a `time.Time` is a reading of
the monotonic clock in nanoseconds. -/
structure motionRecorder (F : Type) where
  prevFrame : Option frameRecord
  lastFrameHasFaces : Bool
  frameMotions : List F
  snapshotTimestamps : List Int

/-- Model of `motionRecorder.analyze`. -/
def motionRecorder.analyze {F : Type} (fl : Float64 F) (mr : motionRecorder F) : F :=
  mr.frameMotions.foldl fl.add (fl.ofInt 0)

/-- The constant `maxFrames`. -/
def maxFrames : Nat := 30

/-- The constant `maxTimestamps`. -/
def maxTimestamps : Nat := 10

/-- The constant `minimalTimestampDiff`, in nanoseconds. -/
def minimalTimestampDiff : Int := 5 * 1000000000

/-- The constant `maxTimestampsAge`, in nanoseconds. -/
def maxTimestampsAge : Int := 60 * 1000000000

/-- The loop of `threshold` with `itime = n - 1`: the value of `itime` when the
loop is left, and the number of clock readings taken so far. `clock k` is the
`k`-th reading of the clock, and `time.Since(t)` is a reading minus `t`. -/
def thresholdScan (clock : Nat → Int) (timestamps : List Int) : Nat → Nat → Int × Nat
  | 0, tick => (-1, tick)
  | n + 1, tick =>
    if clock tick - timestamps.getD n 0 ≥ maxTimestampsAge then ((n : Int), tick + 1)
    else thresholdScan clock timestamps n (tick + 1)

/-- The timestamps that `threshold` keeps. -/
def keptTimestamps (clock : Nat → Int) (timestamps : List Int) (tick : Nat) : List Int :=
  if (thresholdScan clock timestamps timestamps.length tick).1 > 0 then
    timestamps.drop (thresholdScan clock timestamps timestamps.length tick).1.toNat
  else timestamps

/-- Model of `motionRecorder.threshold`: its result, the recorder after it and
the number of clock readings taken so far. -/
def motionRecorder.threshold {F : Type} (fl : Float64 F) (clock : Nat → Int)
    (mr : motionRecorder F) (tick : Nat) : F × motionRecorder F × Nat :=
  (fl.add fl.thresholdBase
      (fl.div
        (fl.mul fl.thresholdBoost
          (fl.ofInt (keptTimestamps clock mr.snapshotTimestamps tick).length))
        (fl.ofInt maxTimestamps)),
    ⟨mr.prevFrame, mr.lastFrameHasFaces, mr.frameMotions,
      keptTimestamps clock mr.snapshotTimestamps tick⟩,
    (thresholdScan clock mr.snapshotTimestamps mr.snapshotTimestamps.length tick).2)

/-- A slice after `append(s, x)` and the cut `s = s[1:]` when it is longer
than `limit`. -/
def appendBounded {α : Type} (s : List α) (x : α) (limit : Nat) : List α :=
  if (s ++ [x]).length > limit then (s ++ [x]).drop 1 else s ++ [x]

/-- Model of `motionRecorder.Append` for a frame record that is not nil; `none`
is a panic. -/
def motionRecorder.Append {F : Type} (fl : Float64 F) (mr : motionRecorder F)
    (fr : frameRecord) : Option (motionRecorder F) :=
  match mr.prevFrame with
  | none => some ⟨some fr, decide (fr.Faces.length > 0), mr.frameMotions, mr.snapshotTimestamps⟩
  | some prev =>
    match analyseBetweenFrames fl prev fr with
    | none => none
    | some diff =>
      some ⟨some fr, decide (fr.Faces.length > 0), appendBounded mr.frameMotions diff maxFrames,
        mr.snapshotTimestamps⟩

/-- Model of `motionRecorder.DetectMotion`: its result, the recorder after it
and the number of clock readings taken so far. -/
def motionRecorder.DetectMotion {F : Type} (fl : Float64 F) (clock : Nat → Int)
    (mr : motionRecorder F) (tick : Nat) : Bool × motionRecorder F × Nat :=
  match mr.snapshotTimestamps.getLast? with
  | some last =>
    if clock tick - last < minimalTimestampDiff then (false, mr, tick + 1)
    else if fl.ge (mr.analyze fl) (mr.threshold fl clock (tick + 1)).1 then
      (mr.lastFrameHasFaces,
        ⟨mr.prevFrame, mr.lastFrameHasFaces, mr.frameMotions,
          appendBounded (mr.threshold fl clock (tick + 1)).2.1.snapshotTimestamps
            (clock (mr.threshold fl clock (tick + 1)).2.2) maxTimestamps⟩,
        (mr.threshold fl clock (tick + 1)).2.2 + 1)
    else (false, (mr.threshold fl clock (tick + 1)).2.1, (mr.threshold fl clock (tick + 1)).2.2)
  | none =>
    if fl.ge (mr.analyze fl) (mr.threshold fl clock tick).1 then
      (mr.lastFrameHasFaces,
        ⟨mr.prevFrame, mr.lastFrameHasFaces, mr.frameMotions,
          appendBounded (mr.threshold fl clock tick).2.1.snapshotTimestamps
            (clock (mr.threshold fl clock tick).2.2) maxTimestamps⟩,
        (mr.threshold fl clock tick).2.2 + 1)
    else (false, (mr.threshold fl clock tick).2.1, (mr.threshold fl clock tick).2.2)

/-- A call of a method of a `motionRecorder`. -/
inductive Call
  | Append (fr : frameRecord)
  | DetectMotion

/-- A sequence of calls on a recorder, one after the other; `none` is a panic. -/
def runCalls {F : Type} (fl : Float64 F) (clock : Nat → Int) :
    List Call → motionRecorder F × Nat → Option (motionRecorder F × Nat)
  | [], state => some state
  | .Append fr :: rest, state =>
    match state.1.Append fl fr with
    | none => none
    | some mr => runCalls fl clock rest (mr, state.2)
  | .DetectMotion :: rest, state =>
    runCalls fl clock rest
      ((state.1.DetectMotion fl clock state.2).2.1, (state.1.DetectMotion fl clock state.2).2.2)

/-- The value of `motionRecorder{}`. -/
def emptyRecorder (F : Type) : motionRecorder F := ⟨none, false, [], []⟩

/-! ## Vocabulary for the statements about rectangles and the recorder -/

/-- The area of a rectangle, as a number: width times height. -/
def area (r : Rectangle) : Int :=
  (r.Max.X - r.Min.X) * (r.Max.Y - r.Min.Y)

/-- A rectangle is well formed: `Min.X <= Max.X` and `Min.Y <= Max.Y`. -/
def Rectangle.wellFormed (r : Rectangle) : Prop :=
  r.Min.X ≤ r.Max.X ∧ r.Min.Y ≤ r.Max.Y

/-- The rectangle `r` lies to the lower left of `s`: no coordinate of `r` is
beyond that of `s`. -/
def lowerLeft (r s : Rectangle) : Prop :=
  r.Min.X ≤ s.Min.X ∧ r.Min.Y ≤ s.Min.Y ∧ r.Max.X ≤ s.Max.X ∧ r.Max.Y ≤ s.Max.Y

/-- The rectangle `r` lies to the upper left of `s`: it starts before `s` in x
and after `s` in y, and ends not after `s` in x and not before `s` in y. -/
def upperLeft (r s : Rectangle) : Prop :=
  r.Min.X < s.Min.X ∧ s.Min.Y < r.Min.Y ∧ r.Max.X ≤ s.Max.X ∧ s.Max.Y ≤ r.Max.Y

/-- The centre of a rectangle: `Min` plus half the size. -/
def centre (r : Rectangle) : Point :=
  ⟨r.Min.X + (r.Max.X - r.Min.X) / 2, r.Min.Y + (r.Max.Y - r.Min.Y) / 2⟩

/-- The squared Euclidean distance of two points. -/
def squaredEuclidean (p q : Point) : Int :=
  (p.X - q.X) * (p.X - q.X) + (p.Y - q.Y) * (p.Y - q.Y)

/-- Integers in place of `float64` values, for the examples: the conversions do
nothing, the division is that of integers, the two constants are 0 and
`ParseFloat` reads decimal integers. -/
def intFloat : Float64 Int :=
  ⟨fun n => n, fun x => x, fun x y => x + y, fun x y => x * y, fun x y => Int.tdiv x y,
    fun x y => decide (x ≥ y), 0, 0, Atoi⟩

/-- A frame record of 960 by 720 pixels with the given id and no face. -/
def frameOf (id : Str) : frameRecord :=
  ⟨lit "camera", ⟨id, lit "17", lit "960", lit "720", lit "2", lit "100"⟩, []⟩

/-- The frames appended by a sequence of calls, in order. -/
def framesOf : List Call → List frameRecord
  | [] => []
  | .Append fr :: rest => fr :: framesOf rest
  | .DetectMotion :: rest => framesOf rest

/-- The motion between each frame of a list and the next one. -/
def motionsOf {F : Type} (fl : Float64 F) : List frameRecord → List (Option F)
  | [] => []
  | [_] => []
  | prev :: next :: rest => analyseBetweenFrames fl prev next :: motionsOf fl (next :: rest)

/-- A clock that advances by one second with every reading. -/
def secondsClock : Nat → Int :=
  fun k => (k : Int) * 1000000000

end Xray

namespace V4

/-! ## Sorting of header names -/

theorem strLe_refl (a : Str) : strLe a a = true := by
  induction a with
  | nil => rfl
  | cons x xs ih => simp [strLe, ih]

theorem strLe_total (a b : Str) : strLe a b = true ∨ strLe b a = true := by
  induction a generalizing b with
  | nil => left; rfl
  | cons x xs ih =>
    cases b with
    | nil => right; rfl
    | cons y ys =>
      simp only [strLe, Bool.or_eq_true, Bool.and_eq_true, decide_eq_true_eq]
      rcases Nat.lt_trichotomy x y with h | h | h
      · left; left; exact h
      · subst h
        rcases ih ys with h1 | h1
        · left; right; exact ⟨rfl, h1⟩
        · right; right; exact ⟨rfl, h1⟩
      · right; left; exact h

theorem strLe_trans {a b c : Str} (hab : strLe a b = true) (hbc : strLe b c = true) :
    strLe a c = true := by
  induction a generalizing b c with
  | nil => rfl
  | cons x xs ih =>
    cases b with
    | nil => simp [strLe] at hab
    | cons y ys =>
      cases c with
      | nil => simp [strLe] at hbc
      | cons z zs =>
        simp only [strLe, Bool.or_eq_true, Bool.and_eq_true, decide_eq_true_eq] at hab hbc ⊢
        rcases hab with h1 | ⟨h1, h2⟩
        · rcases hbc with h3 | ⟨h3, _⟩
          · left; omega
          · left; omega
        · rcases hbc with h3 | ⟨h3, h4⟩
          · left; omega
          · right; exact ⟨by omega, ih h2 h4⟩

theorem strLe_antisymm {a b : Str} (hab : strLe a b = true) (hba : strLe b a = true) : a = b := by
  induction a generalizing b with
  | nil => cases b with
    | nil => rfl
    | cons y ys => simp [strLe] at hba
  | cons x xs ih =>
    cases b with
    | nil => simp [strLe] at hab
    | cons y ys =>
      simp only [strLe, Bool.or_eq_true, Bool.and_eq_true, decide_eq_true_eq] at hab hba
      rcases hab with h1 | ⟨h1, h2⟩
      · rcases hba with h3 | ⟨h3, _⟩ <;> omega
      · rcases hba with h3 | ⟨_, h4⟩
        · omega
        · rw [h1, ih h2 h4]

instance strLe_isTotal : IsTotal Str (fun a b => strLe a b = true) := ⟨strLe_total⟩

instance strLe_isTrans : IsTrans Str (fun a b => strLe a b = true) :=
  ⟨fun _ _ _ h1 h2 => strLe_trans h1 h2⟩

instance strLe_isAntisymm : IsAntisymm Str (fun a b => strLe a b = true) :=
  ⟨fun _ _ h1 h2 => strLe_antisymm h1 h2⟩

theorem sortStrings_sorted (l : List Str) :
    (sortStrings l).Sorted (fun a b => strLe a b = true) :=
  List.sorted_insertionSort _ l

theorem sortStrings_perm (l : List Str) : (sortStrings l).Perm l :=
  List.perm_insertionSort _ l

theorem mem_sortStrings {l : List Str} {x : Str} : x ∈ sortStrings l ↔ x ∈ l :=
  List.mem_insertionSort _

/-- The order of iteration over the map does not matter: permuted lists of names
sort to the same list. -/
theorem sortStrings_eq_of_perm {l₁ l₂ : List Str} (h : l₁.Perm l₂) :
    sortStrings l₁ = sortStrings l₂ :=
  List.eq_of_perm_of_sorted (((sortStrings_perm l₁).trans h).trans (sortStrings_perm l₂).symm)
    (sortStrings_sorted l₁) (sortStrings_sorted l₂)

theorem ignoredHeaders_iff (l : Str) :
    ignoredHeaders l = true ↔
      l = lit "authorization" ∨ l = lit "content-type" ∨ l = lit "content-length" ∨
        l = lit "user-agent" := by
  simp [ignoredHeaders, List.contains_iff_exists_mem_beq]

/-- The iteration order of the map does not change the signed header list. -/
theorem signedHeaders_perm_invariant (U : CaseTables) {headers headers2 : Header}
    (hp : headers2.Perm headers) : signedHeaders U headers2 = signedHeaders U headers :=
  sortStrings_eq_of_perm ((hp.map _).filter _)

/-- C8: `signedHeaders` returns, in ascending byte-lexicographic order, the
lower-cased names of exactly those headers of the map whose lower-cased name is
not `authorization`, `content-type`, `content-length` or `user-agent`, each as
often as the map has it; and `getSignedHeaders` is that list joined by ";". -/
theorem signedHeaders_sorted_selection (U : CaseTables) (headers : Header) :
    (signedHeaders U headers).Sorted (fun a b => strLe a b = true) ∧
    (signedHeaders U headers).Perm
      ((headers.map (fun e => ToLower U e.1)).filter (fun l =>
        !decide (l = lit "authorization" ∨ l = lit "content-type" ∨ l = lit "content-length" ∨
          l = lit "user-agent"))) ∧
    getSignedHeaders U headers = Join (signedHeaders U headers) (lit ";") := by
  have hfilter : (fun l : Str => !ignoredHeaders l) = (fun l : Str =>
      !decide (l = lit "authorization" ∨ l = lit "content-type" ∨ l = lit "content-length" ∨
        l = lit "user-agent")) := by
    funext l
    by_cases h : l = lit "authorization" ∨ l = lit "content-type" ∨ l = lit "content-length" ∨
        l = lit "user-agent"
    · simp [h, (ignoredHeaders_iff l).2 h]
    · have : ignoredHeaders l = false := by
        rw [← Bool.not_eq_true]; exact fun hc => h ((ignoredHeaders_iff l).1 hc)
      simp [h, this]
  refine ⟨sortStrings_sorted _, ?_, rfl⟩
  rw [← hfilter]; exact sortStrings_perm _

/-! ## Canonical headers -/

theorem Join_append_sep (l : List Str) (sep : Str) (hl : l ≠ []) :
    Join l sep ++ sep = l.flatMap (fun a => a ++ sep) := by
  induction l with
  | nil => exact absurd rfl hl
  | cons a t ih =>
    cases t with
    | nil => simp [Join]
    | cons b t2 =>
      have := ih (List.cons_ne_nil b t2)
      simp only [Join, List.flatMap_cons, List.append_assoc] at this ⊢
      rw [this]

/-- C9, counterexample: with no signed header the canonical headers are a lone
newline, not the empty concatenation of zero lines. -/
theorem getCanonicalHeaders_empty_ne :
    getCanonicalHeaders asciiTables [] ≠
      (signedHeaders asciiTables []).flatMap (canonicalHeaderLine []) := by
  decide

/-- Joining the lines with new lines and adding a final new line ends every
line with a new line, as soon as there is a line. -/
theorem getCanonicalHeaders_flatMap (U : CaseTables) (headers : Header)
    (hne : signedHeaders U headers ≠ []) :
    getCanonicalHeaders U headers =
      (signedHeaders U headers).flatMap (canonicalHeaderLine headers) := by
  unfold getCanonicalHeaders
  rw [Join_append_sep _ _ (by simpa using hne), List.flatMap_map]
  rfl

/-- C9, amended: when at least one header is signed, `getCanonicalHeaders` is the
concatenation, over the signed header names in sorted order, of one line
`name:values\n` per name, where the values are those stored under the canonical
MIME form of the name, joined by ",". -/
theorem getCanonicalHeaders_lines (U : CaseTables) (headers : Header)
    (hne : signedHeaders U headers ≠ []) :
    getCanonicalHeaders U headers =
      (signedHeaders U headers).flatMap (canonicalHeaderLine headers) :=
  getCanonicalHeaders_flatMap U headers hne

/-- Witness of `getCanonicalHeaders_lines`: a map with one signed header. -/
theorem getCanonicalHeaders_lines_witness :
    signedHeaders asciiTables trimmedHeader ≠ [] ∧
    getCanonicalHeaders asciiTables trimmedHeader =
      (signedHeaders asciiTables trimmedHeader).flatMap (canonicalHeaderLine trimmedHeader) :=
  ⟨by decide, getCanonicalHeaders_lines asciiTables trimmedHeader (by decide)⟩

/-- C10, the code at the failing input: the value " a " is written with its
surrounding spaces, so it is not the trimmed value, and the map with the
trimmed value gives other canonical headers. -/
theorem getCanonicalHeaders_not_trimmed :
    getCanonicalHeaders asciiTables paddedHeader = lit "x-foo: a \n" ∧
    getCanonicalHeaders asciiTables paddedHeader ≠
      lit "x-foo:" ++ TrimSpace (lit " a ") ++ lit "\n" ∧
    getCanonicalHeaders asciiTables paddedHeader ≠ getCanonicalHeaders asciiTables trimmedHeader := by
  decide

/-! ## The header map -/

theorem lookup_filter_ne (h : Header) {k k2 : Str} (hk : k2 ≠ k) :
    List.lookup k2 (h.filter (fun e => !decide (e.1 = k))) = List.lookup k2 h := by
  induction h with
  | nil => rfl
  | cons e t ih =>
    obtain ⟨a, vs⟩ := e
    by_cases ha : a = k
    · subst ha
      have : (k2 == a) = false := by simpa using hk
      simp [List.filter, List.lookup, this, ih]
    · by_cases h2 : k2 = a
      · subst h2
        simp [List.filter, ha, List.lookup]
      · have : (k2 == a) = false := by simpa using h2
        simp [List.filter, ha, List.lookup, this, ih]

theorem Header.index_Set_same (h : Header) (key value : Str) :
    (h.Set key value).index (CanonicalMIMEHeaderKey key) = [value] := by
  simp [Header.Set, Header.index, List.lookup]

theorem Header.index_Set_other (h : Header) (key value : Str) {k2 : Str}
    (hk : k2 ≠ CanonicalMIMEHeaderKey key) : (h.Set key value).index k2 = h.index k2 := by
  have : (k2 == CanonicalMIMEHeaderKey key) = false := by simpa using hk
  simp [Header.Set, Header.index, List.lookup, this, lookup_filter_ne h hk]

theorem Header.index_assign_other (h : Header) (key : Str) (values : List Str) {k2 : Str}
    (hk : k2 ≠ key) : (h.assign key values).index k2 = h.index k2 := by
  have : (k2 == key) = false := by simpa using hk
  simp [Header.assign, Header.index, List.lookup, this, lookup_filter_ne h hk]

theorem Header.index_delete_other (h : Header) (key : Str) {k2 : Str}
    (hk : k2 ≠ key) : (h.delete key).index k2 = h.index k2 := by
  simp [Header.delete, Header.index, lookup_filter_ne h hk]

theorem Header.Get_of_index_eq {h1 h2 : Header} {key : Str}
    (h : h1.index (CanonicalMIMEHeaderKey key) = h2.index (CanonicalMIMEHeaderKey key)) :
    h1.Get key = h2.Get key := by
  simp [Header.Get, h]

theorem Join3 (a b c sep : Str) : Join [a, b, c] sep = a ++ sep ++ b ++ sep ++ c := by
  simp [Join]

/-! ## Verification reads the declared headers only -/

/-- `getRequestSignedHeaders` written with `declaredSignedHeaders`. -/
theorem getRequestSignedHeaders_eq (r : Request) :
    getRequestSignedHeaders r =
      if (Split (r.Header.Get (lit "Authorization")) 32).length < 3 then some []
      else
        match (Split ((Split (r.Header.Get (lit "Authorization")) 32).getD 2 []) 61).get? 1 with
        | none => none
        | some _ =>
          some (((declaredSignedHeaders r).foldl (fun (h : Header) d =>
            h.Set d (r.Header.Get d)) []).Set (lit "Host") r.Host) := by
  unfold getRequestSignedHeaders declaredSignedHeaders
  by_cases h3 : (Split (r.Header.Get (lit "Authorization")) 32).length < 3
  · simp [h3]
  · have h2 : ¬ (Split (r.Header.Get (lit "Authorization")) 32).length < 2 := by omega
    simp only [h3, h2, if_false]
    cases hg : (Split ((Split (r.Header.Get (lit "Authorization")) 32).getD 2 []) 61).get? 1 with
    | none => rfl
    | some names => simp [List.foldl_map]

theorem foldl_Set_congr (g1 g2 : Str → Str) (l : List Str) (h0 : Header)
    (hg : ∀ d ∈ l, g1 d = g2 d) :
    l.foldl (fun (h : Header) d => h.Set d (g1 d)) h0 =
      l.foldl (fun (h : Header) d => h.Set d (g2 d)) h0 := by
  induction l generalizing h0 with
  | nil => rfl
  | cons d t ih =>
    simp only [List.foldl_cons]
    rw [hg d (List.mem_cons_self _ _)]
    exact ih _ (fun x hx => hg x (List.mem_cons_of_mem _ hx))

/-- Two requests that agree on method, path, query, host, Authorization value
and on the value of every declared signed header verify alike. -/
theorem IsSigned_congr (U : CaseTables) (c : CredentialsV4) (r1 r2 : Request)
    (hm : r1.Method = r2.Method) (hp : r1.Path = r2.Path) (hq : r1.RawQuery = r2.RawQuery)
    (hh : r1.Host = r2.Host)
    (ha : r1.Header.Get (lit "Authorization") = r2.Header.Get (lit "Authorization"))
    (hd : ∀ d ∈ declaredSignedHeaders r1, r1.Header.Get d = r2.Header.Get d) :
    c.IsSigned U r1 = c.IsSigned U r2 := by
  have hdecl : declaredSignedHeaders r1 = declaredSignedHeaders r2 := by
    simp [declaredSignedHeaders, ha]
  have hg : getRequestSignedHeaders r1 = getRequestSignedHeaders r2 := by
    rw [getRequestSignedHeaders_eq, getRequestSignedHeaders_eq, ← hdecl, ← ha, ← hh,
      foldl_Set_congr (fun d => r1.Header.Get d) (fun d => r2.Header.Get d) _ _ hd]
  unfold CredentialsV4.IsSigned
  rw [hg, ha, hm, hp, hq]

/-- C6: changing, adding (`headers[k] = values`) or removing (`delete`) a header
`k` that is neither Authorization nor the canonical form of a name declared in
the SignedHeaders list of the Authorization value leaves the result of
`IsSigned` as it was. -/
theorem IsSigned_unsigned_header_irrelevant (U : CaseTables) (c : CredentialsV4) (r : Request)
    (k : Str) (hauth : k ≠ lit "Authorization")
    (hk : ∀ d ∈ declaredSignedHeaders r, CanonicalMIMEHeaderKey d ≠ k) :
    (∀ values : List Str, c.IsSigned U (r.withHeader (r.Header.assign k values)) = c.IsSigned U r) ∧
    c.IsSigned U (r.withHeader (r.Header.delete k)) = c.IsSigned U r := by
  have hcanon : CanonicalMIMEHeaderKey (lit "Authorization") ≠ k := by
    have : CanonicalMIMEHeaderKey (lit "Authorization") = lit "Authorization" := by decide
    rw [this]; exact fun h => hauth h.symm
  constructor
  · intro values
    refine (IsSigned_congr U c r (r.withHeader (r.Header.assign k values))
      rfl rfl rfl rfl ?_ ?_).symm
    · exact Header.Get_of_index_eq (Header.index_assign_other _ _ _ hcanon).symm
    · intro d hd
      exact Header.Get_of_index_eq (Header.index_assign_other _ _ _ (hk d hd)).symm
  · refine (IsSigned_congr U c r (r.withHeader (r.Header.delete k)) rfl rfl rfl rfl ?_ ?_).symm
    · exact Header.Get_of_index_eq (Header.index_delete_other _ _ hcanon).symm
    · intro d hd
      exact Header.Get_of_index_eq (Header.index_delete_other _ _ (hk d hd)).symm

/-- The names the signed example request declares. -/
theorem exampleSigned_declared :
    declaredSignedHeaders exampleSigned =
      [lit "accept", lit "host", lit "x-amz-content-sha256", lit "x-amz-date"] := by
  decide!

/-- Witness of `IsSigned_unsigned_header_irrelevant`: the header `Accept-Language`
is not declared by the Authorization value of the signed example request. -/
theorem IsSigned_unsigned_header_irrelevant_witness :
    (lit "Accept-Language" ≠ lit "Authorization" ∧
      ∀ d ∈ declaredSignedHeaders exampleSigned,
        CanonicalMIMEHeaderKey d ≠ lit "Accept-Language") ∧
    ((∀ values : List Str,
        exampleCreds.IsSigned asciiTables
          (exampleSigned.withHeader (exampleSigned.Header.assign (lit "Accept-Language") values)) =
          exampleCreds.IsSigned asciiTables exampleSigned) ∧
      exampleCreds.IsSigned asciiTables
          (exampleSigned.withHeader (exampleSigned.Header.delete (lit "Accept-Language"))) =
        exampleCreds.IsSigned asciiTables exampleSigned) :=
  ⟨⟨by decide, by rw [exampleSigned_declared]; decide⟩,
    IsSigned_unsigned_header_irrelevant asciiTables exampleCreds exampleSigned
      (lit "Accept-Language") (by decide) (by rw [exampleSigned_declared]; decide)⟩

/-! ## What `Sign` changes -/

theorem ToLower_Authorization (U : CaseTables) :
    ToLower U (lit "Authorization") = lit "authorization" := by rfl

theorem ToLower_Host (U : CaseTables) : ToLower U (lit "Host") = lit "host" := by rfl

theorem signedHeaders_Set_Authorization (U : CaseTables) (h : Header) (v : Str) :
    signedHeaders U (h.Set (lit "Authorization") v) = signedHeaders U h := by
  have hc : CanonicalMIMEHeaderKey (lit "Authorization") = lit "Authorization" := by decide
  have hig : ignoredHeaders (lit "authorization") = true := by decide
  unfold signedHeaders Header.Set
  rw [hc]
  congr 1
  simp only [List.map_cons, ToLower_Authorization, List.filter_cons, hig, Bool.not_true,
    Bool.false_eq_true, if_false]
  induction h with
  | nil => rfl
  | cons e t ih =>
    by_cases he : e.1 = lit "Authorization"
    · simp [List.filter_cons, he, ToLower_Authorization, hig, ih]
    · simp [List.filter_cons, he, ih]

theorem mem_Set_of_mem {h : Header} {e : Str × List Str} {key value : Str}
    (he : e ∈ h) (hk : e.1 ≠ CanonicalMIMEHeaderKey key) : e ∈ h.Set key value := by
  simp [Header.Set, he, hk]

theorem mem_Set_self (h : Header) (key value : Str) :
    (CanonicalMIMEHeaderKey key, [value]) ∈ h.Set key value := by
  simp [Header.Set]

/-- The Authorization value, piece by piece. -/
theorem authz_eq (U : CaseTables) (c : CredentialsV4) (method encodedResource encodedQuery : Str)
    (headers : Header) :
    c.authz U method encodedResource encodedQuery headers =
      lit "AWS4-HMAC-SHA256 Credential=" ++
        getCredential c.AccessKey c.Region (parseDate (headers.Get (lit "X-Amz-Date"))) ++
        lit ", SignedHeaders=" ++ getSignedHeaders U headers ++
        lit ", Signature=" ++ c.signature U method encodedResource encodedQuery headers := by
  have e1 : ∀ t : Str, lit "AWS4-HMAC-SHA256" ++ (lit " Credential=" ++ t) =
      lit "AWS4-HMAC-SHA256 Credential=" ++ t := fun t => by
    rw [← List.append_assoc]; congr 1
  have e2 : ∀ t : Str, lit "," ++ (lit " SignedHeaders=" ++ t) = lit ", SignedHeaders=" ++ t :=
    fun t => by rw [← List.append_assoc]; congr 1
  have e3 : ∀ t : Str, lit "," ++ (lit " Signature=" ++ t) = lit ", Signature=" ++ t :=
    fun t => by rw [← List.append_assoc]; congr 1
  simp only [CredentialsV4.authz, CredentialsV4.signature, Join3, SignV4Algorithm,
    List.append_assoc, e1, e2, e3]

/-- C7: after `Sign` at time `now`, the headers X-Amz-Content-Sha256, Host and
X-Amz-Date hold exactly "UNSIGNED-PAYLOAD", `r.Host` and `now` in the layout
YYYYMMDD'T'HHMMSS'Z', whatever the caller had set; the Authorization value
lists the signed header names of the request, "host" among them; method, URL
and host are unchanged, and so is every header other than those four. -/
theorem Sign_effect (U : CaseTables) (c : CredentialsV4) (now : Time) (r : Request) :
    (c.Sign U now r).Header.index (lit "X-Amz-Content-Sha256") = [lit "UNSIGNED-PAYLOAD"] ∧
    (c.Sign U now r).Header.index (lit "Host") = [r.Host] ∧
    (c.Sign U now r).Header.index (lit "X-Amz-Date") = [now.formatDateFormat] ∧
    (c.Sign U now r).Header.Get (lit "X-Amz-Content-Sha256") = lit "UNSIGNED-PAYLOAD" ∧
    (c.Sign U now r).Header.Get (lit "Host") = r.Host ∧
    (c.Sign U now r).Header.Get (lit "X-Amz-Date") = now.formatDateFormat ∧
    lit "host" ∈ signedHeaders U (c.Sign U now r).Header ∧
    (∃ credential signature : Str,
      (c.Sign U now r).Header.Get (lit "Authorization") =
        lit "AWS4-HMAC-SHA256 Credential=" ++ credential ++ lit ", SignedHeaders=" ++
          Join (signedHeaders U (c.Sign U now r).Header) (lit ";") ++
          lit ", Signature=" ++ signature) ∧
    (c.Sign U now r).Method = r.Method ∧ (c.Sign U now r).Path = r.Path ∧
    (c.Sign U now r).RawQuery = r.RawQuery ∧ (c.Sign U now r).Host = r.Host ∧
    ∀ k : Str, k ≠ lit "X-Amz-Date" → k ≠ lit "Host" → k ≠ lit "X-Amz-Content-Sha256" →
      k ≠ lit "Authorization" → (c.Sign U now r).Header.index k = r.Header.index k := by
  have cD : CanonicalMIMEHeaderKey (lit "X-Amz-Date") = lit "X-Amz-Date" := by decide
  have cH : CanonicalMIMEHeaderKey (lit "Host") = lit "Host" := by decide
  have cS : CanonicalMIMEHeaderKey (lit "X-Amz-Content-Sha256") = lit "X-Amz-Content-Sha256" := by
    decide
  have cA : CanonicalMIMEHeaderKey (lit "Authorization") = lit "Authorization" := by decide
  have iS : (c.Sign U now r).Header.index (lit "X-Amz-Content-Sha256") =
      [lit "UNSIGNED-PAYLOAD"] := by
    unfold CredentialsV4.Sign
    simp only []
    rw [Header.index_Set_other _ _ _ (by rw [cA]; decide)]
    conv_lhs => rw [← cS]
    exact Header.index_Set_same _ _ _
  have iH : (c.Sign U now r).Header.index (lit "Host") = [r.Host] := by
    unfold CredentialsV4.Sign
    simp only []
    rw [Header.index_Set_other _ _ _ (by rw [cA]; decide),
      Header.index_Set_other _ _ _ (by rw [cS]; decide)]
    conv_lhs => rw [← cH]
    exact Header.index_Set_same _ _ _
  have iD : (c.Sign U now r).Header.index (lit "X-Amz-Date") = [now.formatDateFormat] := by
    unfold CredentialsV4.Sign
    simp only []
    rw [Header.index_Set_other _ _ _ (by rw [cA]; decide),
      Header.index_Set_other _ _ _ (by rw [cS]; decide),
      Header.index_Set_other _ _ _ (by rw [cH]; decide)]
    conv_lhs => rw [← cD]
    exact Header.index_Set_same _ _ _
  refine ⟨iS, iH, iD, ?_, ?_, ?_, ?_, ?_, rfl, rfl, rfl, rfl, ?_⟩
  · simp [Header.Get, cS, iS]
  · simp [Header.Get, cH, iH]
  · simp [Header.Get, cD, iD]
  · unfold signedHeaders
    rw [mem_sortStrings, List.mem_filter]
    refine ⟨List.mem_map.2 ⟨(lit "Host", [r.Host]), ?_, ToLower_Host U⟩, by decide⟩
    unfold CredentialsV4.Sign
    simp only []
    refine mem_Set_of_mem (mem_Set_of_mem ?_ (by rw [cS]; show lit "Host" ≠ _; decide))
      (by rw [cA]; show lit "Host" ≠ _; decide)
    have := mem_Set_self (r.Header.Set (lit "X-Amz-Date") now.formatDateFormat) (lit "Host") r.Host
    rwa [cH] at this
  · have hs : signedHeaders U (c.Sign U now r).Header = signedHeaders U
        (((r.Header.Set (lit "X-Amz-Date") now.formatDateFormat).Set (lit "Host")
          r.Host).Set (lit "X-Amz-Content-Sha256") (lit "UNSIGNED-PAYLOAD")) := by
      unfold CredentialsV4.Sign
      simp only []
      exact signedHeaders_Set_Authorization U _ _
    have hI : (c.Sign U now r).Header.index (lit "Authorization") =
        [c.authz U r.Method (encodePath U r.Path) (ParseQuery r.RawQuery).Encode
          (((r.Header.Set (lit "X-Amz-Date") now.formatDateFormat).Set (lit "Host")
            r.Host).Set (lit "X-Amz-Content-Sha256") (lit "UNSIGNED-PAYLOAD"))] := by
      unfold CredentialsV4.Sign
      simp only []
      conv_lhs => rw [← cA]
      exact Header.index_Set_same _ _ _
    rw [hs]
    simp only [Header.Get, cA, hI, List.headD_cons]
    rw [authz_eq]
    exact ⟨_, _, Eq.refl _⟩
  · intro k h1 h2 h3 h4
    unfold CredentialsV4.Sign
    simp only []
    rw [Header.index_Set_other _ _ _ (by rw [cA]; exact h4),
      Header.index_Set_other _ _ _ (by rw [cS]; exact h3),
      Header.index_Set_other _ _ _ (by rw [cH]; exact h2),
      Header.index_Set_other _ _ _ (by rw [cD]; exact h1)]

/-! ## Malformed Authorization values -/

theorem Split_ne_nil (s : Str) (sep : Nat) : Split s sep ≠ [] := by
  induction s with
  | nil => simp [Split]
  | cons c cs ih =>
    unfold Split
    split
    · simp
    · split <;> simp

theorem Split_length (s : Str) (sep : Nat) : (Split s sep).length = s.count sep + 1 := by
  induction s with
  | nil => simp [Split]
  | cons c cs ih =>
    unfold Split
    by_cases h : c = sep
    · subst h
      simp [ih]
    · have hne : ¬ (c == sep) = true := by simpa using h
      rw [if_neg h, List.count_cons, if_neg hne]
      cases hs : Split cs sep with
      | nil => exact absurd hs (Split_ne_nil cs sep)
      | cons p ps =>
        rw [hs] at ih
        simpa using ih

/-- An Authorization value with fewer than three space-separated fields gives
the empty header set. -/
theorem getRequestSignedHeaders_short (r : Request)
    (h : (Split (r.Header.Get (lit "Authorization")) 32).length < 3) :
    getRequestSignedHeaders r = some [] := by
  simp [getRequestSignedHeaders, h]

/-- Every value built by `authz` has at least four space-separated fields. -/
theorem authz_fields (U : CaseTables) (c : CredentialsV4)
    (method encodedResource encodedQuery : Str) (headers : Header) :
    4 ≤ (Split (c.authz U method encodedResource encodedQuery headers) 32).length := by
  rw [Split_length, authz_eq]
  simp only [List.count_append]
  have h1 : (lit "AWS4-HMAC-SHA256 Credential=").count 32 = 1 := by decide
  have h2 : (lit ", SignedHeaders=").count 32 = 1 := by decide
  have h3 : (lit ", Signature=").count 32 = 1 := by decide
  omega

/-- With fewer than three fields in the Authorization value, `IsSigned` returns
false. -/
theorem IsSigned_short (U : CaseTables) (c : CredentialsV4) (r : Request)
    (h : (Split (r.Header.Get (lit "Authorization")) 32).length < 3) :
    c.IsSigned U r = some false := by
  unfold CredentialsV4.IsSigned
  rw [getRequestSignedHeaders_short r h]
  simp only [Option.some.injEq, decide_eq_false_iff_not]
  intro heq
  have := authz_fields U c r.Method (encodePath U r.Path) (ParseQuery r.RawQuery).Encode []
  rw [← heq] at this
  omega

/-- With three fields or more and no "=" in the third, the index
`signedHeadersList[1]` is out of range: `getRequestSignedHeaders` panics, and
`IsSigned` with it. -/
theorem getRequestSignedHeaders_no_eq (U : CaseTables) (c : CredentialsV4) (r : Request)
    (h3 : 3 ≤ (Split (r.Header.Get (lit "Authorization")) 32).length)
    (hno : ((Split (r.Header.Get (lit "Authorization")) 32).getD 2 []).count 61 = 0) :
    getRequestSignedHeaders r = none ∧ c.IsSigned U r = none := by
  have hg : getRequestSignedHeaders r = none := by
    have hlen := Split_length ((Split (r.Header.Get (lit "Authorization")) 32).getD 2 []) 61
    rw [hno] at hlen
    have : (Split ((Split (r.Header.Get (lit "Authorization")) 32).getD 2 []) 61).get? 1 = none := by
      rw [List.get?_eq_none]; omega
    unfold getRequestSignedHeaders
    have h3n : ¬ (Split (r.Header.Get (lit "Authorization")) 32).length < 3 := by omega
    have h2n : ¬ (Split (r.Header.Get (lit "Authorization")) 32).length < 2 := by omega
    simp only [h3n, h2n, if_false, this]
  exact ⟨hg, by unfold CredentialsV4.IsSigned; rw [hg]⟩

/-- C4, the code at the failing input: the Authorization value
"AWS4-HMAC-SHA256 x y" has three fields and no "=" in the third; reading the
signed headers ends in the out-of-range panic instead of an empty header set,
and `IsSigned` does not return false. -/
theorem getRequestSignedHeaders_panics :
    (Split (malformedAuthRequest.Header.Get (lit "Authorization")) 32).length = 3 ∧
    getRequestSignedHeaders malformedAuthRequest = none ∧
    exampleCreds.IsSigned asciiTables malformedAuthRequest = none := by
  decide

/-! ## Dates -/

theorem decimalDigits_fuel : ∀ (n m x : Nat), x < n → x < m →
    decimalDigits n x = decimalDigits m x := by
  intro n
  induction n with
  | zero => intro m x h; omega
  | succ n ih =>
    intro m x hn hm
    cases m with
    | zero => omega
    | succ m =>
      simp only [decimalDigits]
      by_cases hx : x < 10
      · simp [hx]
      · simp only [hx, if_false]
        rw [ih m (x / 10) (by omega) (by omega)]

theorem decimalDigits_step (x : Nat) (hx : 10 ≤ x) :
    decimalDigits (x + 1) x = decimalDigits (x / 10 + 1) (x / 10) ++ [48 + x % 10] := by
  rw [decimalDigits, if_neg (show ¬ x < 10 by omega),
    decimalDigits_fuel x (x / 10 + 1) (x / 10) (by omega) (by omega)]

/-- The `w` low decimal digits of `x`, most significant first. -/
theorem appendInt_padded (w : Nat) : ∀ x, x < 10 ^ w → 0 < w →
    appendInt x w = (List.range w).reverse.map (fun i => 48 + x / 10 ^ i % 10) := by
  induction w with
  | zero => intro x _ h; omega
  | succ w ih =>
    intro x hx _
    rw [List.range_succ_eq_map, List.reverse_cons, List.map_append, ← List.map_reverse,
      List.map_map]
    by_cases h10 : x < 10
    · have hd : decimalDigits (x + 1) x = [48 + x] := by simp [decimalDigits, h10]
      have hz : ∀ i ∈ (List.range w).reverse, ((fun i => 48 + x / 10 ^ i % 10) ∘ Nat.succ) i =
          (fun _ => 48) i := by
        intro i _
        have : x / 10 ^ (i + 1) = 0 := by
          apply Nat.div_eq_of_lt
          calc x < 10 := h10
            _ = 10 ^ 1 := by norm_num
            _ ≤ 10 ^ (i + 1) := Nat.pow_le_pow_right (by norm_num) (by omega)
        simp [this]
      rw [List.map_congr_left hz]
      simp only [appendInt, hd, List.length_singleton, Nat.add_sub_cancel, List.map_cons,
        List.map_nil, pow_zero, Nat.div_one, Nat.mod_eq_of_lt h10]
      congr 1
      symm
      rw [List.eq_replicate_iff]
      refine ⟨by simp, fun b hb => ?_⟩
      obtain ⟨_, _, rfl⟩ := List.mem_map.1 hb
      rfl
    · have hw : 0 < w := by
        rcases Nat.eq_zero_or_pos w with h | h
        · subst h; simp at hx; omega
        · exact h
      have hq : x / 10 < 10 ^ w := by
        rw [Nat.div_lt_iff_lt_mul (by norm_num)]
        rw [pow_succ] at hx; exact hx
      have hs := decimalDigits_step x (by omega)
      have ihq := ih (x / 10) hq hw
      simp only [appendInt] at ihq ⊢
      rw [hs, List.length_append, List.length_singleton,
        show w + 1 - ((decimalDigits (x / 10 + 1) (x / 10)).length + 1) =
          w - (decimalDigits (x / 10 + 1) (x / 10)).length by omega,
        ← List.append_assoc, ihq]
      simp only [List.map_cons, List.map_nil, pow_zero, Nat.div_one]
      congr 1
      apply List.map_congr_left
      intro i _
      simp only [Function.comp, Nat.succ_eq_add_one]
      rw [Nat.div_div_eq_div_mul, pow_succ, Nat.mul_comm]

theorem appendInt_two (i j : Nat) (hi : i < 10) (hj : j < 10) :
    appendInt (i * 10 + j) 2 = [48 + i, 48 + j] := by
  rw [appendInt_padded 2 _ (by norm_num; omega) (by norm_num)]
  simp only [List.range_succ, List.range_zero, List.nil_append, List.reverse_append,
    List.reverse_cons, List.reverse_nil, List.singleton_append, List.map_cons, List.map_nil,
    pow_one, pow_zero, Nat.div_one, List.cons.injEq, and_true]
  constructor <;> omega

theorem appendInt_four (i j k l : Nat) (hi : i < 10) (hj : j < 10) (hk : k < 10) (hl : l < 10) :
    appendInt (i * 1000 + j * 100 + k * 10 + l) 4 = [48 + i, 48 + j, 48 + k, 48 + l] := by
  rw [appendInt_padded 4 _ (by norm_num; omega) (by norm_num)]
  simp only [List.range_succ, List.range_zero, List.nil_append, List.reverse_append,
    List.reverse_cons, List.reverse_nil, List.singleton_append, List.map_cons, List.map_nil,
    List.cons_append, pow_one, pow_zero, Nat.div_one, List.cons.injEq, and_true]
  norm_num
  refine ⟨?_, ?_, ?_, ?_⟩ <;> omega

theorem isDigit_iff (c : Nat) : isDigit c = true ↔ ∃ i, i < 10 ∧ c = 48 + i := by
  simp only [isDigit, Bool.and_eq_true, decide_eq_true_eq]
  constructor
  · intro h; exact ⟨c - 48, by omega, by omega⟩
  · rintro ⟨i, hi, rfl⟩; omega

theorem getnum_two (i j : Nat) (hi : i < 10) (hj : j < 10) (rest : Str) ( fixed : Bool) :
    getnum ((48 + i) :: (48 + j) :: rest) fixed = some (i * 10 + j, rest) := by
  have h1 : isDigit (48 + i) = true := (isDigit_iff _).2 ⟨i, hi, rfl⟩
  have h2 : isDigit (48 + j) = true := (isDigit_iff _).2 ⟨j, hj, rfl⟩
  simp [getnum, h1, h2]

/-- A well-formed date is parsed to the time whose two layouts give the date
back: the full timestamp, and its first eight bytes YYYYMMDD. -/
theorem parseDate_wellFormed (ts : Str) (h : wellFormedDate ts = true) :
    (parseDate ts).formatDateFormat = ts ∧ (parseDate ts).formatYYYYMMDD = ts.take 8 := by
  unfold wellFormedDate at h
  split at h
  · rename_i y0 y1 y2 y3 m0 m1 d0 d1 h0 h1 n0 n1 s0 s1
    simp only [Bool.and_eq_true, decide_eq_true_eq] at h
    obtain ⟨⟨⟨⟨⟨⟨⟨⟨⟨⟨⟨⟨⟨⟨⟨⟨⟨⟨⟨⟨hy0, hy1⟩, hy2⟩, hy3⟩, hm0⟩, hm1⟩, hd0⟩, hd1⟩, hh0⟩, hh1⟩, hn0⟩, hn1⟩,
      hs0⟩, hs1⟩, hmo1⟩, hmo2⟩, hda1⟩, hda2⟩, hho⟩, hmi⟩, hse⟩ := h
    obtain ⟨a0, ha0, rfl⟩ := (isDigit_iff _).1 hy0
    obtain ⟨a1, ha1, rfl⟩ := (isDigit_iff _).1 hy1
    obtain ⟨a2, ha2, rfl⟩ := (isDigit_iff _).1 hy2
    obtain ⟨a3, ha3, rfl⟩ := (isDigit_iff _).1 hy3
    obtain ⟨b0, hb0, rfl⟩ := (isDigit_iff _).1 hm0
    obtain ⟨b1, hb1, rfl⟩ := (isDigit_iff _).1 hm1
    obtain ⟨c0, hc0, rfl⟩ := (isDigit_iff _).1 hd0
    obtain ⟨c1, hc1, rfl⟩ := (isDigit_iff _).1 hd1
    obtain ⟨e0, he0, rfl⟩ := (isDigit_iff _).1 hh0
    obtain ⟨e1, he1, rfl⟩ := (isDigit_iff _).1 hh1
    obtain ⟨f0, hf0, rfl⟩ := (isDigit_iff _).1 hn0
    obtain ⟨f1, hf1, rfl⟩ := (isDigit_iff _).1 hn1
    obtain ⟨g0, hg0, rfl⟩ := (isDigit_iff _).1 hs0
    obtain ⟨g1, hg1, rfl⟩ := (isDigit_iff _).1 hs1
    simp only [Nat.add_sub_cancel_left] at hmo1 hmo2 hda1 hda2 hho hmi hse
    have hp : parseDateFormat [48 + a0, 48 + a1, 48 + a2, 48 + a3, 48 + b0, 48 + b1, 48 + c0,
        48 + c1, 84, 48 + e0, 48 + e1, 48 + f0, 48 + f1, 48 + g0, 48 + g1, 90] =
        some ⟨a0 * 1000 + a1 * 100 + a2 * 10 + a3, b0 * 10 + b1, c0 * 10 + c1, e0 * 10 + e1,
          f0 * 10 + f1, g0 * 10 + g1⟩ := by
      simp only [parseDateFormat, hy0, hy1, hy2, hy3, Bool.and_self, if_true,
        getnum_two _ _ hb0 hb1, getnum_two _ _ hc0 hc1, getnum_two _ _ he0 he1,
        getnum_two _ _ hf0 hf1, getnum_two _ _ hg0 hg1, Nat.add_sub_cancel_left, skipFraction]
      rw [if_neg (by omega), if_neg (by omega), if_neg (by omega), if_neg (by omega),
        if_neg (by omega)]
    simp only [parseDate, hp, Option.getD_some, Time.formatDateFormat, Time.formatYYYYMMDD,
      appendInt_four _ _ _ _ ha0 ha1 ha2 ha3, appendInt_two _ _ hb0 hb1,
      appendInt_two _ _ hc0 hc1, appendInt_two _ _ he0 he1, appendInt_two _ _ hf0 hf1,
      appendInt_two _ _ hg0 hg1]
    exact ⟨rfl, rfl⟩
  · exact absurd h (by simp)

/-! ## Digests and hexadecimal -/

theorem beBytes_length (n x : Nat) : (beBytes n x).length = n := by
  induction n with
  | zero => rfl
  | succ n ih => simp [beBytes, ih]

theorem sha256_length (data : Str) : (sha256 data).length = 32 := by
  simp only [sha256, List.length_append, beBytes_length]

theorem sumHMAC_length (key data : Str) : (sumHMAC key data).length = 32 := by
  simp only [sumHMAC, hmacSha256, sha256_length]

theorem hexEncode_length (l : Str) : (hexEncode l).length = 2 * l.length := by
  induction l with
  | nil => rfl
  | cons b bs ih => simp only [hexEncode, List.length_cons, ih]; omega

theorem hexDigit_lowerHex : ∀ n < 16, isLowerHex (hexDigit n) = true := by decide

theorem hexEncode_lowerHex (l : Str) : ∀ ch ∈ hexEncode l, isLowerHex ch = true := by
  induction l with
  | nil => intro ch h; simp [hexEncode] at h
  | cons b bs ih =>
    intro ch h
    simp only [hexEncode, List.mem_cons] at h
    rcases h with h | h | h
    · rw [h]; exact hexDigit_lowerHex _ (Nat.mod_lt _ (by norm_num))
    · rw [h]; exact hexDigit_lowerHex _ (Nat.mod_lt _ (by norm_num))
    · exact ih ch h

/-- The constant of `getHashedPayload` is the hexadecimal SHA-256 of the empty
string. -/
theorem emptyPayloadHash :
    hexEncode (sha256 []) =
      lit "e3b0c44298fc1c149afbf4c8996fb92427ae41e4649b934ca495991b7852b855" := by
  decide!

theorem Join4 (a b c d sep : Str) :
    Join [a, b, c, d] sep = a ++ sep ++ b ++ sep ++ c ++ sep ++ d := by
  simp [Join]

theorem Join6 (a b c d e f sep : Str) :
    Join [a, b, c, d, e, f] sep =
      a ++ sep ++ b ++ sep ++ c ++ sep ++ d ++ sep ++ e ++ sep ++ f := by
  simp [Join]

/-! ## The Authorization value -/

/-- C3, counterexample: for the example credentials and a header map with a
well-formed date, no signature makes the Authorization value equal to the
string with bare commas between the three fields: `authz` writes a space after
each comma. -/
theorem authz_not_bare_commas :
    wellFormedDate (exampleHeaders.Get (lit "X-Amz-Date")) = true ∧
    ¬ ∃ signature : Str,
      exampleCreds.authz asciiTables (lit "GET") (lit "/") [] exampleHeaders =
        lit "AWS4-HMAC-SHA256 Credential=" ++ exampleCreds.AccessKey ++ lit "/" ++
          (exampleHeaders.Get (lit "X-Amz-Date")).take 8 ++ lit "/" ++ exampleCreds.Region ++
          lit "/s3/aws4_request,SignedHeaders=" ++
          Join (signedHeaders asciiTables exampleHeaders) (lit ";") ++
          lit ",Signature=" ++ signature := by
  refine ⟨by decide, ?_⟩
  rintro ⟨signature, h⟩
  have hl : (lit "AWS4-HMAC-SHA256 Credential=" ++ (exampleCreds.AccessKey ++ (lit "/" ++
      ((exampleHeaders.Get (lit "X-Amz-Date")).take 8 ++ (lit "/" ++ (exampleCreds.Region ++
      (lit "/s3/aws4_request,SignedHeaders=" ++
      (Join (signedHeaders asciiTables exampleHeaders) (lit ";")))))))))
      = lit ("AWS4-HMAC-SHA256 Credential=AK/20160101/us-east-1/s3/aws4_request," ++
          "SignedHeaders=host;x-amz-date") := by
    decide
  have hr : (lit "AWS4-HMAC-SHA256 Credential=" ++
      (getCredential exampleCreds.AccessKey exampleCreds.Region
        (parseDate (exampleHeaders.Get (lit "X-Amz-Date"))) ++ (lit ", SignedHeaders=" ++
      (getSignedHeaders asciiTables exampleHeaders))))
      = lit ("AWS4-HMAC-SHA256 Credential=AK/20160101/us-east-1/s3/aws4_request, " ++
          "SignedHeaders=host;x-amz-date") := by
    decide
  have key : ∀ T1 T2 : Str,
      lit ("AWS4-HMAC-SHA256 Credential=AK/20160101/us-east-1/s3/aws4_request, " ++
          "SignedHeaders=host;x-amz-date") ++ T1 ≠
      lit ("AWS4-HMAC-SHA256 Credential=AK/20160101/us-east-1/s3/aws4_request," ++
          "SignedHeaders=host;x-amz-date") ++ T2 := by
    intro T1 T2 he
    have h67 := congrArg (List.take 67) he
    rw [List.take_append_of_le_length (by decide), List.take_append_of_le_length (by decide)] at h67
    revert h67
    decide
  refine key (lit ", Signature=" ++ exampleCreds.signature asciiTables (lit "GET") (lit "/") []
    exampleHeaders) (lit ",Signature=" ++ signature) ?_
  rw [← hl, ← hr]
  rw [authz_eq] at h
  simpa only [List.append_assoc] using h

theorem getScope_eq (region : Str) (date : Time) :
    getScope region date = date.formatYYYYMMDD ++ lit "/" ++ region ++ lit "/s3/aws4_request" := by
  have e : ∀ t : Str, lit "/" ++ (lit "s3" ++ (lit "/" ++ (lit "aws4_request" ++ t))) =
      lit "/s3/aws4_request" ++ t := fun t => by
    simp only [← List.append_assoc]; congr 1
  have e0 := e []
  simp only [List.append_nil] at e0
  simp only [getScope, Join4, List.append_assoc, e0]

theorem signature_length (U : CaseTables) (c : CredentialsV4)
    (method encodedResource encodedQuery : Str) (headers : Header) :
    (c.signature U method encodedResource encodedQuery headers).length = 64 := by
  simp only [CredentialsV4.signature, getSignature, hexEncode_length, sumHMAC_length]

/-- C3, amended: for a header map with a well-formed X-Amz-Date, the
Authorization value is "AWS4-HMAC-SHA256 Credential=" + accessKey + "/" +
YYYYMMDD + "/" + region + "/s3/aws4_request, SignedHeaders=" + the signed header
names joined by ";" + ", Signature=" + 64 lower-case hexadecimal digits: the
three fields are separated by a comma followed by one space. -/
theorem authz_format (U : CaseTables) (c : CredentialsV4)
    (method encodedResource encodedQuery : Str) (headers : Header)
    (hd : wellFormedDate (headers.Get (lit "X-Amz-Date")) = true) :
    ∃ signature : Str, signature.length = 64 ∧ (∀ ch ∈ signature, isLowerHex ch = true) ∧
      c.authz U method encodedResource encodedQuery headers =
        lit "AWS4-HMAC-SHA256 Credential=" ++ c.AccessKey ++ lit "/" ++
          (headers.Get (lit "X-Amz-Date")).take 8 ++ lit "/" ++ c.Region ++
          lit "/s3/aws4_request, SignedHeaders=" ++ Join (signedHeaders U headers) (lit ";") ++
          lit ", Signature=" ++ signature := by
  refine ⟨c.signature U method encodedResource encodedQuery headers, signature_length _ _ _ _ _ _,
    fun ch hch => hexEncode_lowerHex _ ch hch, ?_⟩
  have e : ∀ t : Str, lit "/s3/aws4_request" ++ (lit ", SignedHeaders=" ++ t) =
      lit "/s3/aws4_request, SignedHeaders=" ++ t := fun t => by
    simp only [← List.append_assoc]; congr 1
  rw [authz_eq]
  simp only [getCredential, getScope_eq, (parseDate_wellFormed _ hd).2, getSignedHeaders,
    List.append_assoc, e]

/-- Witness of `authz_format`: the example header map carries the well-formed
date 20160101T120000Z. -/
theorem authz_format_witness :
    wellFormedDate (exampleHeaders.Get (lit "X-Amz-Date")) = true ∧
    ∃ signature : Str, signature.length = 64 ∧ (∀ ch ∈ signature, isLowerHex ch = true) ∧
      exampleCreds.authz asciiTables (lit "GET") (lit "/") [] exampleHeaders =
        lit "AWS4-HMAC-SHA256 Credential=" ++ exampleCreds.AccessKey ++ lit "/" ++
          (exampleHeaders.Get (lit "X-Amz-Date")).take 8 ++ lit "/" ++ exampleCreds.Region ++
          lit "/s3/aws4_request, SignedHeaders=" ++
          Join (signedHeaders asciiTables exampleHeaders) (lit ";") ++
          lit ", Signature=" ++ signature :=
  ⟨by decide, authz_format asciiTables exampleCreds (lit "GET") (lit "/") [] exampleHeaders
    (by decide)⟩

/-- The signature of `authz` for a well-formed date, written out. -/
theorem signature_eq (U : CaseTables) (c : CredentialsV4)
    (method encodedResource encodedQuery : Str) (headers : Header)
    (hd : wellFormedDate (headers.Get (lit "X-Amz-Date")) = true) :
    c.signature U method encodedResource encodedQuery headers =
        hexEncode (hmacSha256
          (hmacSha256 (hmacSha256 (hmacSha256
            (hmacSha256 (lit "AWS4" ++ c.SecretKey) ((headers.Get (lit "X-Amz-Date")).take 8))
            c.Region) (lit "s3")) (lit "aws4_request"))
          (lit "AWS4-HMAC-SHA256\n" ++ headers.Get (lit "X-Amz-Date") ++ lit "\n" ++
            ((headers.Get (lit "X-Amz-Date")).take 8 ++ lit "/" ++ c.Region ++
              lit "/s3/aws4_request") ++ lit "\n" ++
            hexEncode (sha256
              (method ++ lit "\n" ++ encodedResource ++ lit "\n" ++ sortQuery encodedQuery ++
                lit "\n" ++ getCanonicalHeaders U headers ++ lit "\n" ++
                getSignedHeaders U headers ++ lit "\n" ++
                (if headers.Get (lit "X-Amz-Content-Sha256") = [] then hexEncode (sha256 [])
                 else headers.Get (lit "X-Amz-Content-Sha256")))))) := by
  have e : ∀ t : Str, lit "AWS4-HMAC-SHA256" ++ (lit "\n" ++ t) = lit "AWS4-HMAC-SHA256\n" ++ t :=
    fun t => by simp only [← List.append_assoc]; congr 1
  simp only [CredentialsV4.signature, getSignature, getSigningKey, sumHMAC, sum256,
    getCanonicalRequest, getHashedPayload, Join4, Join6, getScope_eq, SignV4Algorithm,
    (parseDate_wellFormed _ hd).1, (parseDate_wellFormed _ hd).2, emptyPayloadHash,
    List.append_assoc, e]

/-- C5: for a header map whose X-Amz-Date value `ts` is well formed, the
Signature field of the Authorization value is
hex(HMAC-SHA256(signingKey, "AWS4-HMAC-SHA256\n" + ts + "\n" + scope + "\n" +
hex(SHA256(canonicalRequest)))) with signingKey the HMAC chain over "AWS4" +
secret, YYYYMMDD, region, "s3", "aws4_request", scope =
YYYYMMDD/region/s3/aws4_request and canonicalRequest the method, encoded path,
sorted query, canonical headers, signed header list and payload hash joined by
new lines; the payload hash is the X-Amz-Content-Sha256 value, or the
hexadecimal SHA-256 of the empty string when `Get` finds no such value. -/
theorem authz_signature_formula (U : CaseTables) (c : CredentialsV4)
    (method encodedResource encodedQuery : Str) (headers : Header)
    (hd : wellFormedDate (headers.Get (lit "X-Amz-Date")) = true) :
    c.authz U method encodedResource encodedQuery headers =
      lit "AWS4-HMAC-SHA256 Credential=" ++
        getCredential c.AccessKey c.Region (parseDate (headers.Get (lit "X-Amz-Date"))) ++
        lit ", SignedHeaders=" ++ getSignedHeaders U headers ++ lit ", Signature=" ++
        hexEncode (hmacSha256
          (hmacSha256 (hmacSha256 (hmacSha256
            (hmacSha256 (lit "AWS4" ++ c.SecretKey) ((headers.Get (lit "X-Amz-Date")).take 8))
            c.Region) (lit "s3")) (lit "aws4_request"))
          (lit "AWS4-HMAC-SHA256\n" ++ headers.Get (lit "X-Amz-Date") ++ lit "\n" ++
            ((headers.Get (lit "X-Amz-Date")).take 8 ++ lit "/" ++ c.Region ++
              lit "/s3/aws4_request") ++ lit "\n" ++
            hexEncode (sha256
              (method ++ lit "\n" ++ encodedResource ++ lit "\n" ++ sortQuery encodedQuery ++
                lit "\n" ++ getCanonicalHeaders U headers ++ lit "\n" ++
                getSignedHeaders U headers ++ lit "\n" ++
                (if headers.Get (lit "X-Amz-Content-Sha256") = [] then hexEncode (sha256 [])
                 else headers.Get (lit "X-Amz-Content-Sha256")))))) := by
  rw [authz_eq, signature_eq U c method encodedResource encodedQuery headers hd]

/-- Witness of `authz_signature_formula`: the example header map carries the
well-formed date 20160101T120000Z. -/
theorem authz_signature_formula_witness :
    wellFormedDate (exampleHeaders.Get (lit "X-Amz-Date")) = true ∧
    exampleCreds.authz asciiTables (lit "GET") (lit "/") [] exampleHeaders =
      lit "AWS4-HMAC-SHA256 Credential=" ++
        getCredential exampleCreds.AccessKey exampleCreds.Region
          (parseDate (exampleHeaders.Get (lit "X-Amz-Date"))) ++
        lit ", SignedHeaders=" ++ getSignedHeaders asciiTables exampleHeaders ++
        lit ", Signature=" ++
        hexEncode (hmacSha256
          (hmacSha256 (hmacSha256 (hmacSha256
            (hmacSha256 (lit "AWS4" ++ exampleCreds.SecretKey)
              ((exampleHeaders.Get (lit "X-Amz-Date")).take 8))
            exampleCreds.Region) (lit "s3")) (lit "aws4_request"))
          (lit "AWS4-HMAC-SHA256\n" ++ exampleHeaders.Get (lit "X-Amz-Date") ++ lit "\n" ++
            ((exampleHeaders.Get (lit "X-Amz-Date")).take 8 ++ lit "/" ++ exampleCreds.Region ++
              lit "/s3/aws4_request") ++ lit "\n" ++
            hexEncode (sha256
              (lit "GET" ++ lit "\n" ++ lit "/" ++ lit "\n" ++ sortQuery [] ++
                lit "\n" ++ getCanonicalHeaders asciiTables exampleHeaders ++ lit "\n" ++
                getSignedHeaders asciiTables exampleHeaders ++ lit "\n" ++
                (if exampleHeaders.Get (lit "X-Amz-Content-Sha256") = [] then hexEncode (sha256 [])
                 else exampleHeaders.Get (lit "X-Amz-Content-Sha256")))))) :=
  ⟨by decide, authz_signature_formula asciiTables exampleCreds (lit "GET") (lit "/") []
    exampleHeaders (by decide)⟩

/-! ## Signing, then verifying -/

/-- The round trip fails on a header with several values: a request whose
header Accept has the two values text/plain and text/html is signed over the line
"accept:text/plain,text/html", and `IsSigned`, which reads the header back with
`Get`, recomputes the signature over "accept:text/plain": the freshly signed
request is rejected. -/
theorem Sign_IsSigned_multiValue :
    getCanonicalHeaders asciiTables
        (((multiValueRequest.Header.Set (lit "X-Amz-Date") exampleTime.formatDateFormat).Set
          (lit "Host") multiValueRequest.Host).Set (lit "X-Amz-Content-Sha256")
          (lit "UNSIGNED-PAYLOAD")) =
      lit ("accept:text/plain,text/html\nhost:s3.example.com\n" ++
        "x-amz-content-sha256:UNSIGNED-PAYLOAD\nx-amz-date:20160101T120000Z\n") ∧
    (getRequestSignedHeaders (exampleCreds.Sign asciiTables exampleTime multiValueRequest)).map
        (getCanonicalHeaders asciiTables) =
      some (lit ("accept:text/plain\nhost:s3.example.com\n" ++
        "x-amz-content-sha256:UNSIGNED-PAYLOAD\nx-amz-date:20160101T120000Z\n")) ∧
    exampleCreds.IsSigned asciiTables
      (exampleCreds.Sign asciiTables exampleTime multiValueRequest) = some false := by
  decide!

/-! ## Header names that are tokens -/

theorem validHeaderFieldByte_lt (c : Nat) (h : validHeaderFieldByte c = true) : c < 128 := by
  simp only [validHeaderFieldByte, isDigit, isLower, isUpper, Bool.or_eq_true, Bool.and_eq_true,
    decide_eq_true_eq, List.contains_iff_exists_mem_beq, List.mem_cons, beq_iff_eq] at h
  rcases h with ((h | h) | h) | h
  · omega
  · omega
  · omega
  · obtain ⟨a, ha, rfl⟩ := h
    simp at ha
    omega

theorem ToLower_of_token (U : CaseTables) (s : Str) (h : s.all validHeaderFieldByte = true) :
    ToLower U s = s.map lowerByte := by
  have : s.all (fun c => decide (c < 0x80)) = true := by
    rw [List.all_eq_true] at h ⊢
    intro c hc
    simpa using validHeaderFieldByte_lt c (h c hc)
  simp [ToLower, this]

theorem canonicalCase_map_lowerByte (u : Bool) (s : Str) :
    canonicalCase u (s.map lowerByte) = canonicalCase u s := by
  induction s generalizing u with
  | nil => rfl
  | cons c cs ih =>
    have hc : (if (u && isLower (lowerByte c)) = true then lowerByte c - 32
        else if (!u && isUpper (lowerByte c)) = true then lowerByte c + 32 else lowerByte c) =
        (if (u && isLower c) = true then c - 32
        else if (!u && isUpper c) = true then c + 32 else c) := by
      cases u <;> simp only [lowerByte, isLower, isUpper, Bool.and_eq_true, decide_eq_true_eq,
        Bool.true_and, Bool.false_and, Bool.not_true, Bool.not_false, Bool.false_eq_true,
        if_false] <;> split_ifs <;> omega
    simp only [List.map_cons, canonicalCase, hc, ih]

theorem map_lowerByte_canonicalCase (u : Bool) (s : Str) :
    (canonicalCase u s).map lowerByte = s.map lowerByte := by
  induction s generalizing u with
  | nil => rfl
  | cons c cs ih =>
    have hc : lowerByte (if (u && isLower c) = true then c - 32
        else if (!u && isUpper c) = true then c + 32 else c) = lowerByte c := by
      cases u <;> simp only [lowerByte, isLower, isUpper, Bool.and_eq_true, decide_eq_true_eq,
        Bool.true_and, Bool.false_and, Bool.not_true, Bool.not_false, Bool.false_eq_true,
        if_false] <;> split_ifs <;> omega
    simp only [canonicalCase, List.map_cons, hc, ih]

theorem validHeaderFieldByte_lowerByte (c : Nat) (h : validHeaderFieldByte c = true) :
    validHeaderFieldByte (lowerByte c) = true := by
  unfold lowerByte
  split
  · rename_i hu
    simp only [validHeaderFieldByte, isDigit, isLower, isUpper, Bool.or_eq_true, Bool.and_eq_true,
      decide_eq_true_eq] at hu ⊢
    left; left; right; omega
  · exact h

theorem all_valid_map_lowerByte (s : Str) (h : s.all validHeaderFieldByte = true) :
    (s.map lowerByte).all validHeaderFieldByte = true := by
  rw [List.all_eq_true] at h ⊢
  intro c hc
  obtain ⟨a, ha, rfl⟩ := List.mem_map.1 hc
  exact validHeaderFieldByte_lowerByte a (h a ha)

theorem validHeaderFieldByte_canonical (u : Bool) (c : Nat) (h : validHeaderFieldByte c = true) :
    validHeaderFieldByte (if (u && isLower c) = true then c - 32
        else if (!u && isUpper c) = true then c + 32 else c) = true := by
  split
  · rename_i hu
    simp only [validHeaderFieldByte, isDigit, isLower, isUpper, Bool.or_eq_true, Bool.and_eq_true,
      decide_eq_true_eq] at hu ⊢
    left; right; omega
  · split
    · rename_i _ hu
      simp only [validHeaderFieldByte, isDigit, isLower, isUpper, Bool.or_eq_true,
        Bool.and_eq_true, decide_eq_true_eq] at hu ⊢
      left; left; right; omega
    · exact h

theorem all_valid_canonicalCase (u : Bool) (s : Str) (h : s.all validHeaderFieldByte = true) :
    (canonicalCase u s).all validHeaderFieldByte = true := by
  induction s generalizing u with
  | nil => rfl
  | cons c cs ih =>
    simp only [List.all_cons, Bool.and_eq_true] at h
    simp only [canonicalCase, List.all_cons]
    rw [Bool.and_eq_true]
    exact ⟨validHeaderFieldByte_canonical u c h.1, ih _ h.2⟩

/-- For a token name, the canonical key of the lower-cased canonical key is the
canonical key: the lookup `headers[CanonicalMIMEHeaderKey(lkey)]` finds the
entry the name was stored under. -/
theorem Canonical_ToLower_Canonical (U : CaseTables) (d : Str)
    (h : d.all validHeaderFieldByte = true) :
    CanonicalMIMEHeaderKey (ToLower U (CanonicalMIMEHeaderKey d)) = CanonicalMIMEHeaderKey d := by
  have hK : CanonicalMIMEHeaderKey d = canonicalCase true d := by simp [CanonicalMIMEHeaderKey, h]
  have hKv := all_valid_canonicalCase true d h
  rw [hK, ToLower_of_token U _ hKv, map_lowerByte_canonicalCase]
  simp only [CanonicalMIMEHeaderKey, all_valid_map_lowerByte d h, if_true]
  exact canonicalCase_map_lowerByte true d

theorem ToLower_Canonical (U : CaseTables) (d : Str) (h : d.all validHeaderFieldByte = true) :
    ToLower U (CanonicalMIMEHeaderKey d) = ToLower U d := by
  have hK : CanonicalMIMEHeaderKey d = canonicalCase true d := by simp [CanonicalMIMEHeaderKey, h]
  rw [hK, ToLower_of_token U _ (all_valid_canonicalCase true d h), ToLower_of_token U _ h,
    map_lowerByte_canonicalCase]

/-! ## The header set rebuilt by the verifier -/

theorem foldl_Set_index_other (g : Str → Str) (D : List Str) (h0 : Header) (K : Str)
    (hK : ∀ d ∈ D, CanonicalMIMEHeaderKey d ≠ K) :
    (D.foldl (fun (h : Header) d => h.Set d (g d)) h0).index K = h0.index K := by
  induction D generalizing h0 with
  | nil => rfl
  | cons d t ih =>
    rw [List.foldl_cons, ih _ (fun x hx => hK x (List.mem_cons_of_mem _ hx)),
      Header.index_Set_other _ _ _ (fun e => hK d (List.mem_cons_self _ _) e.symm)]

theorem foldl_Set_index_mem (g : Str → Str) (D : List Str) (h0 : Header) (K v : Str)
    (hex : ∃ d ∈ D, CanonicalMIMEHeaderKey d = K)
    (hg : ∀ d ∈ D, CanonicalMIMEHeaderKey d = K → g d = v) :
    (D.foldl (fun (h : Header) d => h.Set d (g d)) h0).index K = [v] := by
  induction D generalizing h0 with
  | nil => obtain ⟨d, hd, _⟩ := hex; simp at hd
  | cons d t ih =>
    rw [List.foldl_cons]
    by_cases ht : ∃ x ∈ t, CanonicalMIMEHeaderKey x = K
    · exact ih _ ht (fun x hx => hg x (List.mem_cons_of_mem _ hx))
    · have hd : CanonicalMIMEHeaderKey d = K := by
        obtain ⟨x, hx, hxK⟩ := hex
        rcases List.mem_cons.1 hx with rfl | hxt
        · exact hxK
        · exact absurd ⟨x, hxt, hxK⟩ ht
      rw [foldl_Set_index_other g t _ K (fun x hx e => ht ⟨x, hx, e⟩), ← hd,
        Header.index_Set_same, hg d (List.mem_cons_self _ _) hd]

theorem foldl_Set_index_congr (g1 g2 : Str → Str) (D : List Str) (h1 h2 : Header) (K : Str)
    (h0 : h1.index K = h2.index K)
    (hg : ∀ d ∈ D, CanonicalMIMEHeaderKey d = K → g1 d = g2 d) :
    (D.foldl (fun (h : Header) d => h.Set d (g1 d)) h1).index K =
      (D.foldl (fun (h : Header) d => h.Set d (g2 d)) h2).index K := by
  induction D generalizing h1 h2 with
  | nil => exact h0
  | cons d t ih =>
    rw [List.foldl_cons, List.foldl_cons]
    apply ih _ _ _ (fun x hx => hg x (List.mem_cons_of_mem _ hx))
    by_cases hd : CanonicalMIMEHeaderKey d = K
    · rw [← hd, Header.index_Set_same, Header.index_Set_same, hg d (List.mem_cons_self _ _) hd]
    · rw [Header.index_Set_other _ _ _ (fun e => hd e.symm),
        Header.index_Set_other _ _ _ (fun e => hd e.symm), h0]

theorem Set_keys (h : Header) (key value : Str) :
    (h.Set key value).map Prod.fst =
      CanonicalMIMEHeaderKey key ::
        (h.map Prod.fst).filter (fun k => !decide (k = CanonicalMIMEHeaderKey key)) := by
  simp only [Header.Set, List.map_cons, List.cons.injEq, true_and]
  induction h with
  | nil => rfl
  | cons e t ih =>
    by_cases he : e.1 = CanonicalMIMEHeaderKey key
    · simp [List.filter_cons, he, ih]
    · simp [List.filter_cons, he, ih]

theorem foldl_Set_keys (g1 g2 : Str → Str) (D : List Str) (h1 h2 : Header)
    (h0 : h1.map Prod.fst = h2.map Prod.fst) :
    (D.foldl (fun (h : Header) d => h.Set d (g1 d)) h1).map Prod.fst =
      (D.foldl (fun (h : Header) d => h.Set d (g2 d)) h2).map Prod.fst := by
  induction D generalizing h1 h2 with
  | nil => exact h0
  | cons d t ih =>
    rw [List.foldl_cons, List.foldl_cons]
    apply ih
    rw [Set_keys, Set_keys, h0]

theorem signedHeaders_of_keys (U : CaseTables) {h1 h2 : Header}
    (h : h1.map Prod.fst = h2.map Prod.fst) : signedHeaders U h1 = signedHeaders U h2 := by
  have e : ∀ hh : Header, hh.map (fun e => ToLower U e.1) = (hh.map Prod.fst).map (ToLower U) := by
    intro hh; rw [List.map_map]; rfl
  unfold signedHeaders
  rw [e h1, e h2, h]

/-! ## Changing one value changes the canonical request -/

theorem lines_length (L : List Str) (val1 val2 : Str → Str) (chg : Str → Bool) (v v2 : Str)
    (h1 : ∀ l ∈ L, chg l = true → val1 l = v ∧ val2 l = v2)
    (h2 : ∀ l ∈ L, chg l = false → val1 l = val2 l) :
    (L.flatMap (headerLine val2)).length + L.countP chg * v.length =
      (L.flatMap (headerLine val1)).length + L.countP chg * v2.length := by
  induction L with
  | nil => simp
  | cons l t ih =>
    have iht := ih (fun x hx => h1 x (List.mem_cons_of_mem _ hx))
      (fun x hx => h2 x (List.mem_cons_of_mem _ hx))
    simp only [List.flatMap_cons, List.length_append, headerLine, List.countP_cons]
    cases hc : chg l with
    | true =>
      obtain ⟨e1, e2⟩ := h1 l (List.mem_cons_self _ _) hc
      rw [e1, e2]
      simp only [if_true, Nat.add_mul, Nat.one_mul]
      omega
    | false =>
      rw [h2 l (List.mem_cons_self _ _) hc]
      simp only [Bool.false_eq_true, if_false, Nat.add_zero]
      omega

theorem lines_first_difference (L : List Str) (val1 val2 : Str → Str) (chg : Str → Bool)
    (v v2 T1 T2 : Str)
    (h1 : ∀ l ∈ L, chg l = true → val1 l = v ∧ val2 l = v2)
    (h2 : ∀ l ∈ L, chg l = false → val1 l = val2 l)
    (hex : ∃ l ∈ L, chg l = true)
    (heq : L.flatMap (headerLine val1) ++ T1 = L.flatMap (headerLine val2) ++ T2) :
    ∃ R1 R2 : Str, v ++ 10 :: R1 = v2 ++ 10 :: R2 := by
  induction L with
  | nil => obtain ⟨l, hl, _⟩ := hex; simp at hl
  | cons l t ih =>
    simp only [List.flatMap_cons, headerLine, List.append_assoc] at heq
    cases hc : chg l with
    | true =>
      obtain ⟨e1, e2⟩ := h1 l (List.mem_cons_self _ _) hc
      rw [e1, e2] at heq
      have := List.append_cancel_left (List.append_cancel_left heq)
      exact ⟨_, _, this⟩
    | false =>
      rw [h2 l (List.mem_cons_self _ _) hc] at heq
      have heq2 := List.append_cancel_left (List.append_cancel_left
        (List.append_cancel_left (List.append_cancel_left heq)))
      refine ih (fun x hx => h1 x (List.mem_cons_of_mem _ hx))
        (fun x hx => h2 x (List.mem_cons_of_mem _ hx)) ?_ heq2
      obtain ⟨x, hx, hxc⟩ := hex
      rcases List.mem_cons.1 hx with rfl | hxt
      · rw [hc] at hxc; exact absurd hxc (by simp)
      · exact ⟨x, hxt, hxc⟩

theorem eq_of_append_eq_of_length {v v2 R1 R2 : Str} (h : v ++ R1 = v2 ++ R2)
    (hl : v.length = v2.length) : v = v2 :=
  (List.append_inj h hl).1

theorem newline_mem_of_nil_append {v2 R1 R2 : Str} (h : ([] : Str) ++ 10 :: R1 = v2 ++ 10 :: R2)
    (hv : v2 ≠ []) : 10 ∈ v2 := by
  cases v2 with
  | nil => exact absurd rfl hv
  | cons a t =>
    simp only [List.nil_append, List.cons_append, List.cons.injEq] at h
    rw [← h.1]; exact List.mem_cons_self _ _

theorem not_suffix_of_newline {X1 X2 v2 : Str} (hmem : 10 ∈ v2)
    (hlen : v2.length ≤ 64)
    (h : X1 ++ lit "e3b0c44298fc1c149afbf4c8996fb92427ae41e4649b934ca495991b7852b855" = X2 ++ v2) :
    False := by
  have s1 : v2 <:+ X2 ++ v2 := List.suffix_append _ _
  have s2 : lit "e3b0c44298fc1c149afbf4c8996fb92427ae41e4649b934ca495991b7852b855" <:+ X2 ++ v2 := by
    rw [← h]; exact List.suffix_append _ _
  have s3 := List.suffix_of_suffix_length_le s1 s2 (by
    have : (lit "e3b0c44298fc1c149afbf4c8996fb92427ae41e4649b934ca495991b7852b855").length = 64 := by
      decide
    omega)
  have := s3.subset hmem
  revert this
  decide

/-- A canonical request in which the value `v` of one signed header (on all its
lines, and in the payload hash when the header is X-Amz-Content-Sha256) is
replaced by another value is another string. -/
theorem changed_value_ne (L : List Str) (val1 val2 : Str → Str) (chg : Str → Bool)
    (v v2 M C P1 P2 : Str) (hv : v2 ≠ v)
    (h1 : ∀ l ∈ L, chg l = true → val1 l = v ∧ val2 l = v2)
    (h2 : ∀ l ∈ L, chg l = false → val1 l = val2 l)
    (hex : ∃ l ∈ L, chg l = true)
    (hP : P1 = P2 ∨ (P1 = payloadOf v ∧ P2 = payloadOf v2)) :
    M ++ (L.flatMap (headerLine val2) ++ (C ++ P2)) ≠
      M ++ (L.flatMap (headerLine val1) ++ (C ++ P1)) := by
  intro heq
  have heq1 := (List.append_cancel_left heq).symm
  have hlen := congrArg List.length heq1
  simp only [List.length_append] at hlen
  have hA := lines_length L val1 val2 chg v v2 h1 h2
  obtain ⟨R1, R2, hB⟩ := lines_first_difference L val1 val2 chg v v2 _ _ h1 h2 hex heq1
  have hn : 0 < L.countP chg := by
    obtain ⟨l, hl, hc⟩ := hex
    exact List.countP_pos_iff.2 ⟨l, hl, hc⟩
  have key : ∀ a b : Nat, L.countP chg * a = L.countP chg * b → a = b := fun a b h =>
    Nat.eq_of_mul_eq_mul_left hn h
  rcases hP with hP | ⟨hP1, hP2⟩
  · rw [hP] at hlen
    have : L.countP chg * v.length = L.countP chg * v2.length := by omega
    exact hv (eq_of_append_eq_of_length hB (key _ _ this)).symm
  · by_cases hve : v = []
    · have hv2e : v2 ≠ [] := fun h => hv (h.trans hve.symm)
      subst hve
      have hp1 : P1 = lit "e3b0c44298fc1c149afbf4c8996fb92427ae41e4649b934ca495991b7852b855" := by
        rw [hP1]; rfl
      have hp2 : P2 = v2 := by rw [hP2]; simp [payloadOf, hv2e]
      have hE : (lit "e3b0c44298fc1c149afbf4c8996fb92427ae41e4649b934ca495991b7852b855").length =
          64 := by decide
      rw [hp1, hp2, hE] at hlen
      simp only [List.length_nil, Nat.mul_zero, Nat.add_zero] at hA
      have hle : v2.length ≤ 64 := by
        have : 0 ≤ L.countP chg * v2.length := Nat.zero_le _
        omega
      rw [hp1, hp2] at heq1
      have h3 : (L.flatMap (headerLine val1) ++ C) ++
          lit "e3b0c44298fc1c149afbf4c8996fb92427ae41e4649b934ca495991b7852b855" =
          (L.flatMap (headerLine val2) ++ C) ++ v2 := by
        simpa only [List.append_assoc] using heq1
      exact not_suffix_of_newline (newline_mem_of_nil_append hB hv2e) hle h3
    · by_cases hv2e : v2 = []
      · subst hv2e
        have hp2 : P2 = lit "e3b0c44298fc1c149afbf4c8996fb92427ae41e4649b934ca495991b7852b855" := by
          rw [hP2]; rfl
        have hp1 : P1 = v := by rw [hP1]; simp [payloadOf, hve]
        have hE : (lit "e3b0c44298fc1c149afbf4c8996fb92427ae41e4649b934ca495991b7852b855").length =
            64 := by decide
        rw [hp1, hp2, hE] at hlen
        simp only [List.length_nil, Nat.mul_zero, Nat.add_zero] at hA
        have hle : v.length ≤ 64 := by
          have : 0 ≤ L.countP chg * v.length := Nat.zero_le _
          omega
        rw [hp1, hp2] at heq1
        have h3 : (L.flatMap (headerLine val2) ++ C) ++
            lit "e3b0c44298fc1c149afbf4c8996fb92427ae41e4649b934ca495991b7852b855" =
            (L.flatMap (headerLine val1) ++ C) ++ v := by
          simpa only [List.append_assoc] using heq1.symm
        exact not_suffix_of_newline (newline_mem_of_nil_append hB.symm hve) hle h3
      · have hp1 : P1 = v := by rw [hP1]; simp [payloadOf, hve]
        have hp2 : P2 = v2 := by rw [hP2]; simp [payloadOf, hv2e]
        rw [hp1, hp2] at hlen
        have : (L.countP chg + 1) * v.length = (L.countP chg + 1) * v2.length := by
          simp only [Nat.add_mul, Nat.one_mul]; omega
        have hl : v.length = v2.length := Nat.eq_of_mul_eq_mul_left (Nat.succ_pos _) this
        exact hv (eq_of_append_eq_of_length hB hl).symm

/-! ## From equal signatures to equal digests -/

theorem hexDigit_inj : ∀ m < 16, ∀ n < 16, hexDigit m = hexDigit n → m = n := by decide

theorem hexEncode_inj : ∀ (l1 l2 : Str), (∀ b ∈ l1, b < 256) → (∀ b ∈ l2, b < 256) →
    hexEncode l1 = hexEncode l2 → l1 = l2 := by
  intro l1
  induction l1 with
  | nil =>
    intro l2 _ _ h
    cases l2 with
    | nil => rfl
    | cons b bs => simp [hexEncode] at h
  | cons a as ih =>
    intro l2 h1 h2 h
    cases l2 with
    | nil => simp [hexEncode] at h
    | cons b bs =>
      simp only [hexEncode, List.cons.injEq] at h
      obtain ⟨e1, e2, e3⟩ := h
      have ha := h1 a (List.mem_cons_self _ _)
      have hb := h2 b (List.mem_cons_self _ _)
      have d1 := hexDigit_inj _ (Nat.mod_lt _ (by norm_num)) _ (Nat.mod_lt _ (by norm_num)) e1
      have d2 := hexDigit_inj _ (Nat.mod_lt _ (by norm_num)) _ (Nat.mod_lt _ (by norm_num)) e2
      have hab : a = b := by omega
      rw [hab, ih bs (fun x hx => h1 x (List.mem_cons_of_mem _ hx))
        (fun x hx => h2 x (List.mem_cons_of_mem _ hx)) e3]

theorem beBytes_lt (n x : Nat) : ∀ b ∈ beBytes n x, b < 256 := by
  induction n with
  | zero => intro b hb; simp [beBytes] at hb
  | succ n ih =>
    intro b hb
    simp only [beBytes, List.mem_cons] at hb
    rcases hb with rfl | hb
    · exact Nat.mod_lt _ (by norm_num)
    · exact ih b hb

theorem sha256_lt (data : Str) : ∀ b ∈ sha256 data, b < 256 := by
  intro b hb
  simp only [sha256, List.mem_append] at hb
  rcases hb with ((((((hb | hb) | hb) | hb) | hb) | hb) | hb) | hb <;> exact beBytes_lt _ _ b hb

theorem sumHMAC_lt (key data : Str) : ∀ b ∈ sumHMAC key data, b < 256 := by
  intro b hb
  exact sha256_lt _ b hb

theorem sum256_length (data : Str) : (sum256 data).length = 32 := sha256_length data

/-! ## Reading a header after `Set` -/

theorem Header.Get_Set (h : Header) (key value x : Str) :
    (h.Set key value).Get x =
      if CanonicalMIMEHeaderKey x = CanonicalMIMEHeaderKey key then value else h.Get x := by
  by_cases hx : CanonicalMIMEHeaderKey x = CanonicalMIMEHeaderKey key
  · simp only [Header.Get, hx, Header.index_Set_same, List.headD_cons, if_true]
  · simp only [Header.Get, Header.index_Set_other _ _ _ hx, hx, if_false]

theorem Header.Get_congr (h : Header) {x y : Str}
    (hxy : CanonicalMIMEHeaderKey x = CanonicalMIMEHeaderKey y) : h.Get x = h.Get y := by
  simp only [Header.Get, hxy]

theorem mem_keys_of_index_ne_nil (h : Header) (K : Str) (hne : h.index K ≠ []) :
    K ∈ h.map Prod.fst := by
  induction h with
  | nil => simp [Header.index, List.lookup] at hne
  | cons e t ih =>
    obtain ⟨a, vs⟩ := e
    by_cases hK : K = a
    · subst hK; simp
    · have hb : (K == a) = false := by simpa using hK
      have : Header.index ((a, vs) :: t) K = Header.index t K := by
        simp [Header.index, List.lookup, hb]
      rw [this] at hne
      exact List.mem_cons_of_mem _ (ih hne)

/-! ## Tampering with a signed header -/

theorem getRequestSignedHeaders_some (r : Request) (names : Str)
    (h3 : ¬ (Split (r.Header.Get (lit "Authorization")) 32).length < 3)
    (hn : (Split ((Split (r.Header.Get (lit "Authorization")) 32).getD 2 []) 61).get? 1 =
      some names) :
    getRequestSignedHeaders r =
      some (((declaredSignedHeaders r).foldl (fun (h : Header) d =>
        h.Set d (r.Header.Get d)) []).Set (lit "Host") r.Host) := by
  rw [getRequestSignedHeaders_eq, if_neg h3, hn]

/-- A request that `IsSigned` accepts has an Authorization value of three fields
or more with a "=" in the third, and that value is `authz` of the rebuilt
header set. -/
theorem IsSigned_true_structure (U : CaseTables) (c : CredentialsV4) (r : Request)
    (hver : c.IsSigned U r = some true) :
    ¬ (Split (r.Header.Get (lit "Authorization")) 32).length < 3 ∧
    (∃ names, (Split ((Split (r.Header.Get (lit "Authorization")) 32).getD 2 []) 61).get? 1 =
      some names) ∧
    r.Header.Get (lit "Authorization") =
      c.authz U r.Method (encodePath U r.Path) (ParseQuery r.RawQuery).Encode
        (verifierHeaders r) := by
  have h3 : ¬ (Split (r.Header.Get (lit "Authorization")) 32).length < 3 := by
    intro hs
    rw [IsSigned_short U c r hs] at hver
    simp at hver
  refine ⟨h3, ?_⟩
  cases hn : (Split ((Split (r.Header.Get (lit "Authorization")) 32).getD 2 []) 61).get? 1 with
  | none =>
    have : getRequestSignedHeaders r = none := by
      rw [getRequestSignedHeaders_eq, if_neg h3, hn]
    unfold CredentialsV4.IsSigned at hver
    rw [this] at hver
    simp at hver
  | some names =>
    refine ⟨⟨names, rfl⟩, ?_⟩
    have hg := getRequestSignedHeaders_some r names h3 hn
    unfold CredentialsV4.IsSigned at hver
    unfold verifierHeaders
    rw [hg] at hver ⊢
    simpa using hver

theorem Canonical_ne_Authorization (U : CaseTables) (d : Str)
    (htok : d.all validHeaderFieldByte = true) (hign : ignoredHeaders (ToLower U d) = false) :
    CanonicalMIMEHeaderKey (lit "Authorization") ≠ CanonicalMIMEHeaderKey d := by
  intro h
  have h1 : CanonicalMIMEHeaderKey (lit "Authorization") = lit "Authorization" := by decide
  have h2 := ToLower_Canonical U d htok
  rw [← h, h1, ToLower_Authorization] at h2
  rw [← h2] at hign
  revert hign
  decide

theorem getCanonicalRequest_eq (U : CaseTables) (method encodedResource encodedQuery : Str)
    (hs : Header) (hne : signedHeaders U hs ≠ []) :
    getCanonicalRequest U method encodedResource encodedQuery hs =
      (method ++ lit "\n" ++ encodedResource ++ lit "\n" ++ sortQuery encodedQuery ++ lit "\n") ++
        ((signedHeaders U hs).flatMap
            (headerLine (fun l => Join (hs.index (CanonicalMIMEHeaderKey l)) (lit ","))) ++
          ((lit "\n" ++ getSignedHeaders U hs ++ lit "\n") ++
            payloadOf (hs.Get (lit "X-Amz-Content-Sha256")))) := by
  have hl : (signedHeaders U hs).flatMap (canonicalHeaderLine hs) =
      (signedHeaders U hs).flatMap
        (headerLine (fun l => Join (hs.index (CanonicalMIMEHeaderKey l)) (lit ","))) := rfl
  have hp : getHashedPayload hs = payloadOf (hs.Get (lit "X-Amz-Content-Sha256")) := rfl
  rw [getCanonicalRequest, Join6, getCanonicalHeaders_flatMap U hs hne, hl, hp]
  simp only [List.append_assoc]

/-- The header sets the verifier rebuilds before and after the value of the
declared header `d` is replaced by `v2`: same names, the value of `d` changed,
every other entry the same. -/
theorem verifierHeaders_tampered (U : CaseTables) (c : CredentialsV4) (r : Request) (d v2 : Str)
    (hver : c.IsSigned U r = some true)
    (hd : d ∈ declaredSignedHeaders r)
    (htok : d.all validHeaderFieldByte = true)
    (hign : ignoredHeaders (ToLower U d) = false)
    (hhost : CanonicalMIMEHeaderKey d ≠ lit "Host") :
    getRequestSignedHeaders (r.withHeader (r.Header.Set d v2)) =
      some (verifierHeaders (r.withHeader (r.Header.Set d v2))) ∧
    (r.withHeader (r.Header.Set d v2)).Header.Get (lit "Authorization") =
      r.Header.Get (lit "Authorization") ∧
    (verifierHeaders (r.withHeader (r.Header.Set d v2))).map Prod.fst =
      (verifierHeaders r).map Prod.fst ∧
    (verifierHeaders r).index (CanonicalMIMEHeaderKey d) = [r.Header.Get d] ∧
    (verifierHeaders (r.withHeader (r.Header.Set d v2))).index (CanonicalMIMEHeaderKey d) = [v2] ∧
    ∀ K, K ≠ CanonicalMIMEHeaderKey d →
      (verifierHeaders (r.withHeader (r.Header.Set d v2))).index K = (verifierHeaders r).index K := by
  obtain ⟨h3, ⟨names, hn⟩, _⟩ := IsSigned_true_structure U c r hver
  have hA : (r.withHeader (r.Header.Set d v2)).Header.Get (lit "Authorization") =
      r.Header.Get (lit "Authorization") := by
    show (r.Header.Set d v2).Get (lit "Authorization") = _
    rw [Header.Get_Set, if_neg (Canonical_ne_Authorization U d htok hign)]
  have hD : declaredSignedHeaders (r.withHeader (r.Header.Set d v2)) = declaredSignedHeaders r := by
    simp only [declaredSignedHeaders, hA]
  have hg1 := getRequestSignedHeaders_some r names h3 hn
  have hg2 := getRequestSignedHeaders_some (r.withHeader (r.Header.Set d v2)) names
    (by rw [hA]; exact h3) (by rw [hA]; exact hn)
  rw [hD] at hg2
  have hv1 : verifierHeaders r = ((declaredSignedHeaders r).foldl (fun (h : Header) x =>
      h.Set x (r.Header.Get x)) []).Set (lit "Host") r.Host := by
    unfold verifierHeaders; rw [hg1]; rfl
  have hv2 : verifierHeaders (r.withHeader (r.Header.Set d v2)) =
      ((declaredSignedHeaders r).foldl (fun (h : Header) x =>
        h.Set x ((r.withHeader (r.Header.Set d v2)).Header.Get x)) []).Set (lit "Host")
        (r.withHeader (r.Header.Set d v2)).Host := by
    unfold verifierHeaders; rw [hg2]; rfl
  have cH : CanonicalMIMEHeaderKey (lit "Host") = lit "Host" := by decide
  refine ⟨by rw [hv2]; exact hg2, hA, ?_, ?_, ?_, ?_⟩
  · rw [hv1, hv2, Set_keys, Set_keys]
    congr 2
    exact foldl_Set_keys _ _ _ _ _ rfl
  · rw [hv1, Header.index_Set_other _ _ _ (by rw [cH]; exact hhost)]
    exact foldl_Set_index_mem _ _ _ _ _ ⟨d, hd, rfl⟩ (fun x _ hx => Header.Get_congr _ hx)
  · rw [hv2, Header.index_Set_other _ _ _ (by rw [cH]; exact hhost)]
    refine foldl_Set_index_mem _ _ _ _ _ ⟨d, hd, rfl⟩ (fun x _ hx => ?_)
    show (r.Header.Set d v2).Get x = v2
    rw [Header.Get_Set, if_pos hx]
  · intro K hK
    rw [hv1, hv2]
    by_cases hKH : K = lit "Host"
    · subst hKH
      have e1 := Header.index_Set_same ((declaredSignedHeaders r).foldl (fun (h : Header) x =>
        h.Set x ((r.withHeader (r.Header.Set d v2)).Header.Get x)) []) (lit "Host")
        (r.withHeader (r.Header.Set d v2)).Host
      have e2 := Header.index_Set_same ((declaredSignedHeaders r).foldl (fun (h : Header) x =>
        h.Set x (r.Header.Get x)) []) (lit "Host") r.Host
      rw [cH] at e1 e2
      rw [e1, e2]
      rfl
    · rw [Header.index_Set_other _ _ _ (by rw [cH]; exact hKH),
        Header.index_Set_other _ _ _ (by rw [cH]; exact hKH)]
      refine foldl_Set_index_congr _ _ _ _ _ _ rfl (fun x _ hx => ?_)
      show (r.Header.Set d v2).Get x = r.Header.Get x
      rw [Header.Get_Set, if_neg (by rw [hx]; exact hK)]

/-- Replacing the value of a declared header other than Host changes the
canonical request the verifier hashes. -/
theorem verifierCanonicalRequest_tampered (U : CaseTables) (c : CredentialsV4) (r : Request)
    (d v2 : Str)
    (hver : c.IsSigned U r = some true)
    (hd : d ∈ declaredSignedHeaders r)
    (htok : d.all validHeaderFieldByte = true)
    (hign : ignoredHeaders (ToLower U d) = false)
    (hhost : CanonicalMIMEHeaderKey d ≠ lit "Host")
    (hv : v2 ≠ r.Header.Get d) :
    verifierCanonicalRequest U (r.withHeader (r.Header.Set d v2)) ≠
      verifierCanonicalRequest U r := by
  obtain ⟨_, _, hkeys, hi1, hi2, hother⟩ :=
    verifierHeaders_tampered U c r d v2 hver hd htok hign hhost
  have hL : signedHeaders U (verifierHeaders (r.withHeader (r.Header.Set d v2))) =
      signedHeaders U (verifierHeaders r) := signedHeaders_of_keys U hkeys
  have hmem : ToLower U (CanonicalMIMEHeaderKey d) ∈ signedHeaders U (verifierHeaders r) := by
    unfold signedHeaders
    rw [mem_sortStrings, List.mem_filter]
    constructor
    · have hk := mem_keys_of_index_ne_nil (verifierHeaders r) (CanonicalMIMEHeaderKey d)
        (by rw [hi1]; simp)
      obtain ⟨e, he, hek⟩ := List.mem_map.1 hk
      exact List.mem_map.2 ⟨e, he, by rw [hek]⟩
    · rw [ToLower_Canonical U d htok, hign]; rfl
  have hne : signedHeaders U (verifierHeaders r) ≠ [] := List.ne_nil_of_mem hmem
  unfold verifierCanonicalRequest
  rw [getCanonicalRequest_eq U _ _ _ _ hne, getCanonicalRequest_eq U _ _ _ _ (by rw [hL]; exact hne),
    hL]
  have hG : getSignedHeaders U (verifierHeaders (r.withHeader (r.Header.Set d v2))) =
      getSignedHeaders U (verifierHeaders r) := by
    unfold getSignedHeaders; rw [hL]
  rw [hG]
  refine changed_value_ne (signedHeaders U (verifierHeaders r)) _ _
    (fun l => decide (CanonicalMIMEHeaderKey l = CanonicalMIMEHeaderKey d))
    (r.Header.Get d) v2 _ _ _ _ hv ?_ ?_ ?_ ?_
  · intro l _ hl
    have hl2 : CanonicalMIMEHeaderKey l = CanonicalMIMEHeaderKey d := by simpa using hl
    simp only [hl2, hi1, hi2, Join, and_self]
  · intro l _ hl
    have hl2 : CanonicalMIMEHeaderKey l ≠ CanonicalMIMEHeaderKey d := by simpa using hl
    simp only [hother _ hl2]
  · exact ⟨_, hmem, by simpa using Canonical_ToLower_Canonical U d htok⟩
  · have cX : CanonicalMIMEHeaderKey (lit "X-Amz-Content-Sha256") = lit "X-Amz-Content-Sha256" := by
      decide
    have gX : ∀ hs : Header, hs.Get (lit "X-Amz-Content-Sha256") =
        (hs.index (lit "X-Amz-Content-Sha256")).headD [] := fun hs => by
      simp only [Header.Get, cX]
    rw [gX, gX]
    by_cases hX : lit "X-Amz-Content-Sha256" = CanonicalMIMEHeaderKey d
    · right
      rw [hX, hi1, hi2]
      exact ⟨rfl, rfl⟩
    · left
      rw [hother _ hX]

/-- C2, amended: in a request that `IsSigned` accepts, replacing the value of a
declared signed header other than Host (a token name, not an ignored header) by
a different value changes the canonical request that `IsSigned` hashes; the
tampered request is then rejected unless SHA-256 gives the same digest for the
two canonical requests or HMAC-SHA256 the same code for the two different
strings to sign. -/
theorem tampered_header_detected (U : CaseTables) (c : CredentialsV4) (r : Request) (d v2 : Str)
    (hver : c.IsSigned U r = some true)
    (hd : d ∈ declaredSignedHeaders r)
    (htok : d.all validHeaderFieldByte = true)
    (hign : ignoredHeaders (ToLower U d) = false)
    (hhost : CanonicalMIMEHeaderKey d ≠ lit "Host")
    (hv : v2 ≠ r.Header.Get d) :
    verifierCanonicalRequest U (r.withHeader (r.Header.Set d v2)) ≠
      verifierCanonicalRequest U r ∧
    (c.IsSigned U (r.withHeader (r.Header.Set d v2)) = some false ∨
      sum256 (verifierCanonicalRequest U (r.withHeader (r.Header.Set d v2))) =
        sum256 (verifierCanonicalRequest U r) ∨
      (verifierStringToSign U c (r.withHeader (r.Header.Set d v2)) ≠ verifierStringToSign U c r ∧
        sumHMAC (verifierSigningKey c (r.withHeader (r.Header.Set d v2)))
            (verifierStringToSign U c (r.withHeader (r.Header.Set d v2))) =
          sumHMAC (verifierSigningKey c r) (verifierStringToSign U c r))) := by
  refine ⟨verifierCanonicalRequest_tampered U c r d v2 hver hd htok hign hhost hv, ?_⟩
  obtain ⟨hg2, hA, _, _, _, _⟩ := verifierHeaders_tampered U c r d v2 hver hd htok hign hhost
  obtain ⟨_, _, hauth⟩ := IsSigned_true_structure U c r hver
  by_cases hacc : r.Header.Get (lit "Authorization") =
      c.authz U r.Method (encodePath U r.Path) (ParseQuery r.RawQuery).Encode
        (verifierHeaders (r.withHeader (r.Header.Set d v2)))
  · right
    have heq := hauth.symm.trans hacc
    rw [authz_eq, authz_eq] at heq
    have hsig := List.append_inj_right' heq (by rw [signature_length, signature_length])
    have hmac : sumHMAC (verifierSigningKey c (r.withHeader (r.Header.Set d v2)))
        (verifierStringToSign U c (r.withHeader (r.Header.Set d v2))) =
        sumHMAC (verifierSigningKey c r) (verifierStringToSign U c r) :=
      (hexEncode_inj _ _ (sumHMAC_lt _ _) (sumHMAC_lt _ _) hsig).symm
    by_cases hsum : sum256 (verifierCanonicalRequest U (r.withHeader (r.Header.Set d v2))) =
        sum256 (verifierCanonicalRequest U r)
    · left; exact hsum
    · right
      refine ⟨fun hsts => hsum ?_, hmac⟩
      unfold verifierStringToSign at hsts
      rw [Join4, Join4] at hsts
      have hhex := List.append_inj_right' hsts (by
        rw [hexEncode_length, hexEncode_length, sum256_length, sum256_length])
      exact hexEncode_inj _ _ (sha256_lt _) (sha256_lt _) hhex
  · left
    unfold CredentialsV4.IsSigned
    rw [hg2]
    simp only [Option.some.injEq, decide_eq_false_iff_not]
    rw [hA]
    exact hacc

/-! ## Reading the Authorization value back -/

theorem Split_append_sep (X rest : Str) (sep : Nat) (hX : sep ∉ X) :
    Split (X ++ sep :: rest) sep = X :: Split rest sep := by
  induction X with
  | nil => simp [Split]
  | cons c cs ih =>
    have hc : c ≠ sep := fun h => hX (by rw [h]; exact List.mem_cons_self _ _)
    have hcs : sep ∉ cs := fun h => hX (List.mem_cons_of_mem _ h)
    rw [List.cons_append, Split, if_neg hc, ih hcs]

theorem Split_of_not_mem (X : Str) (sep : Nat) (hX : sep ∉ X) : Split X sep = [X] := by
  induction X with
  | nil => rfl
  | cons c cs ih =>
    have hc : c ≠ sep := fun h => hX (by rw [h]; exact List.mem_cons_self _ _)
    have hcs : sep ∉ cs := fun h => hX (List.mem_cons_of_mem _ h)
    rw [Split, if_neg hc, ih hcs]

theorem TrimSuffix_append (a : Str) (suffix : Nat) : TrimSuffix (a ++ [suffix]) suffix = a := by
  simp [TrimSuffix]

theorem TrimSuffix_of_not_mem (a : Str) (suffix : Nat) (h : suffix ∉ a) :
    TrimSuffix a suffix = a := by
  unfold TrimSuffix
  rw [if_neg]
  intro hl
  exact h (List.mem_of_getLast?_eq_some hl)

/-- The names joined by ";" and followed by "," are read back by splitting at
";" and trimming the ",". -/
theorem Split_Join_names (L : List Str) (hL : L ≠ [])
    (hsep : ∀ l ∈ L, 59 ∉ l ∧ 44 ∉ l) :
    (Split (Join L [59] ++ [44]) 59).map (fun header => TrimSuffix header 44) = L := by
  induction L with
  | nil => exact absurd rfl hL
  | cons a t ih =>
    cases t with
    | nil =>
      have h59 : 59 ∉ a ++ [44] := by
        intro h
        rcases List.mem_append.1 h with h | h
        · exact (hsep a (List.mem_cons_self _ _)).1 h
        · simp at h
      simp only [Join]
      rw [Split_of_not_mem _ _ h59]
      simp [TrimSuffix_append]
    | cons b t2 =>
      have ha := hsep a (List.mem_cons_self _ _)
      have e : Join (a :: b :: t2) [59] ++ [44] = a ++ 59 :: (Join (b :: t2) [59] ++ [44]) := by
        simp [Join]
      rw [e, Split_append_sep _ _ _ ha.1, List.map_cons, TrimSuffix_of_not_mem _ _ ha.2,
        ih (List.cons_ne_nil _ _) (fun l hl => hsep l (List.mem_cons_of_mem _ hl))]

theorem mem_Join {L : List Str} {sep : Str} {x : Nat} (h : x ∈ Join L sep) :
    x ∈ sep ∨ ∃ l ∈ L, x ∈ l := by
  induction L with
  | nil => simp [Join] at h
  | cons a t ih =>
    cases t with
    | nil => exact Or.inr ⟨a, List.mem_cons_self _ _, by simpa [Join] using h⟩
    | cons b t2 =>
      simp only [Join, List.mem_append] at h
      rcases h with (h | h) | h
      · exact Or.inr ⟨a, List.mem_cons_self _ _, h⟩
      · exact Or.inl h
      · rcases ih h with h | ⟨l, hl, hx⟩
        · exact Or.inl h
        · exact Or.inr ⟨l, List.mem_cons_of_mem _ hl, hx⟩

theorem decimalDigits_isDigit (n x : Nat) : ∀ b ∈ decimalDigits n x, isDigit b = true := by
  induction n generalizing x with
  | zero => intro b hb; simp [decimalDigits] at hb
  | succ n ih =>
    intro b hb
    simp only [decimalDigits] at hb
    split at hb
    · simp only [List.mem_singleton] at hb
      rw [hb, isDigit_iff]; exact ⟨x, by omega, rfl⟩
    · rcases List.mem_append.1 hb with h | h
      · exact ih _ b h
      · simp only [List.mem_singleton] at h
        rw [h, isDigit_iff]; exact ⟨x % 10, Nat.mod_lt _ (by norm_num), rfl⟩

theorem appendInt_isDigit (x width : Nat) : ∀ b ∈ appendInt x width, isDigit b = true := by
  intro b hb
  simp only [appendInt, List.mem_append, List.mem_replicate] at hb
  rcases hb with ⟨_, rfl⟩ | h
  · decide
  · exact decimalDigits_isDigit _ _ b h

theorem formatYYYYMMDD_isDigit (t : Time) : ∀ b ∈ t.formatYYYYMMDD, isDigit b = true := by
  intro b hb
  simp only [Time.formatYYYYMMDD, List.mem_append] at hb
  rcases hb with (h | h) | h <;> exact appendInt_isDigit _ _ b h

theorem space_not_mem_credential (c : CredentialsV4) (date : Time)
    (hAK : 32 ∉ c.AccessKey) (hRG : 32 ∉ c.Region) :
    32 ∉ getCredential c.AccessKey c.Region date := by
  intro h
  rw [getCredential, getScope_eq] at h
  simp only [List.mem_append] at h
  rcases h with (h | h) | (((h | h) | h) | h)
  · exact hAK h
  · revert h; decide
  · have := formatYYYYMMDD_isDigit date 32 h
    revert this; decide
  · revert h; decide
  · exact hRG h
  · revert h; decide

/-! ## Header maps with canonical names and single values -/

theorem mem_keys_Set (h : Header) (key value K : Str) :
    K ∈ (h.Set key value).map Prod.fst ↔
      K = CanonicalMIMEHeaderKey key ∨ K ∈ h.map Prod.fst := by
  rw [Set_keys, List.mem_cons, List.mem_filter]
  constructor
  · rintro (h1 | ⟨h1, _⟩)
    · exact Or.inl h1
    · exact Or.inr h1
  · rintro (h1 | h1)
    · exact Or.inl h1
    · by_cases hK : K = CanonicalMIMEHeaderKey key
      · exact Or.inl hK
      · exact Or.inr ⟨h1, by simpa using hK⟩

theorem nodup_keys_Set (h : Header) (key value : Str) (hn : (h.map Prod.fst).Nodup) :
    ((h.Set key value).map Prod.fst).Nodup := by
  rw [Set_keys, List.nodup_cons]
  refine ⟨?_, hn.filter _⟩
  intro hm
  have := (List.mem_filter.1 hm).2
  simp at this

theorem mem_keys_foldl_Set (g : Str → Str) (D : List Str) (h0 : Header) (K : Str) :
    K ∈ (D.foldl (fun (h : Header) d => h.Set d (g d)) h0).map Prod.fst ↔
      K ∈ h0.map Prod.fst ∨ ∃ d ∈ D, CanonicalMIMEHeaderKey d = K := by
  induction D generalizing h0 with
  | nil => simp
  | cons d t ih =>
    rw [List.foldl_cons, ih, mem_keys_Set]
    constructor
    · rintro ((h1 | h1) | ⟨x, hx, hxK⟩)
      · exact Or.inr ⟨d, List.mem_cons_self _ _, h1.symm⟩
      · exact Or.inl h1
      · exact Or.inr ⟨x, List.mem_cons_of_mem _ hx, hxK⟩
    · rintro (h1 | ⟨x, hx, hxK⟩)
      · exact Or.inl (Or.inr h1)
      · rcases List.mem_cons.1 hx with rfl | hxt
        · exact Or.inl (Or.inl hxK.symm)
        · exact Or.inr ⟨x, hxt, hxK⟩

theorem nodup_keys_foldl_Set (g : Str → Str) (D : List Str) (h0 : Header)
    (hn : (h0.map Prod.fst).Nodup) :
    ((D.foldl (fun (h : Header) d => h.Set d (g d)) h0).map Prod.fst).Nodup := by
  induction D generalizing h0 with
  | nil => exact hn
  | cons d t ih => exact ih _ (nodup_keys_Set _ _ _ hn)

theorem Header.Clean_Set (h : Header) (key value : Str) (hc : h.Clean)
    (htok : key.all validHeaderFieldByte = true) (hcan : CanonicalMIMEHeaderKey key = key) :
    (h.Set key value).Clean := by
  refine ⟨?_, nodup_keys_Set _ _ _ hc.2⟩
  intro e he
  simp only [Header.Set, List.mem_cons, List.mem_filter] at he
  rcases he with rfl | ⟨he, _⟩
  · rw [hcan]; exact ⟨htok, hcan, by simp⟩
  · exact hc.1 e he

theorem index_mem_or_nil (h : Header) (K : Str) :
    h.index K = [] ∨ (K, h.index K) ∈ h := by
  induction h with
  | nil => left; rfl
  | cons e t ih =>
    obtain ⟨a, vs⟩ := e
    by_cases hK : K = a
    · subst hK
      right
      simp [Header.index, List.lookup]
    · have hb : (K == a) = false := by simpa using hK
      have e1 : Header.index ((a, vs) :: t) K = Header.index t K := by
        simp [Header.index, List.lookup, hb]
      rw [e1]
      rcases ih with h1 | h1
      · exact Or.inl h1
      · exact Or.inr (List.mem_cons_of_mem _ h1)

theorem Header.Clean.index_length {h : Header} (hc : h.Clean) (K : Str) :
    (h.index K).length ≤ 1 := by
  rcases index_mem_or_nil h K with h1 | h1
  · rw [h1]; exact Nat.zero_le _
  · exact (hc.1 _ h1).2.2

theorem Join_of_length_le_one (l : List Str) (sep : Str) (h : l.length ≤ 1) :
    Join l sep = l.headD [] := by
  cases l with
  | nil => rfl
  | cons a t =>
    cases t with
    | nil => rfl
    | cons b t2 => simp at h

theorem Header.Clean.key_props {h : Header} (hc : h.Clean) {K : Str} (hK : K ∈ h.map Prod.fst) :
    K.all validHeaderFieldByte = true ∧ CanonicalMIMEHeaderKey K = K := by
  obtain ⟨e, he, rfl⟩ := List.mem_map.1 hK
  exact ⟨(hc.1 e he).1, (hc.1 e he).2.1⟩

/-- On canonical token keys, lower-casing is undone by `CanonicalMIMEHeaderKey`. -/
theorem Canonical_ToLower_of_clean (U : CaseTables) {h : Header} (hc : h.Clean) {K : Str}
    (hK : K ∈ h.map Prod.fst) : CanonicalMIMEHeaderKey (ToLower U K) = K := by
  obtain ⟨ht, hcan⟩ := hc.key_props hK
  have := Canonical_ToLower_Canonical U K ht
  rwa [hcan] at this

theorem mem_signedHeaders (U : CaseTables) (h : Header) (x : Str) :
    x ∈ signedHeaders U h ↔
      ∃ K ∈ h.map Prod.fst, ToLower U K = x ∧ ignoredHeaders x = false := by
  unfold signedHeaders
  rw [mem_sortStrings, List.mem_filter, List.mem_map]
  constructor
  · rintro ⟨⟨e, he, rfl⟩, hi⟩
    exact ⟨e.1, List.mem_map.2 ⟨e, he, rfl⟩, rfl, by simpa using hi⟩
  · rintro ⟨K, hK, rfl, hi⟩
    obtain ⟨e, he, rfl⟩ := List.mem_map.1 hK
    exact ⟨⟨e, he, rfl⟩, by simpa using hi⟩

theorem token_not_separator (x : Str) (h : x.all validHeaderFieldByte = true) :
    32 ∉ x ∧ 59 ∉ x ∧ 44 ∉ x ∧ 61 ∉ x := by
  rw [List.all_eq_true] at h
  refine ⟨fun hm => ?_, fun hm => ?_, fun hm => ?_, fun hm => ?_⟩ <;>
    · have := h _ hm
      revert this
      decide

theorem signedHeaders_token (U : CaseTables) {h : Header} (hc : h.Clean) {x : Str}
    (hx : x ∈ signedHeaders U h) : x.all validHeaderFieldByte = true := by
  obtain ⟨K, hK, rfl, _⟩ := (mem_signedHeaders U h x).1 hx
  have ht := (hc.key_props hK).1
  rw [ToLower_of_token U K ht]
  exact all_valid_map_lowerByte K ht

theorem declaredSignedHeaders_of_get (r : Request) (names : Str)
    (h : (Split ((Split (r.Header.Get (lit "Authorization")) 32).getD 2 []) 61).get? 1 =
      some names) :
    declaredSignedHeaders r = (Split names 59).map (fun header => TrimSuffix header 44) := by
  unfold declaredSignedHeaders
  rw [h]

/-- The Authorization value `authz` builds over a clean header map is read back
by `getRequestSignedHeaders` as the signed header names, provided the access
key and the region hold no space. -/
theorem declared_of_authz (U : CaseTables) (c : CredentialsV4)
    (method encodedResource encodedQuery : Str) (H : Header) (r1 : Request)
    (hc : H.Clean) (hne : signedHeaders U H ≠ [])
    (hAK : 32 ∉ c.AccessKey) (hRG : 32 ∉ c.Region)
    (hA : r1.Header.Get (lit "Authorization") =
      c.authz U method encodedResource encodedQuery H) :
    ¬ (Split (r1.Header.Get (lit "Authorization")) 32).length < 3 ∧
    (Split ((Split (r1.Header.Get (lit "Authorization")) 32).getD 2 []) 61).get? 1 =
      some (getSignedHeaders U H ++ [44]) ∧
    declaredSignedHeaders r1 = signedHeaders U H := by
  have e1 : lit "AWS4-HMAC-SHA256 Credential=" = lit "AWS4-HMAC-SHA256" ++ 32 :: lit "Credential=" := by
    decide
  have e2 : lit ", SignedHeaders=" = 44 :: 32 :: (lit "SignedHeaders" ++ [61]) := by decide
  have e3 : lit ", Signature=" = 44 :: 32 :: lit "Signature=" := by decide
  have hform : c.authz U method encodedResource encodedQuery H =
      lit "AWS4-HMAC-SHA256" ++ 32 ::
        ((lit "Credential=" ++ getCredential c.AccessKey c.Region
            (parseDate (H.Get (lit "X-Amz-Date"))) ++ [44]) ++ 32 ::
          ((lit "SignedHeaders" ++ 61 :: (getSignedHeaders U H ++ [44])) ++ 32 ::
            (lit "Signature=" ++ c.signature U method encodedResource encodedQuery H))) := by
    rw [authz_eq, e1, e2, e3]
    simp only [List.append_assoc, List.cons_append, List.nil_append, List.singleton_append]
  have hsh : ∀ x ∈ getSignedHeaders U H, x ≠ 32 ∧ x ≠ 61 := by
    intro x hx
    rcases mem_Join hx with h | ⟨l, hl, hxl⟩
    · have hl : lit ";" = [59] := by decide
      rw [hl, List.mem_singleton] at h
      omega
    · have hs := token_not_separator l (signedHeaders_token U hc hl)
      exact ⟨fun e => hs.1 (e ▸ hxl), fun e => hs.2.2.2 (e ▸ hxl)⟩
  have n0 : 32 ∉ lit "AWS4-HMAC-SHA256" := by decide
  have n1 : 32 ∉ lit "Credential=" ++ getCredential c.AccessKey c.Region
      (parseDate (H.Get (lit "X-Amz-Date"))) ++ [44] := by
    intro h
    rcases List.mem_append.1 h with h | h
    · rcases List.mem_append.1 h with h | h
      · revert h; decide
      · exact space_not_mem_credential c _ hAK hRG h
    · simp at h
  have n2 : 32 ∉ lit "SignedHeaders" ++ 61 :: (getSignedHeaders U H ++ [44]) := by
    intro h
    rcases List.mem_append.1 h with h | h
    · revert h; decide
    · rcases List.mem_cons.1 h with h | h
      · exact absurd h (by decide)
      · rcases List.mem_append.1 h with h | h
        · exact (hsh _ h).1 rfl
        · simp at h
  have hsplit : Split (r1.Header.Get (lit "Authorization")) 32 =
      lit "AWS4-HMAC-SHA256" ::
        (lit "Credential=" ++ getCredential c.AccessKey c.Region
            (parseDate (H.Get (lit "X-Amz-Date"))) ++ [44]) ::
          (lit "SignedHeaders" ++ 61 :: (getSignedHeaders U H ++ [44])) ::
            Split (lit "Signature=" ++ c.signature U method encodedResource encodedQuery H) 32 := by
    rw [hA, hform, Split_append_sep _ _ _ n0, Split_append_sep _ _ _ n1,
      Split_append_sep _ _ _ n2]
  have m1 : 61 ∉ lit "SignedHeaders" := by decide
  have m2 : 61 ∉ getSignedHeaders U H ++ [44] := by
    intro h
    rcases List.mem_append.1 h with h | h
    · exact (hsh _ h).2 rfl
    · simp at h
  have hget : (Split ((Split (r1.Header.Get (lit "Authorization")) 32).getD 2 []) 61).get? 1 =
      some (getSignedHeaders U H ++ [44]) := by
    rw [hsplit]
    simp only [List.getD_cons_succ, List.getD_cons_zero]
    rw [Split_append_sep _ _ _ m1, Split_of_not_mem _ _ m2]
    rfl
  refine ⟨?_, hget, ?_⟩
  · have h4 := authz_fields U c method encodedResource encodedQuery H
    rw [← hA] at h4
    exact Nat.not_lt.2 (Nat.le_trans (by decide) h4)
  · have hl : lit ";" = [59] := by decide
    have hj : getSignedHeaders U H = Join (signedHeaders U H) [59] := by
      unfold getSignedHeaders; rw [hl]
    rw [declaredSignedHeaders_of_get r1 _ hget, hj]
    exact Split_Join_names _ hne (fun l hl =>
      ⟨(token_not_separator l (signedHeaders_token U hc hl)).2.1,
        (token_not_separator l (signedHeaders_token U hc hl)).2.2.1⟩)

/-! ## The round trip on clean requests -/

theorem signedHeaders_of_same_keys (U : CaseTables) {h1 h2 : Header} (hc : h2.Clean)
    (hn1 : (h1.map Prod.fst).Nodup)
    (hsub : ∀ K ∈ h1.map Prod.fst, K ∈ h2.map Prod.fst)
    (hsup : ∀ K ∈ h2.map Prod.fst, ignoredHeaders (ToLower U K) = false → K ∈ h1.map Prod.fst) :
    signedHeaders U h1 = signedHeaders U h2 := by
  have e : ∀ hh : Header, hh.map (fun e => ToLower U e.1) = (hh.map Prod.fst).map (ToLower U) := by
    intro hh; rw [List.map_map]; rfl
  have hinj : ∀ x ∈ h2.map Prod.fst, ∀ y ∈ h2.map Prod.fst, ToLower U x = ToLower U y → x = y := by
    intro x hx y hy hxy
    rw [← Canonical_ToLower_of_clean U hc hx, ← Canonical_ToLower_of_clean U hc hy, hxy]
  unfold signedHeaders
  apply sortStrings_eq_of_perm
  rw [e h1, e h2]
  rw [List.perm_ext_iff_of_nodup
    ((List.Nodup.map_on (fun x hx y hy hxy => hinj x (hsub x hx) y (hsub y hy) hxy) hn1).filter _)
    ((List.Nodup.map_on hinj hc.2).filter _)]
  intro x
  rw [List.mem_filter, List.mem_filter]
  constructor
  · rintro ⟨hx, hi⟩
    obtain ⟨K, hK, rfl⟩ := List.mem_map.1 hx
    exact ⟨List.mem_map.2 ⟨K, hsub K hK, rfl⟩, hi⟩
  · rintro ⟨hx, hi⟩
    obtain ⟨K, hK, rfl⟩ := List.mem_map.1 hx
    exact ⟨List.mem_map.2 ⟨K, hsup K hK (by simpa using hi), rfl⟩, hi⟩

theorem getCanonicalHeaders_congr (U : CaseTables) {h1 h2 : Header}
    (hs : signedHeaders U h1 = signedHeaders U h2)
    (hv : ∀ l ∈ signedHeaders U h2,
      Join (h1.index (CanonicalMIMEHeaderKey l)) (lit ",") =
        Join (h2.index (CanonicalMIMEHeaderKey l)) (lit ",")) :
    getCanonicalHeaders U h1 = getCanonicalHeaders U h2 := by
  unfold getCanonicalHeaders
  rw [hs]
  congr 2
  apply List.map_congr_left
  intro l hl
  rw [hv l hl]

theorem authz_congr (U : CaseTables) (c : CredentialsV4)
    (method encodedResource encodedQuery : Str) {h1 h2 : Header}
    (hs : signedHeaders U h1 = signedHeaders U h2)
    (hv : ∀ l ∈ signedHeaders U h2,
      Join (h1.index (CanonicalMIMEHeaderKey l)) (lit ",") =
        Join (h2.index (CanonicalMIMEHeaderKey l)) (lit ","))
    (hd : h1.Get (lit "X-Amz-Date") = h2.Get (lit "X-Amz-Date"))
    (hp : h1.Get (lit "X-Amz-Content-Sha256") = h2.Get (lit "X-Amz-Content-Sha256")) :
    c.authz U method encodedResource encodedQuery h1 =
      c.authz U method encodedResource encodedQuery h2 := by
  have hg : getSignedHeaders U h1 = getSignedHeaders U h2 := by
    unfold getSignedHeaders; rw [hs]
  have hc : getCanonicalRequest U method encodedResource encodedQuery h1 =
      getCanonicalRequest U method encodedResource encodedQuery h2 := by
    unfold getCanonicalRequest getHashedPayload
    rw [getCanonicalHeaders_congr U hs hv, hg, hp]
  rw [authz_eq, authz_eq]
  unfold CredentialsV4.signature
  rw [hc, hg, hd]

theorem Header.Get_of_canonical (h : Header) {key : Str}
    (hk : CanonicalMIMEHeaderKey key = key) : h.Get key = (h.index key).headD [] := by
  simp only [Header.Get, hk]

theorem ToLower_XAmzDate (U : CaseTables) :
    ToLower U (lit "X-Amz-Date") = lit "x-amz-date" := by rfl

theorem ToLower_XAmzContentSha256 (U : CaseTables) :
    ToLower U (lit "X-Amz-Content-Sha256") = lit "x-amz-content-sha256" := by rfl

/-- C1, amended: when the header map has canonical token names, no name twice
and one value per header at most, and neither the access key nor the region
holds a space, the request that `Sign` returns is accepted by `IsSigned`,
whatever the method, path, query, host and signing time. -/
theorem Sign_IsSigned_clean (U : CaseTables) (c : CredentialsV4) (now : Time) (r : Request)
    (hAK : 32 ∉ c.AccessKey) (hRG : 32 ∉ c.Region) (hc : r.Header.Clean) :
    c.IsSigned U (c.Sign U now r) = some true := by
  have cD : CanonicalMIMEHeaderKey (lit "X-Amz-Date") = lit "X-Amz-Date" := by decide
  have cH : CanonicalMIMEHeaderKey (lit "Host") = lit "Host" := by decide
  have cS : CanonicalMIMEHeaderKey (lit "X-Amz-Content-Sha256") = lit "X-Amz-Content-Sha256" := by
    decide
  have cA : CanonicalMIMEHeaderKey (lit "Authorization") = lit "Authorization" := by decide
  -- the header map that is signed
  obtain ⟨H3, hH3⟩ : ∃ H3 : Header, H3 = ((r.Header.Set (lit "X-Amz-Date")
      now.formatDateFormat).Set (lit "Host") r.Host).Set (lit "X-Amz-Content-Sha256")
      (lit "UNSIGNED-PAYLOAD") := ⟨_, rfl⟩
  have hc3 : H3.Clean := by
    rw [hH3]
    exact Header.Clean_Set _ _ _ (Header.Clean_Set _ _ _ (Header.Clean_Set _ _ _ hc
      (by decide) cD) (by decide) cH) (by decide) cS
  have hr1 : (c.Sign U now r).Header = H3.Set (lit "Authorization")
      (c.authz U r.Method (encodePath U r.Path) (ParseQuery r.RawQuery).Encode H3) := by
    rw [hH3]; rfl
  have hHostKey : lit "Host" ∈ H3.map Prod.fst := by
    rw [hH3, mem_keys_Set, mem_keys_Set]
    exact Or.inr (Or.inl cH.symm)
  have hDateKey : lit "X-Amz-Date" ∈ H3.map Prod.fst := by
    rw [hH3, mem_keys_Set, mem_keys_Set, mem_keys_Set]
    exact Or.inr (Or.inr (Or.inl cD.symm))
  have hShaKey : lit "X-Amz-Content-Sha256" ∈ H3.map Prod.fst := by
    rw [hH3, mem_keys_Set]
    exact Or.inl cS.symm
  have hHostIdx : H3.index (lit "Host") = [r.Host] := by
    rw [hH3, Header.index_Set_other _ _ _ (by rw [cS]; decide)]
    conv_lhs => rw [← cH]
    exact Header.index_Set_same _ _ _
  have hGetA : (c.Sign U now r).Header.Get (lit "Authorization") =
      c.authz U r.Method (encodePath U r.Path) (ParseQuery r.RawQuery).Encode H3 := by
    rw [hr1, Header.Get_Set, if_pos rfl]
  have hhost : lit "host" ∈ signedHeaders U H3 :=
    (mem_signedHeaders U H3 _).2 ⟨lit "Host", hHostKey, ToLower_Host U, by decide⟩
  have hne : signedHeaders U H3 ≠ [] := List.ne_nil_of_mem hhost
  obtain ⟨h3, hget, hD⟩ := declared_of_authz U c _ _ _ H3 (c.Sign U now r) hc3 hne hAK hRG hGetA
  have hg := getRequestSignedHeaders_some (c.Sign U now r) _ h3 hget
  rw [hD] at hg
  -- the entries of the rebuilt header set
  have hstar : ∀ K ∈ H3.map Prod.fst, ignoredHeaders (ToLower U K) = false →
      (((signedHeaders U H3).foldl (fun (h : Header) d =>
        h.Set d ((c.Sign U now r).Header.Get d)) []).Set (lit "Host")
          (c.Sign U now r).Host).index K = [(H3.index K).headD []] := by
    intro K hK hi
    have hl : ToLower U K ∈ signedHeaders U H3 := (mem_signedHeaders U H3 _).2 ⟨K, hK, rfl, hi⟩
    have hcan : CanonicalMIMEHeaderKey (ToLower U K) = K := Canonical_ToLower_of_clean U hc3 hK
    have hKA : K ≠ lit "Authorization" := by
      intro h
      rw [h, ToLower_Authorization] at hi
      revert hi; decide
    by_cases hKH : K = lit "Host"
    · subst hKH
      rw [hHostIdx]
      conv_lhs => rw [← cH]
      exact Header.index_Set_same _ _ _
    · rw [Header.index_Set_other _ _ _ (by rw [cH]; exact hKH)]
      refine foldl_Set_index_mem _ _ _ _ _ ⟨_, hl, hcan⟩ (fun x _ hx => ?_)
      rw [hr1]
      simp only [Header.Get]
      rw [hx, Header.index_Set_other _ _ _ (by rw [cA]; exact hKA)]
  have hs : signedHeaders U (((signedHeaders U H3).foldl (fun (h : Header) d =>
      h.Set d ((c.Sign U now r).Header.Get d)) []).Set (lit "Host") (c.Sign U now r).Host) =
      signedHeaders U H3 := by
    refine signedHeaders_of_same_keys U hc3
      (nodup_keys_Set _ _ _ (nodup_keys_foldl_Set _ _ [] List.nodup_nil)) ?_ ?_
    · intro K hK
      rcases (mem_keys_Set _ _ _ _).1 hK with h | h
      · rw [h, cH]; exact hHostKey
      · rcases (mem_keys_foldl_Set _ _ _ _).1 h with h | ⟨x, hx, hxK⟩
        · simp at h
        · obtain ⟨K0, hK0, rfl, _⟩ := (mem_signedHeaders U H3 x).1 hx
          rw [← hxK, Canonical_ToLower_of_clean U hc3 hK0]
          exact hK0
    · intro K hK hi
      refine (mem_keys_Set _ _ _ _).2 (Or.inr ((mem_keys_foldl_Set _ _ _ _).2 (Or.inr
        ⟨ToLower U K, (mem_signedHeaders U H3 _).2 ⟨K, hK, rfl, hi⟩,
          Canonical_ToLower_of_clean U hc3 hK⟩)))
  have hauthz := authz_congr U c r.Method (encodePath U r.Path) (ParseQuery r.RawQuery).Encode hs
    (by
      intro l hl
      obtain ⟨K, hK, rfl, hi⟩ := (mem_signedHeaders U H3 l).1 hl
      rw [Canonical_ToLower_of_clean U hc3 hK, hstar K hK hi,
        Join_of_length_le_one _ _ (hc3.index_length K)]
      rfl)
    (by
      rw [Header.Get_of_canonical _ cD, Header.Get_of_canonical _ cD,
        hstar _ hDateKey (by rw [ToLower_XAmzDate]; decide)]
      rfl)
    (by
      rw [Header.Get_of_canonical _ cS, Header.Get_of_canonical _ cS,
        hstar _ hShaKey (by rw [ToLower_XAmzContentSha256]; decide)]
      rfl)
  unfold CredentialsV4.IsSigned
  rw [hg]
  simp only [Option.some.injEq, decide_eq_true_eq]
  rw [hGetA]
  exact hauthz.symm

/-- The example request has a clean header map. -/
theorem exampleRequest_clean : exampleRequest.Header.Clean :=
  ⟨by decide, by decide⟩

/-- Witness of `Sign_IsSigned_clean`: the example credentials hold no space and
the example request has a clean header map. -/
theorem Sign_IsSigned_clean_witness :
    (32 ∉ exampleCreds.AccessKey ∧ 32 ∉ exampleCreds.Region ∧ exampleRequest.Header.Clean) ∧
    exampleCreds.IsSigned asciiTables
      (exampleCreds.Sign asciiTables exampleTime exampleRequest) = some true :=
  ⟨⟨by decide, by decide, exampleRequest_clean⟩,
    Sign_IsSigned_clean asciiTables exampleCreds exampleTime exampleRequest (by decide)
      (by decide) exampleRequest_clean⟩

/-- The signed example request is accepted. -/
theorem exampleSigned_accepted : exampleCreds.IsSigned asciiTables exampleSigned = some true := by
  decide!

/-- The value of Accept in the signed example request is not text/html. -/
theorem exampleSigned_accept_value :
    lit "text/html" ≠ exampleSigned.Header.Get (lit "accept") := by
  decide!

/-- C1, counterexample: with the access key "A K" the Authorization value that
`Sign` writes is split at the space inside the key, the third field is
"K/20160101/us-east-1/s3/aws4_request," without "=", and `IsSigned` ends in the
out-of-range panic instead of returning true. -/
theorem Sign_IsSigned_space_in_access_key :
    (Split ((spacedCreds.Sign asciiTables exampleTime exampleRequest).Header.Get
      (lit "Authorization")) 32).getD 2 [] = lit "K/20160101/us-east-1/s3/aws4_request," ∧
    spacedCreds.IsSigned asciiTables (spacedCreds.Sign asciiTables exampleTime exampleRequest) =
      none := by
  decide!

/-- A header name that is not a token breaks the round trip as well: the name
"X Y" is cut at its space when the Authorization value is read back, and the
signed request is rejected. -/
theorem Sign_IsSigned_space_in_header_name :
    exampleCreds.IsSigned asciiTables
      (exampleCreds.Sign asciiTables exampleTime
        (exampleRequest.withHeader [(lit "X Y", [lit "v"])])) = some false := by
  decide!

/-- Witness of `tampered_header_detected`: the signed example request is
accepted, and its declared header `accept` gets the new value text/html. -/
theorem tampered_header_detected_witness :
    (exampleCreds.IsSigned asciiTables exampleSigned = some true ∧
      lit "accept" ∈ declaredSignedHeaders exampleSigned ∧
      (lit "accept").all validHeaderFieldByte = true ∧
      ignoredHeaders (ToLower asciiTables (lit "accept")) = false ∧
      CanonicalMIMEHeaderKey (lit "accept") ≠ lit "Host" ∧
      lit "text/html" ≠ exampleSigned.Header.Get (lit "accept")) ∧
    (verifierCanonicalRequest asciiTables
        (exampleSigned.withHeader (exampleSigned.Header.Set (lit "accept") (lit "text/html"))) ≠
      verifierCanonicalRequest asciiTables exampleSigned ∧
    (exampleCreds.IsSigned asciiTables
        (exampleSigned.withHeader (exampleSigned.Header.Set (lit "accept") (lit "text/html"))) =
        some false ∨
      sum256 (verifierCanonicalRequest asciiTables
          (exampleSigned.withHeader (exampleSigned.Header.Set (lit "accept") (lit "text/html")))) =
        sum256 (verifierCanonicalRequest asciiTables exampleSigned) ∨
      (verifierStringToSign asciiTables exampleCreds
          (exampleSigned.withHeader (exampleSigned.Header.Set (lit "accept") (lit "text/html"))) ≠
        verifierStringToSign asciiTables exampleCreds exampleSigned ∧
        sumHMAC (verifierSigningKey exampleCreds
            (exampleSigned.withHeader (exampleSigned.Header.Set (lit "accept") (lit "text/html"))))
            (verifierStringToSign asciiTables exampleCreds
              (exampleSigned.withHeader
                (exampleSigned.Header.Set (lit "accept") (lit "text/html")))) =
          sumHMAC (verifierSigningKey exampleCreds exampleSigned)
            (verifierStringToSign asciiTables exampleCreds exampleSigned)))) :=
  ⟨⟨exampleSigned_accepted, by rw [exampleSigned_declared]; decide, by decide, by decide,
      by decide, exampleSigned_accept_value⟩,
    tampered_header_detected asciiTables exampleCreds exampleSigned (lit "accept")
      (lit "text/html") exampleSigned_accepted (by rw [exampleSigned_declared]; decide)
      (by decide) (by decide) (by decide) exampleSigned_accept_value⟩

/-- C2, counterexample: `host` is in the SignedHeaders list of the signed example
request, yet after the value of Host in its header map is replaced by
evil.example.com the request is still accepted: the verifier takes the host
from `r.Host`, not from the header map. -/
theorem Host_header_replaced_still_signed :
    lit "host" ∈ declaredSignedHeaders exampleSigned ∧
    exampleSigned.Header.Get (lit "host") = lit "s3.example.com" ∧
    (exampleSigned.withHeader
      (exampleSigned.Header.Set (lit "host") (lit "evil.example.com"))).Header.Get (lit "host") =
      lit "evil.example.com" ∧
    exampleCreds.IsSigned asciiTables
      (exampleSigned.withHeader
        (exampleSigned.Header.Set (lit "host") (lit "evil.example.com"))) = some true := by
  decide!

/-! ## UTF-8: decoding and encoding back -/

theorem inRange_iff (lo hi b : Nat) : inRange lo hi b = true ↔ lo ≤ b ∧ b ≤ hi := by
  simp [inRange]

theorem encode_two (b0 b1 : Nat) (h0 : 0xC2 ≤ b0) (h0' : b0 < 0xE0) (h1 : 0x80 ≤ b1)
    (h1' : b1 ≤ 0xBF) :
    128 ≤ b0 % 32 * 64 + b1 % 64 ∧ RuneLen (b0 % 32 * 64 + b1 % 64) = some 2 ∧
      EncodeRune (b0 % 32 * 64 + b1 % 64) = [b0, b1] := by
  refine ⟨by omega, ?_, ?_⟩
  · rw [RuneLen, if_neg (by omega), if_pos (by omega)]
  · rw [EncodeRune, if_neg (by omega), if_pos (by omega)]
    congr 1
    · omega
    · congr 1; omega

theorem encode_three (b0 b1 b2 : Nat) (h0 : 0xE0 ≤ b0) (h0' : b0 < 0xF0)
    (h1 : (if b0 = 0xE0 then 0xA0 else 0x80) ≤ b1)
    (h1' : b1 ≤ (if b0 = 0xED then 0x9F else 0xBF)) (h2 : 0x80 ≤ b2) (h2' : b2 ≤ 0xBF) :
    128 ≤ b0 % 16 * 4096 + b1 % 64 * 64 + b2 % 64 ∧
      RuneLen (b0 % 16 * 4096 + b1 % 64 * 64 + b2 % 64) = some 3 ∧
      EncodeRune (b0 % 16 * 4096 + b1 % 64 * 64 + b2 % 64) = [b0, b1, b2] := by
  have hlo : 0x800 ≤ b0 % 16 * 4096 + b1 % 64 * 64 + b2 % 64 := by
    split at h1 <;> split at h1' <;> omega
  have hsur : ¬ (0xD800 ≤ b0 % 16 * 4096 + b1 % 64 * 64 + b2 % 64 ∧
      b0 % 16 * 4096 + b1 % 64 * 64 + b2 % 64 ≤ 0xDFFF) := by
    split at h1 <;> split at h1' <;> omega
  have hhi : b0 % 16 * 4096 + b1 % 64 * 64 + b2 % 64 ≤ 0xFFFF := by omega
  have h1a : 0x80 ≤ b1 := by split at h1 <;> omega
  have h1b : b1 ≤ 0xBF := by split at h1' <;> omega
  refine ⟨by omega, ?_, ?_⟩
  · rw [RuneLen, if_neg (by omega), if_neg (by omega), if_neg hsur, if_pos hhi]
  · rw [EncodeRune, if_neg (by omega), if_neg (by omega),
      if_neg (by rintro (h | h); exact hsur h; omega), if_pos hhi]
    congr 1
    · omega
    · congr 1
      · omega
      · congr 1; omega

theorem encode_four (b0 b1 b2 b3 : Nat) (h0 : 0xF0 ≤ b0) (h0' : b0 < 0xF5)
    (h1 : (if b0 = 0xF0 then 0x90 else 0x80) ≤ b1)
    (h1' : b1 ≤ (if b0 = 0xF4 then 0x8F else 0xBF)) (h2 : 0x80 ≤ b2) (h2' : b2 ≤ 0xBF)
    (h3 : 0x80 ≤ b3) (h3' : b3 ≤ 0xBF) :
    128 ≤ b0 % 8 * 262144 + b1 % 64 * 4096 + b2 % 64 * 64 + b3 % 64 ∧
      RuneLen (b0 % 8 * 262144 + b1 % 64 * 4096 + b2 % 64 * 64 + b3 % 64) = some 4 ∧
      EncodeRune (b0 % 8 * 262144 + b1 % 64 * 4096 + b2 % 64 * 64 + b3 % 64) =
        [b0, b1, b2, b3] := by
  have hlo : 0x10000 ≤ b0 % 8 * 262144 + b1 % 64 * 4096 + b2 % 64 * 64 + b3 % 64 := by
    split at h1 <;> split at h1' <;> omega
  have hhi : b0 % 8 * 262144 + b1 % 64 * 4096 + b2 % 64 * 64 + b3 % 64 ≤ 0x10FFFF := by
    split at h1 <;> split at h1' <;> omega
  have h1a : 0x80 ≤ b1 := by split at h1 <;> omega
  have h1b : b1 ≤ 0xBF := by split at h1' <;> omega
  refine ⟨by omega, ?_, ?_⟩
  · rw [RuneLen, if_neg (by omega), if_neg (by omega), if_neg (by omega), if_neg (by omega),
      if_pos hhi]
  · rw [EncodeRune, if_neg (by omega), if_neg (by omega),
      if_neg (by rintro (h | h) <;> omega), if_neg (by omega)]
    congr 1
    · omega
    · congr 1
      · omega
      · congr 1
        · omega
        · congr 1; omega

/-- What `utf8.DecodeRuneInString` returns on a non-empty string: the error
rune with width one, an ASCII byte, or a rune of two to four bytes that
encodes back to the bytes it was read from. -/
theorem decodeRune_cases (b : Nat) (bs : Str) :
    decodeRune (b :: bs) = (RuneError, 1) ∨
    ((decodeRune (b :: bs)).2 = 1 ∧ (decodeRune (b :: bs)).1 = b ∧ b < 128) ∨
    (2 ≤ (decodeRune (b :: bs)).2 ∧ 128 ≤ (decodeRune (b :: bs)).1 ∧
      RuneLen (decodeRune (b :: bs)).1 = some (decodeRune (b :: bs)).2 ∧
      EncodeRune (decodeRune (b :: bs)).1 = (b :: bs).take (decodeRune (b :: bs)).2 ∧
      ∀ x ∈ (b :: bs).take (decodeRune (b :: bs)).2, 128 ≤ x) := by
  unfold decodeRune
  by_cases c1 : b < 0x80
  · right; left
    simp only [c1, if_true]
    exact ⟨trivial, trivial, trivial⟩
  · simp only [c1, if_false]
    by_cases c2 : b < 0xC2
    · left; simp only [c2, if_true]
    · simp only [c2, if_false]
      by_cases c3 : b < 0xE0
      · simp only [c3, if_true]
        cases bs with
        | nil => left; rfl
        | cons b1 r1 =>
          simp only []
          by_cases hr : inRange 0x80 0xBF b1 = true
          · right; right
            simp only [hr, if_true]
            obtain ⟨h1, h1'⟩ := (inRange_iff _ _ _).1 hr
            obtain ⟨e1, e2, e3⟩ := encode_two b b1 (by omega) c3 h1 h1'
            refine ⟨by decide, e1, e2, ?_, ?_⟩
            · rw [e3]; rfl
            · intro x hx
              simp only [List.take_succ_cons, List.take_zero, List.mem_cons, List.mem_nil_iff,
                or_false] at hx
              rcases hx with rfl | rfl <;> omega
          · left; simp only [hr, Bool.false_eq_true, if_false]
      · simp only [c3, if_false]
        by_cases c4 : b < 0xF0
        · simp only [c4, if_true]
          rcases bs with _ | ⟨b1, _ | ⟨b2, r2⟩⟩
          · left; rfl
          · left; rfl
          · simp only []
            by_cases hr : (inRange (if b = 0xE0 then 0xA0 else 0x80)
                (if b = 0xED then 0x9F else 0xBF) b1 && inRange 0x80 0xBF b2) = true
            · right; right
              simp only [hr, if_true]
              rw [Bool.and_eq_true, inRange_iff, inRange_iff] at hr
              obtain ⟨⟨h1, h1'⟩, h2, h2'⟩ := hr
              obtain ⟨e1, e2, e3⟩ := encode_three b b1 b2 (by omega) c4 h1 h1' h2 h2'
              refine ⟨by decide, e1, e2, ?_, ?_⟩
              · rw [e3]; rfl
              · intro x hx
                have h1a : 0x80 ≤ b1 := by split at h1 <;> omega
                simp only [List.take_succ_cons, List.take_zero, List.mem_cons, List.mem_nil_iff,
                  or_false] at hx
                rcases hx with rfl | rfl | rfl <;> omega
            · left; simp only [hr, Bool.false_eq_true, if_false]
        · simp only [c4, if_false]
          by_cases c5 : b < 0xF5
          · simp only [c5, if_true]
            rcases bs with _ | ⟨b1, _ | ⟨b2, _ | ⟨b3, r3⟩⟩⟩
            · left; rfl
            · left; rfl
            · left; rfl
            · simp only []
              by_cases hr : (inRange (if b = 0xF0 then 0x90 else 0x80)
                  (if b = 0xF4 then 0x8F else 0xBF) b1 && inRange 0x80 0xBF b2 &&
                  inRange 0x80 0xBF b3) = true
              · right; right
                simp only [hr, if_true]
                rw [Bool.and_eq_true, Bool.and_eq_true, inRange_iff, inRange_iff,
                  inRange_iff] at hr
                obtain ⟨⟨⟨h1, h1'⟩, h2, h2'⟩, h3, h3'⟩ := hr
                obtain ⟨e1, e2, e3⟩ := encode_four b b1 b2 b3 (by omega) c5 h1 h1' h2 h2' h3 h3'
                refine ⟨by decide, e1, e2, ?_, ?_⟩
                · rw [e3]; rfl
                · intro x hx
                  have h1a : 0x80 ≤ b1 := by split at h1 <;> omega
                  simp only [List.take_succ_cons, List.take_zero, List.mem_cons,
                    List.mem_nil_iff, or_false] at hx
                  rcases hx with rfl | rfl | rfl | rfl <;> omega
              · left; simp only [hr, Bool.false_eq_true, if_false]
          · left; simp only [c5, if_false]

/-! ## Path encoding -/

theorem hexDigit_upper : ∀ n < 16, hexDigit n < 128 ∧ upperByte (hexDigit n) = upperHexDigit n := by
  decide

theorem escape_byte (U : CaseTables) (x : Nat) :
    37 :: ToUpper U (hexEncode [x]) = percentEncodeByte x := by
  have h1 := hexDigit_upper (x / 16 % 16) (Nat.mod_lt _ (by norm_num))
  have h2 := hexDigit_upper (x % 16) (Nat.mod_lt _ (by norm_num))
  have hall : (hexEncode [x]).all (fun c => decide (c < 0x80)) = true := by
    simp [hexEncode, h1.1, h2.1]
  rw [ToUpper, if_pos hall]
  simp only [percentEncodeByte, hexEncode, List.map_cons, List.map_nil, h1.2, h2.2]

theorem not_unreserved_of_ge (x : Nat) (h : 128 ≤ x) :
    (isUpper x || isLower x || isDigit x) = false ∧
      ¬ (x = 45 ∨ x = 95 ∨ x = 46 ∨ x = 126 ∨ x = 47) ∧ isUnreservedPathByte x = false := by
  have h1 : isUpper x = false := by simp [isUpper]; omega
  have h2 : isLower x = false := by simp [isLower]; omega
  have h3 : isDigit x = false := by simp [isDigit]; omega
  refine ⟨by simp [h1, h2, h3], by omega, ?_⟩
  simp only [isUnreservedPathByte, h1, h2, h3, Bool.or_false, Bool.false_or, Bool.or_eq_false_iff,
    beq_eq_false_iff_ne]
  omega

theorem percentEncodePath_of_ge (l : Str) (h : ∀ x ∈ l, 128 ≤ x) :
    percentEncodePath l = l.flatMap percentEncodeByte := by
  induction l with
  | nil => rfl
  | cons a t ih =>
    have ha := (not_unreserved_of_ge a (h a (List.mem_cons_self _ _))).2.2
    have iht := ih (fun x hx => h x (List.mem_cons_of_mem _ hx))
    simp only [percentEncodePath, List.flatMap_cons, ha, Bool.false_eq_true, if_false] at iht ⊢
    rw [iht]

theorem percentEncodePath_append (a b : Str) :
    percentEncodePath (a ++ b) = percentEncodePath a ++ percentEncodePath b := by
  simp [percentEncodePath, List.flatMap_append]

theorem escape_flatMap (U : CaseTables) (l : Str) :
    l.flatMap (fun r => 37 :: ToUpper U (hexEncode [r])) = l.flatMap percentEncodeByte := by
  congr 1
  funext r
  exact escape_byte U r

theorem unreserved_iff (b : Nat) :
    isUnreservedPathByte b = true ↔
      (isUpper b || isLower b || isDigit b) = true ∨
        (b = 45 ∨ b = 95 ∨ b = 46 ∨ b = 126 ∨ b = 47) := by
  simp only [isUnreservedPathByte, Bool.or_eq_true, beq_iff_eq]
  tauto

/-- On valid UTF-8 the loop of `encodePath` never takes the early return and
appends the byte-wise encoding. -/
theorem encodePathLoop_valid (U : CaseTables) : ∀ (n : Nat) (s acc : Str),
    validStringAux n s = true →
      encodePathLoop U (runesAux n s) acc = some (acc ++ percentEncodePath s) := by
  intro n
  induction n with
  | zero =>
    intro s acc h
    cases s with
    | nil => simp [runesAux, encodePathLoop, percentEncodePath]
    | cons b bs => simp [validStringAux] at h
  | succ n ih =>
    intro s acc h
    cases s with
    | nil => simp [runesAux, encodePathLoop, percentEncodePath]
    | cons b bs =>
      simp only [validStringAux, Bool.and_eq_true, Bool.not_eq_true'] at h
      obtain ⟨hv, hrest⟩ := h
      have hstep : runesAux (n + 1) (b :: bs) =
          (decodeRune (b :: bs)).1 :: runesAux n (bs.drop ((decodeRune (b :: bs)).2 - 1)) := rfl
      rw [hstep]
      rcases decodeRune_cases b bs with hd | ⟨hw, hr, hb⟩ | ⟨hw, hr, hlen, henc, hge⟩
      · rw [hd] at hv
        simp at hv
      · rw [hw] at hrest ⊢
        rw [hr]
        simp only [Nat.sub_self, List.drop_zero] at hrest ⊢
        have henc : EncodeRune b = [b] := by rw [EncodeRune, if_pos (by omega)]
        have hsplit : percentEncodePath (b :: bs) =
            percentEncodePath [b] ++ percentEncodePath bs := percentEncodePath_append [b] bs
        by_cases ha : (isUpper b || isLower b || isDigit b) = true
        · have hu : isUnreservedPathByte b = true := (unreserved_iff b).2 (Or.inl ha)
          rw [encodePathLoop, if_pos ha, henc, ih _ _ hrest, hsplit]
          simp [percentEncodePath, hu]
        · by_cases hf : b = 45 ∨ b = 95 ∨ b = 46 ∨ b = 126 ∨ b = 47
          · have hu : isUnreservedPathByte b = true := (unreserved_iff b).2 (Or.inr hf)
            rw [encodePathLoop, if_neg ha, if_pos hf, henc, ih _ _ hrest, hsplit]
            simp [percentEncodePath, hu]
          · have hu : isUnreservedPathByte b = false := by
              rw [← Bool.not_eq_true, unreserved_iff]; tauto
            have hl : RuneLen b = some 1 := by rw [RuneLen, if_pos (by omega)]
            rw [encodePathLoop, if_neg ha, if_neg hf, hl]
            simp only []
            rw [henc, ih _ _ hrest, hsplit]
            simp [percentEncodePath, hu, escape_byte]
      · obtain ⟨h1, h2, _⟩ := not_unreserved_of_ge _ hr
        rw [encodePathLoop, if_neg (by rw [h1]; simp), if_neg h2, hlen]
        simp only []
        have hdrop : bs.drop ((decodeRune (b :: bs)).2 - 1) =
            (b :: bs).drop (decodeRune (b :: bs)).2 := by
          obtain ⟨w, hw2⟩ : ∃ w, (decodeRune (b :: bs)).2 = w + 1 :=
            ⟨(decodeRune (b :: bs)).2 - 1, by omega⟩
          rw [hw2]; rfl
        rw [hdrop] at hrest ⊢
        rw [ih _ _ hrest, henc, escape_flatMap, ← percentEncodePath_of_ge _ hge,
          List.append_assoc, ← percentEncodePath_append, List.take_append_drop]

theorem percentEncodePath_bytes (p : Str) :
    ∀ c ∈ percentEncodePath p, isUnreservedPathByte c = true ∨ c = 37 := by
  have hhex : ∀ n < 16, isUnreservedPathByte (upperHexDigit n) = true := by decide
  intro c hc
  simp only [percentEncodePath, List.mem_flatMap] at hc
  obtain ⟨b, _, hcb⟩ := hc
  split at hcb
  · rename_i hu
    simp only [List.mem_singleton] at hcb
    rw [hcb]; exact Or.inl hu
  · simp only [percentEncodeByte, List.mem_cons, List.mem_nil_iff, or_false] at hcb
    rcases hcb with rfl | rfl | rfl
    · exact Or.inr rfl
    · exact Or.inl (hhex _ (Nat.mod_lt _ (by norm_num)))
    · exact Or.inl (hhex _ (Nat.mod_lt _ (by norm_num)))

/-- C11: for a valid UTF-8 string, `encodePath` is the concatenation over the
bytes of the string of the byte itself when it is one of A-Z a-z 0-9 - _ . ~ /
and of "%" with its two upper-case hexadecimal digits otherwise; every byte of
the result is unreserved or "%". -/
theorem encodePath_valid (U : CaseTables) (p : Str) (h : ValidString p = true) :
    encodePath U p = percentEncodePath p ∧
      ∀ c ∈ encodePath U p, isUnreservedPathByte c = true ∨ c = 37 := by
  have he : encodePath U p = percentEncodePath p := by
    unfold encodePath runes
    rw [encodePathLoop_valid U _ _ [] h]
    rfl
  exact ⟨he, by rw [he]; exact percentEncodePath_bytes p⟩

/-- Witness of `encodePath_valid`: the path "/a b" followed by U+00E9. -/
theorem encodePath_valid_witness :
    ValidString examplePath = true ∧
    (encodePath asciiTables examplePath = percentEncodePath examplePath ∧
      ∀ c ∈ encodePath asciiTables examplePath, isUnreservedPathByte c = true ∨ c = 37) :=
  ⟨by decide, encodePath_valid asciiTables examplePath (by decide)⟩

/-! ## Strings that are not valid UTF-8 -/

/-- Every rune a `range` loop yields can be encoded: `utf8.RuneLen` is not -1. -/
theorem RuneLen_runesAux : ∀ (n : Nat) (s : Str), ∀ r ∈ runesAux n s, RuneLen r ≠ none := by
  intro n
  induction n with
  | zero => intro s r hr; cases s <;> simp [runesAux] at hr
  | succ n ih =>
    intro s r hr
    cases s with
    | nil => simp [runesAux] at hr
    | cons b bs =>
      have hstep : runesAux (n + 1) (b :: bs) =
          (decodeRune (b :: bs)).1 :: runesAux n (bs.drop ((decodeRune (b :: bs)).2 - 1)) := rfl
      rw [hstep, List.mem_cons] at hr
      rcases hr with rfl | hr
      · rcases decodeRune_cases b bs with hd | ⟨_, hr1, hb⟩ | ⟨_, _, hlen, _, _⟩
        · rw [hd]; decide
        · rw [hr1, RuneLen, if_pos (by omega)]; simp
        · rw [hlen]; simp
      · exact ih _ r hr

theorem encodePathLoop_isSome (U : CaseTables) : ∀ (rs : List Nat) (acc : Str),
    (∀ r ∈ rs, RuneLen r ≠ none) → ∃ out, encodePathLoop U rs acc = some out := by
  intro rs
  induction rs with
  | nil => intro acc _; exact ⟨acc, rfl⟩
  | cons r t ih =>
    intro acc h
    have ht : ∀ x ∈ t, RuneLen x ≠ none := fun x hx => h x (List.mem_cons_of_mem _ hx)
    rw [encodePathLoop]
    split
    · exact ih _ ht
    · split
      · exact ih _ ht
      · cases hl : RuneLen r with
        | none => exact absurd hl (h r (List.mem_cons_self _ _))
        | some w => exact ih _ ht

theorem urlEncodeNameLoop_isSome (U : CaseTables) : ∀ (rs : List Nat) (acc : Str),
    (∀ r ∈ rs, RuneLen r ≠ none) → ∃ out, Aminer.urlEncodeNameLoop U rs acc = some out := by
  intro rs
  induction rs with
  | nil => intro acc _; exact ⟨acc, rfl⟩
  | cons r t ih =>
    intro acc h
    have ht : ∀ x ∈ t, RuneLen x ≠ none := fun x hx => h x (List.mem_cons_of_mem _ hx)
    rw [Aminer.urlEncodeNameLoop]
    split
    · exact ih _ ht
    · split
      · exact ih _ ht
      · cases hl : RuneLen r with
        | none => exact absurd hl (h r (List.mem_cons_self _ _))
        | some w => exact ih _ ht

/-- The early return of `encodePath` is never taken: the result is always what
the loop has built. -/
theorem encodePath_loop_completes (U : CaseTables) (p : Str) :
    ∃ out, encodePathLoop U (runes p) [] = some out ∧ encodePath U p = out := by
  obtain ⟨out, h⟩ := encodePathLoop_isSome U (runes p) [] (RuneLen_runesAux _ p)
  exact ⟨out, h, by rw [encodePath, h]; rfl⟩

/-- The error return of `urlEncodeName` is never taken. -/
theorem urlEncodeName_ok (U : CaseTables) (name : Str) :
    ∃ out, Aminer.urlEncodeName U name = Except.ok out := by
  obtain ⟨out, h⟩ := urlEncodeNameLoop_isSome U (runes name) [] (RuneLen_runesAux _ name)
  exact ⟨out, by rw [Aminer.urlEncodeName, h]⟩

/-- C12, the code at the failing input: the one-byte string 0xFF is not valid
UTF-8; the `range` loop reads it as U+FFFD, whose `RuneLen` is 3, so
`encodePath` does not return the string unchanged but "%EF%BF%BD", and
`urlEncodeName` returns "%EF%BF%BD" without an error. -/
theorem invalid_utf8_not_detected :
    ValidString invalidName = false ∧
    runes invalidName = [RuneError] ∧ RuneLen RuneError = some 3 ∧
    encodePath asciiTables invalidName = lit "%EF%BF%BD" ∧
    encodePath asciiTables invalidName ≠ invalidName ∧
    Aminer.urlEncodeName asciiTables invalidName = Except.ok (lit "%EF%BF%BD") := by
  refine ⟨by decide, by decide, by decide, by decide, by decide, ?_⟩
  rfl


/-! ## The canonical query string -/

theorem parseQueryPiece_eq (m : Values) (piece : Str) :
    parseQueryPiece m piece =
      match parsePiece piece with
      | some kv => m.add kv.1 kv.2
      | none => m := by
  unfold parseQueryPiece parsePiece
  by_cases h1 : piece.contains 59 = true
  · simp only [h1, if_true]
  · by_cases h2 : piece = []
    · subst h2; rfl
    · simp only [h1, h2, if_false]
      cases QueryUnescape (Cut piece 61).1 <;> cases QueryUnescape (Cut piece 61).2 <;> rfl

theorem foldl_parseQueryPiece (l : List Str) (m : Values) :
    l.foldl parseQueryPiece m = m.addAll (l.filterMap parsePiece) := by
  induction l generalizing m with
  | nil => rfl
  | cons p l ih =>
    rw [List.foldl_cons, ih, parseQueryPiece_eq, List.filterMap_cons]
    cases parsePiece p <;> rfl

/-- The map `url.ParseQuery` builds is the parameters added one by one. -/
theorem ParseQuery_eq (q : Str) : ParseQuery q = Values.addAll [] (parsedParams q) :=
  foldl_parseQueryPiece _ _

theorem Values.addAll_cons (m : Values) (kv : Str × Str) (ps : List (Str × Str)) :
    m.addAll (kv :: ps) = (m.add kv.1 kv.2).addAll ps := rfl

theorem Values.lookup_add (m : Values) (k' v k : Str) :
    ((List.lookup k (m.add k' v)).getD []) =
      (List.lookup k m).getD [] ++ (if k' = k then [v] else []) := by
  induction m with
  | nil =>
    by_cases h : k' = k
    · subst h; simp [Values.add, List.lookup]
    · have h2 : (k == k') = false := by simpa using fun e => h e.symm
      simp [Values.add, List.lookup, h, h2]
  | cons e m ih =>
    obtain ⟨k1, vs⟩ := e
    by_cases h1 : k1 = k'
    · subst h1
      by_cases h : k1 = k
      · subst h; simp [Values.add, List.lookup]
      · have h2 : (k == k1) = false := by simpa using fun e => h e.symm
        simp [Values.add, List.lookup, h, h2]
    · by_cases h : k = k1
      · subst h
        have h3 : ¬ k' = k := fun e => h1 e.symm
        simp [Values.add, List.lookup, h1, h3]
      · have h2 : (k == k1) = false := by simpa using h
        simp only [Values.add, h1, if_false, List.lookup, h2]
        exact ih

theorem Values.keys_add (m : Values) (k v : Str) :
    (m.add k v).map Prod.fst =
      if k ∈ m.map Prod.fst then m.map Prod.fst else m.map Prod.fst ++ [k] := by
  induction m with
  | nil => simp [Values.add]
  | cons e m ih =>
    obtain ⟨k1, vs⟩ := e
    by_cases h1 : k1 = k
    · subst h1; simp [Values.add]
    · have h3 : ¬ k = k1 := fun e => h1 e.symm
      simp only [Values.add, h1, if_false, List.map_cons, ih, List.mem_cons, h3, false_or]
      split_ifs <;> simp

theorem Values.keys_add_nodup (m : Values) (k v : Str) (h : (m.map Prod.fst).Nodup) :
    ((m.add k v).map Prod.fst).Nodup := by
  rw [Values.keys_add]
  split_ifs with hk
  · exact h
  · exact List.nodup_append.2 ⟨h, List.nodup_singleton _, by
      intro a ha hb
      rw [List.mem_singleton] at hb
      exact hk (hb ▸ ha)⟩

theorem Values.mem_keys_add (m : Values) (k v x : Str) :
    x ∈ (m.add k v).map Prod.fst ↔ x ∈ m.map Prod.fst ∨ x = k := by
  rw [Values.keys_add]
  split_ifs with hk
  · constructor
    · exact Or.inl
    · rintro (h | h)
      · exact h
      · exact h ▸ hk
  · simp

theorem Values.keys_addAll_nodup (ps : List (Str × Str)) (m : Values)
    (h : (m.map Prod.fst).Nodup) : ((m.addAll ps).map Prod.fst).Nodup := by
  induction ps generalizing m with
  | nil => exact h
  | cons kv ps ih =>
    rw [Values.addAll_cons]
    exact ih _ (Values.keys_add_nodup m _ _ h)

theorem Values.mem_keys_addAll (ps : List (Str × Str)) (m : Values) (x : Str) :
    x ∈ (m.addAll ps).map Prod.fst ↔ x ∈ m.map Prod.fst ∨ x ∈ ps.map Prod.fst := by
  induction ps generalizing m with
  | nil => simp [Values.addAll]
  | cons kv ps ih =>
    rw [Values.addAll_cons, ih, Values.mem_keys_add, List.map_cons, List.mem_cons]
    tauto

theorem valuesOf_cons (kv : Str × Str) (ps : List (Str × Str)) (k : Str) :
    valuesOf (kv :: ps) k = (if kv.1 = k then [kv.2] else []) ++ valuesOf ps k := by
  unfold valuesOf
  by_cases h : kv.1 = k <;> simp [List.filter_cons, h]

theorem valuesOf_append (a b : List (Str × Str)) (k : Str) :
    valuesOf (a ++ b) k = valuesOf a k ++ valuesOf b k := by
  simp [valuesOf]

theorem Values.lookup_addAll (ps : List (Str × Str)) (m : Values) (k : Str) :
    (List.lookup k (m.addAll ps)).getD [] = (List.lookup k m).getD [] ++ valuesOf ps k := by
  induction ps generalizing m with
  | nil => simp [Values.addAll, valuesOf]
  | cons kv ps ih =>
    rw [Values.addAll_cons, ih, Values.lookup_add, valuesOf_cons, List.append_assoc]

theorem mem_keys_iff_valuesOf (ps : List (Str × Str)) (k : Str) :
    k ∈ ps.map Prod.fst ↔ valuesOf ps k ≠ [] := by
  induction ps with
  | nil => simp [valuesOf]
  | cons kv ps ih =>
    rw [valuesOf_cons, List.map_cons, List.mem_cons, ih]
    by_cases h : kv.1 = k
    · simp [h]
    · have h2 : ¬ k = kv.1 := fun e => h e.symm
      simp [h, h2]

theorem Values.pairs_add_perm (m : Values) (k v : Str) :
    (m.add k v).pairs.Perm (m.pairs ++ [(k, v)]) := by
  induction m with
  | nil => simp [Values.add, Values.pairs]
  | cons e m ih =>
    obtain ⟨k1, vs⟩ := e
    by_cases h1 : k1 = k
    · subst h1
      simp only [Values.add, if_true, Values.pairs, List.flatMap_cons, List.map_append,
        List.map_cons, List.map_nil, List.append_assoc]
      exact List.Perm.append_left _ List.perm_append_comm
    · simp only [Values.add, h1, if_false, Values.pairs, List.flatMap_cons, List.append_assoc]
      exact List.Perm.append_left _ ih

theorem Values.pairs_addAll_perm (ps : List (Str × Str)) (m : Values) :
    (m.addAll ps).pairs.Perm (m.pairs ++ ps) := by
  induction ps generalizing m with
  | nil => simp [Values.addAll]
  | cons kv ps ih =>
    rw [Values.addAll_cons]
    refine (ih _).trans ?_
    refine ((Values.pairs_add_perm m kv.1 kv.2).append_right ps).trans ?_
    simp

theorem Values.lookup_of_mem (m : Values) (h : (m.map Prod.fst).Nodup) (e : Str × List Str)
    (he : e ∈ m) : List.lookup e.1 m = some e.2 := by
  induction m with
  | nil => cases he
  | cons e1 m ih =>
    obtain ⟨k1, vs⟩ := e1
    rw [List.map_cons, List.nodup_cons] at h
    rcases List.mem_cons.1 he with rfl | hm
    · simp [List.lookup]
    · have hne : (e.1 == k1) = false := by
        have : e.1 ≠ k1 := fun heq => h.1 (List.mem_map.2 ⟨e, hm, heq⟩)
        simpa using this
      simp only [List.lookup, hne]
      exact ih h.2 hm

theorem Values.lookup_of_not_mem (m : Values) (k : Str) (h : k ∉ m.map Prod.fst) :
    List.lookup k m = none := by
  induction m with
  | nil => rfl
  | cons e1 m ih =>
    obtain ⟨k1, vs⟩ := e1
    rw [List.map_cons, List.mem_cons, not_or] at h
    have hne : (k == k1) = false := by simpa using h.1
    simp only [List.lookup, hne]
    exact ih h.2

/-- With distinct keys, the sorted pairs of a map are its pairs in another order. -/
theorem Values.sortedPairs_perm (m : Values) (h : (m.map Prod.fst).Nodup) :
    m.sortedPairs.Perm m.pairs := by
  unfold Values.sortedPairs Values.pairs
  refine (List.Perm.flatMap_right _ (sortStrings_perm _)).trans ?_
  rw [List.flatMap_map]
  apply List.Perm.of_eq
  apply List.flatMap_congr
  intro e he
  rw [Values.lookup_of_mem m h e he]
  rfl

theorem valuesOf_block (k' k : Str) (vs : List Str) :
    valuesOf (vs.map (fun val => (k', val))) k = if k' = k then vs else [] := by
  unfold valuesOf
  by_cases h : k' = k
  · simp [h, List.filter_map, Function.comp_def]
  · simp [h, List.filter_map, Function.comp_def]

theorem valuesOf_flatMap (L : List Str) (f : Str → List Str) (k : Str) (hL : L.Nodup) :
    valuesOf (L.flatMap (fun k' => (f k').map (fun val => (k', val)))) k =
      if k ∈ L then f k else [] := by
  induction L with
  | nil => simp [valuesOf]
  | cons a L ih =>
    rw [List.nodup_cons] at hL
    rw [List.flatMap_cons, valuesOf_append, valuesOf_block, ih hL.2]
    by_cases h : a = k
    · subst h; simp [hL.1]
    · have h2 : ¬ k = a := fun e => h e.symm
      simp [h, h2]

/-- The sorted pairs of a map give for each key the values the map holds for it. -/
theorem Values.valuesOf_sortedPairs (m : Values) (h : (m.map Prod.fst).Nodup) (k : Str) :
    valuesOf m.sortedPairs k = (List.lookup k m).getD [] := by
  unfold Values.sortedPairs
  rw [valuesOf_flatMap _ _ _ ((sortStrings_perm _).nodup_iff.2 h)]
  by_cases hk : k ∈ m.map Prod.fst
  · rw [if_pos (mem_sortStrings.2 hk)]
  · rw [if_neg (fun hh => hk (mem_sortStrings.1 hh)), Values.lookup_of_not_mem m k hk]
    rfl

theorem Values.keys_sortedPairs_sorted (m : Values) :
    (m.sortedPairs.map Prod.fst).Sorted (fun a b => strLe a b = true) := by
  unfold Values.sortedPairs List.Sorted
  rw [List.map_flatMap, List.pairwise_flatMap]
  constructor
  · intro a _
    apply List.Pairwise.imp_mem.2
    apply List.pairwise_of_forall
    intro x y hx hy
    simp only [List.map_map, List.mem_map, Function.comp_apply] at hx hy
    obtain ⟨_, _, rfl⟩ := hx
    obtain ⟨_, _, rfl⟩ := hy
    exact strLe_refl _
  · refine (sortStrings_sorted _).imp ?_
    intro a b hab x hx y hy
    simp only [List.map_map, List.mem_map, Function.comp_apply] at hx hy
    obtain ⟨_, _, rfl⟩ := hx
    obtain ⟨_, _, rfl⟩ := hy
    exact hab

theorem Replace_append (a b : Str) (old : Nat) (new : Str) :
    Replace (a ++ b) old new = Replace a old new ++ Replace b old new := by
  simp [Replace]

theorem Replace_Join (L : List Str) (sep : Str) (old : Nat) (new : Str)
    (hsep : Replace sep old new = sep) :
    Replace (Join L sep) old new = Join (L.map (fun s => Replace s old new)) sep := by
  induction L with
  | nil => rfl
  | cons a L ih =>
    cases L with
    | nil => rfl
    | cons b rest =>
      rw [Join, Replace_append, Replace_append, hsep, ih]
      rfl

theorem not_mem_Replace (s : Str) (old : Nat) (new : Str) (h : old ∉ new) :
    old ∉ Replace s old new := by
  unfold Replace
  rw [List.mem_flatMap]
  rintro ⟨c, _, hc⟩
  by_cases hco : c = old
  · rw [if_pos hco] at hc; exact h hc
  · rw [if_neg hco, List.mem_singleton] at hc; exact hco hc.symm

theorem upperHexDigit_ne_plus (n : Nat) : upperHexDigit n ≠ 43 := by
  unfold upperHexDigit
  split_ifs <;> omega

/-- What `sortQuery` does to a key or value is plain percent-encoding: the `+`
that `QueryEscape` writes for a space becomes `%20`. -/
theorem escape20_eq (s : Str) : escape20 s = percentEncodeQuery s := by
  unfold escape20 percentEncodeQuery QueryEscape Replace
  rw [List.flatMap_assoc]
  apply List.flatMap_congr
  intro c _
  by_cases hu : queryUnreserved c = true
  · have h43 : c ≠ 43 := by
      rintro rfl
      revert hu; decide
    simp [hu, h43]
  · by_cases h32 : c = 32
    · subst h32
      simp only [hu, if_false, if_true, List.flatMap_cons, List.flatMap_nil, List.append_nil]
      decide
    · have h1 := upperHexDigit_ne_plus (c / 16 % 16)
      have h2 := upperHexDigit_ne_plus (c % 16)
      simp [hu, h32, h1, h2, percentEncodeByte]

theorem Encode_eq_sortedPairs (v : Values) :
    v.Encode = Join (v.sortedPairs.map (fun kv => QueryEscape kv.1 ++ [61] ++ QueryEscape kv.2))
      [38] := by
  unfold Values.Encode Values.sortedPairs
  rw [List.map_flatMap]
  simp only [List.map_map, Function.comp_def]

/-- The text of `sortQuery`: the sorted pairs, each written `key=value` with
key and value percent-encoded, joined by `&`. -/
theorem sortQuery_eq (q : Str) :
    sortQuery q =
      Join ((sortedParams q).map (fun kv => escape20 kv.1 ++ [61] ++ escape20 kv.2)) [38] := by
  unfold sortQuery sortedParams
  rw [Encode_eq_sortedPairs, Replace_Join _ _ _ _ (by decide), List.map_map]
  congr 1
  apply List.map_congr_left
  intro kv _
  simp only [Function.comp_apply, Replace_append, escape20]
  rfl

theorem ParseQuery_keys_nodup (q : Str) : ((ParseQuery q).map Prod.fst).Nodup := by
  rw [ParseQuery_eq]
  exact Values.keys_addAll_nodup _ _ List.nodup_nil

theorem ParseQuery_lookup (q k : Str) :
    (List.lookup k (ParseQuery q)).getD [] = valuesOf (parsedParams q) k := by
  rw [ParseQuery_eq, Values.lookup_addAll]
  rfl

theorem sortedParams_perm (q : Str) : (sortedParams q).Perm (parsedParams q) := by
  unfold sortedParams
  refine (Values.sortedPairs_perm _ (ParseQuery_keys_nodup q)).trans ?_
  rw [ParseQuery_eq]
  simpa [Values.pairs] using Values.pairs_addAll_perm (parsedParams q) []

/-- C13: for every query string, `sortQuery` writes the parsed parameters, each
as `key=value` and joined by `&`, in ascending byte order of their keys (the
values of one key in the order they were written); key and value are
percent-encoded, a space as "%20", and the result holds no "+". -/
theorem sortQuery_sorted_percent_encoded (q : Str) :
    sortQuery q =
        Join ((sortedParams q).map
          (fun kv => percentEncodeQuery kv.1 ++ [61] ++ percentEncodeQuery kv.2)) [38] ∧
      (sortedParams q).Perm (parsedParams q) ∧
      ((sortedParams q).map Prod.fst).Sorted (fun a b => strLe a b = true) ∧
      (∀ k, valuesOf (sortedParams q) k = valuesOf (parsedParams q) k) ∧
      percentEncodeQuery (lit " ") = lit "%20" ∧
      43 ∉ sortQuery q := by
  refine ⟨?_, sortedParams_perm q, Values.keys_sortedPairs_sorted _, ?_, by decide, ?_⟩
  · rw [sortQuery_eq]
    simp only [escape20_eq]
  · intro k
    rw [sortedParams, Values.valuesOf_sortedPairs _ (ParseQuery_keys_nodup q), ParseQuery_lookup]
  · exact not_mem_Replace _ _ _ (by decide)

/-- C14, counterexample: the queries "a=1&a=2" and "a=2&a=1" hold the same two
parameters in a different order, and `sortQuery` leaves each as it is: the
values of a repeated key keep the order they were written in. -/
theorem sortQuery_repeated_key_keeps_order :
    parsedParams (lit "a=1&a=2") = [(lit "a", lit "1"), (lit "a", lit "2")] ∧
    parsedParams (lit "a=2&a=1") = [(lit "a", lit "2"), (lit "a", lit "1")] ∧
    (parsedParams (lit "a=1&a=2")).Perm (parsedParams (lit "a=2&a=1")) ∧
    sortQuery (lit "a=1&a=2") = lit "a=1&a=2" ∧
    sortQuery (lit "a=2&a=1") = lit "a=2&a=1" ∧
    sortQuery (lit "a=1&a=2") ≠ sortQuery (lit "a=2&a=1") := by
  refine ⟨by decide, by decide, ?_, by decide, by decide, by decide⟩
  have e1 : parsedParams (lit "a=1&a=2") = [(lit "a", lit "1"), (lit "a", lit "2")] := by decide
  have e2 : parsedParams (lit "a=2&a=1") = [(lit "a", lit "2"), (lit "a", lit "1")] := by decide
  rw [e1, e2]
  exact List.Perm.swap _ _ _

theorem Encode_congr (m1 m2 : Values) (h1 : (m1.map Prod.fst).Nodup)
    (h2 : (m2.map Prod.fst).Nodup)
    (hk : ∀ k, k ∈ m1.map Prod.fst ↔ k ∈ m2.map Prod.fst)
    (hl : ∀ k, (List.lookup k m1).getD [] = (List.lookup k m2).getD []) :
    m1.Encode = m2.Encode := by
  unfold Values.Encode
  rw [sortStrings_eq_of_perm ((List.perm_ext_iff_of_nodup h1 h2).2 hk)]
  congr 1
  apply List.flatMap_congr
  intro k _
  rw [hl k]

/-- Two parameter lists with distinct keys that are permutations of each other
give every key the same values. -/
theorem valuesOf_eq_of_perm (ps1 ps2 : List (Str × Str)) (hp : ps1.Perm ps2)
    (hn : (ps1.map Prod.fst).Nodup) (k : Str) : valuesOf ps1 k = valuesOf ps2 k := by
  have hlen : ∀ ps : List (Str × Str), (ps.map Prod.fst).Nodup → (valuesOf ps k).length ≤ 1 := by
    intro ps
    induction ps with
    | nil => intro _; simp [valuesOf]
    | cons kv ps ih =>
      intro h
      rw [List.map_cons, List.nodup_cons] at h
      rw [valuesOf_cons]
      by_cases hk : kv.1 = k
      · have : valuesOf ps k = [] := by
          by_contra hne
          exact h.1 (hk ▸ (mem_keys_iff_valuesOf ps k).2 hne)
        simp [hk, this]
      · simpa [hk] using ih h.2
  have hperm : (valuesOf ps1 k).Perm (valuesOf ps2 k) := (hp.filter _).map _
  have l1 := hlen ps1 hn
  have l2 := hlen ps2 ((hp.map Prod.fst).nodup_iff.1 hn)
  match h1 : valuesOf ps1 k, h2 : valuesOf ps2 k with
  | [], [] => rfl
  | [], _ :: _ => rw [h1, h2] at hperm; exact absurd hperm.length_eq (by simp)
  | _ :: _, [] => rw [h1, h2] at hperm; exact absurd hperm.length_eq (by simp)
  | [a], [b] =>
    rw [h1, h2] at hperm
    rw [List.perm_singleton.1 hperm]
  | _ :: _ :: _, _ => rw [h1] at l1; simp at l1
  | [_], _ :: _ :: _ => rw [h2] at l2; simp at l2

/-- C14, amended: two query strings whose parsed parameters give every key the
same values in the same order have the same `sortQuery`; the order in which
parameters of different keys are written does not matter. -/
theorem sortQuery_order_independent (q1 q2 : Str)
    (h : ∀ k, valuesOf (parsedParams q1) k = valuesOf (parsedParams q2) k) :
    sortQuery q1 = sortQuery q2 := by
  unfold sortQuery
  rw [Encode_congr (ParseQuery q1) (ParseQuery q2) (ParseQuery_keys_nodup q1)
    (ParseQuery_keys_nodup q2) ?_ ?_]
  · intro k
    rw [ParseQuery_eq, ParseQuery_eq, Values.mem_keys_addAll, Values.mem_keys_addAll,
      mem_keys_iff_valuesOf, mem_keys_iff_valuesOf, h k]
  · intro k
    rw [ParseQuery_lookup, ParseQuery_lookup, h k]

/-- Witness of `sortQuery_order_independent`: "b=2&a=1" and "a=1&b=2". -/
theorem sortQuery_order_independent_witness :
    lit "b=2&a=1" ≠ lit "a=1&b=2" ∧
    (∀ k, valuesOf (parsedParams (lit "b=2&a=1")) k = valuesOf (parsedParams (lit "a=1&b=2")) k) ∧
    sortQuery (lit "b=2&a=1") = sortQuery (lit "a=1&b=2") :=
  ⟨by decide,
    valuesOf_eq_of_perm _ _
      (by
        have e1 : parsedParams (lit "b=2&a=1") = [(lit "b", lit "2"), (lit "a", lit "1")] := by
          decide
        have e2 : parsedParams (lit "a=1&b=2") = [(lit "a", lit "1"), (lit "b", lit "2")] := by
          decide
        rw [e1, e2]
        exact List.Perm.swap _ _ _)
      (by decide),
    sortQuery_order_independent _ _
      (valuesOf_eq_of_perm _ _
        (by
          have e1 : parsedParams (lit "b=2&a=1") = [(lit "b", lit "2"), (lit "a", lit "1")] := by
            decide
          have e2 : parsedParams (lit "a=1&b=2") = [(lit "a", lit "1"), (lit "b", lit "2")] := by
            decide
          rw [e1, e2]
          exact List.Perm.swap _ _ _)
        (by decide))⟩

/-! ## Machine integers -/

theorem wrap64_modEq (x : Int) : wrap64 x ≡ x [ZMOD 2 ^ 64] := by
  unfold wrap64 Int.ModEq
  have h : ((x + 2 ^ 63) % 2 ^ 64 - 2 ^ 63) % 2 ^ 64 = (x + 2 ^ 63 - 2 ^ 63) % 2 ^ 64 := by
    rw [Int.sub_emod, Int.emod_emod_of_dvd _ (dvd_refl _), ← Int.sub_emod]
  rw [h]; ring_nf

theorem wrap64_range (x : Int) : -2 ^ 63 ≤ wrap64 x ∧ wrap64 x < 2 ^ 63 := by
  unfold wrap64
  have h1 := Int.emod_nonneg (x + 2 ^ 63) (show (2 : Int) ^ 64 ≠ 0 by norm_num)
  have h2 := Int.emod_lt_of_pos (x + 2 ^ 63) (show (0 : Int) < 2 ^ 64 by norm_num)
  constructor <;> omega

theorem wrap64_of_range (x : Int) (h1 : -2 ^ 63 ≤ x) (h2 : x < 2 ^ 63) : wrap64 x = x := by
  unfold wrap64
  rw [Int.emod_eq_of_lt (by omega) (by omega)]
  omega

theorem wrap64_congr {a b : Int} (h : a ≡ b [ZMOD 2 ^ 64]) : wrap64 a = wrap64 b := by
  unfold wrap64
  have : (a + 2 ^ 63) % 2 ^ 64 = (b + 2 ^ 63) % 2 ^ 64 := (h.add_right _)
  rw [this]
end V4

namespace S3Verify

open V4

/-! ## Which network errors are retried -/

/-- C16, counterexample: an error of type `*url.Error`, the type of every error
`http.Client.Do` returns, with the message "connection reset by peer" is not
retried, and neither is an error with that message that does not implement
`net.Error`, although the message holds a `TCPretry` text. -/
theorem isNetErrorRetryable_url_error_not_retried :
    Contains (lit "connection reset by peer") (lit "connection reset by peer") = true ∧
    lit "connection reset by peer" ∈ TCPretry ∧
    isNetErrorRetryable ⟨.urlError, lit "connection reset by peer"⟩ = false ∧
    isNetErrorRetryable ⟨.notNetError, lit "connection reset by peer"⟩ = false := by
  refine ⟨by decide, by decide, by decide, by decide⟩

/-- C16, amended: `isNetErrorRetryable` returns true exactly for a DNS,
operation or unknown-network error, for a URL error whose message contains
"Connection closed by foreign host", and for a value of another type that
implements `net.Error` whose message contains one of "i/o timeout",
"net/http: TLS handshake timeout", "connection reset by peer" and
"read: operation timed out"; such a value with the message
"connection reset by peer" is retried. -/
theorem isNetErrorRetryable_iff (err : GoError) :
    (isNetErrorRetryable err = true ↔
      err.kind = .dnsError ∨ err.kind = .opError ∨ err.kind = .unknownNetworkError ∨
      (err.kind = .urlError ∧
        Contains err.message (lit "Connection closed by foreign host") = true) ∨
      (err.kind = .otherNetError ∧
        (Contains err.message (lit "i/o timeout") = true ∨
          Contains err.message (lit "net/http: TLS handshake timeout") = true ∨
          Contains err.message (lit "connection reset by peer") = true ∨
          Contains err.message (lit "read: operation timed out") = true))) ∧
    isNetErrorRetryable ⟨.otherNetError, lit "connection reset by peer"⟩ = true := by
  refine ⟨?_, by decide⟩
  obtain ⟨kind, message⟩ := err
  cases kind <;>
    simp [isNetErrorRetryable, TCPretry]

/-! ## One round of the loop -/

theorem retryableOutcome_answered (D : ErrorDecoder) (resp : Response) :
    retryableOutcome D (.answered resp) =
      (!successStatus.contains resp.StatusCode &&
        (isS3CodeRetryable (D.ofResponse resp.StatusCode resp.Body.readAll.1) ||
          isHTTPStatusRetryable resp.StatusCode)) := rfl

theorem afterDo_failed (D : ErrorDecoder) (resp : Option Response) (err : GoError) :
    afterDo D (.failed resp err) = (resp, some err, isNetErrorRetryable err) := rfl

theorem afterDo_success (D : ErrorDecoder) (resp : Response)
    (hs : successStatus.contains resp.StatusCode = true) :
    afterDo D (.answered resp) = (some resp, none, false) := by
  simp only [afterDo, hs, if_true]

/-- What the loop does with a response that has no success status and whose
error body is read without an error. -/
theorem afterDo_error_response (D : ErrorDecoder) (resp : Response)
    (hs : successStatus.contains resp.StatusCode = false)
    (hr : resp.Body.readAll.2.1 = none) :
    afterDo D (.answered resp) =
      if (isS3CodeRetryable (D.ofResponse resp.StatusCode resp.Body.readAll.1) ||
          isHTTPStatusRetryable resp.StatusCode) = true then
        (some ⟨resp.StatusCode, .reader resp.Body.readAll.1
          (min (D.reads resp.StatusCode resp.Body.readAll.1) resp.Body.readAll.1.length)⟩,
          none, true)
      else (some ⟨resp.StatusCode, .reader resp.Body.readAll.1 0⟩, none, false) := by
  rcases hra : resp.Body.readAll with ⟨data, e, rest⟩
  rw [hra] at hr
  simp only at hr
  subst hr
  simp only [afterDo, hs, hra, Bool.false_eq_true, if_false]
  by_cases h1 : isS3CodeRetryable (D.ofResponse resp.StatusCode data) = true
  · simp [h1]
  · by_cases h2 : isHTTPStatusRetryable resp.StatusCode = true
    · simp [h1, h2]
    · simp [h1, h2]

/-- When the error body can be read, the loop goes on exactly when the outcome
is retryable. -/
theorem afterDo_continue (D : ErrorDecoder) (t : TransportOutcome) (h : t.readable = true) :
    (afterDo D t).2.2 = retryableOutcome D t := by
  cases t with
  | failed resp err => rfl
  | answered resp =>
    rw [retryableOutcome_answered]
    by_cases hs : successStatus.contains resp.StatusCode = true
    · rw [afterDo_success D resp hs, hs]; rfl
    · have hs2 : successStatus.contains resp.StatusCode = false := by simpa using hs
      have hr : resp.Body.readAll.2.1 = none := by
        have h2 : (successStatus.contains resp.StatusCode ||
            resp.Body.readAll.2.1.isNone) = true := h
        rw [hs2, Bool.false_or] at h2
        simpa using h2
      rw [afterDo_error_response D resp hs2 hr, hs2]
      by_cases hc : (isS3CodeRetryable (D.ofResponse resp.StatusCode resp.Body.readAll.1) ||
          isHTTPStatusRetryable resp.StatusCode) = true
      · rw [if_pos hc, hc]; rfl
      · rw [if_neg hc]
        have hc2 : (isS3CodeRetryable (D.ofResponse resp.StatusCode resp.Body.readAll.1) ||
          isHTTPStatusRetryable resp.StatusCode) = false := by simpa using hc
        rw [hc2]; rfl

theorem calls_append_call (T : List Event) (k : Nat) :
    ((T ++ [Event.call k]).filter Event.isCall).length = (T.filter Event.isCall).length + 1 := by
  simp [Event.isCall]

theorem calls_append_seek (T : List Event) (k : Nat) (b : Bool) :
    ((T ++ [Event.seek k b]).filter Event.isCall).length = (T.filter Event.isCall).length := by
  simp [Event.isCall]

/-- A round whose rewind and request construction go well makes one network
call and goes on as `afterDo` says. -/
theorem execAttempt_prepared (D : ErrorDecoder) (cb : ContentBody) (a : Attempt) (k : Nat)
    (s : Result) (h : a.prepared cb = true) :
    (execAttempt D cb a k s).1.resp = (afterDo D a.transport).1 ∧
    (execAttempt D cb a k s).1.err = (afterDo D a.transport).2.1 ∧
    (execAttempt D cb a k s).1.calls = s.calls + 1 ∧
    (execAttempt D cb a k s).2 = (afterDo D a.transport).2.2 ∧
    ∃ pre, (execAttempt D cb a k s).1.trace = pre ++ [Event.call k] := by
  unfold Attempt.prepared at h
  rw [Bool.and_eq_true, Bool.or_eq_true] at h
  obtain ⟨h1, h2⟩ := h
  have hn : a.newRequest = none := by simpa using h2
  by_cases hc : cb = .seekable
  · have hsk : a.seek = none := by
      rcases h1 with h1 | h1
      · simp [hc] at h1
      · simpa using h1
    simp only [execAttempt, hc, if_true, hsk, sendRequest, hn, Result.calls, calls_append_call,
      calls_append_seek, true_and]
    exact ⟨_, rfl⟩
  · simp only [execAttempt, hc, if_false, sendRequest, hn, Result.calls, calls_append_call,
      true_and]
    exact ⟨_, rfl⟩

/-- A round makes at most one network call. -/
theorem execAttempt_calls_le (D : ErrorDecoder) (cb : ContentBody) (a : Attempt) (k : Nat)
    (s : Result) : (execAttempt D cb a k s).1.calls ≤ s.calls + 1 := by
  unfold execAttempt sendRequest Result.calls
  split_ifs <;> (repeat' split) <;>
    simp only [calls_append_call, calls_append_seek] <;> omega

theorem execLoop_calls_le (D : ErrorDecoder) (cb : ContentBody) (env : Nat → Attempt)
    (ks : List Nat) : ∀ s : Result, (execLoop D cb env ks s).calls ≤ s.calls + ks.length := by
  induction ks with
  | nil => intro s; simp [execLoop]
  | cons k ks ih =>
    intro s
    have h1 := execAttempt_calls_le D cb (env k) k s
    rw [execLoop]
    split_ifs
    · have h2 := ih (execAttempt D cb (env k) k s).1
      rw [List.length_cons]; omega
    · rw [List.length_cons]; omega

/-- The loop over rounds that all end in a retryable outcome: it goes through
all of them, with one network call each, and holds the values of the last. -/
theorem execLoop_retry (D : ErrorDecoder) (cb : ContentBody) (env : Nat → Attempt) (n : Nat) :
    ∀ (k0 rest : Nat) (s : Result),
      (∀ k, k0 ≤ k → k < k0 + n → (env k).prepared cb = true ∧
        (env k).transport.readable = true ∧ retryableOutcome D (env k).transport = true) →
      ∃ s', execLoop D cb env (List.range' k0 (n + rest)) s =
          execLoop D cb env (List.range' (k0 + n) rest) s' ∧
        s'.calls = s.calls + n ∧
        (n = 0 → s' = s) ∧
        (0 < n → s'.resp = (afterDo D (env (k0 + n - 1)).transport).1 ∧
          s'.err = (afterDo D (env (k0 + n - 1)).transport).2.1) := by
  induction n with
  | zero =>
    intro k0 rest s _
    exact ⟨s, by simp, by simp, fun _ => rfl, by simp⟩
  | succ n ih =>
    intro k0 rest s h
    obtain ⟨hp, hr, hy⟩ := h k0 (le_refl _) (by omega)
    obtain ⟨e1, e2, e3, e4, _⟩ := execAttempt_prepared D cb (env k0) k0 s hp
    rw [afterDo_continue D _ hr, hy] at e4
    obtain ⟨s', hs1, hs2, hs0, hs3⟩ := ih (k0 + 1) rest (execAttempt D cb (env k0) k0 s).1
      (fun k hk1 hk2 => h k (by omega) (by omega))
    refine ⟨s', ?_, ?_, fun h0 => absurd h0 (Nat.succ_ne_zero n), ?_⟩
    · have hl : List.range' k0 (n + 1 + rest) = k0 :: List.range' (k0 + 1) (n + rest) := by
        rw [show n + 1 + rest = (n + rest) + 1 by omega]; rfl
      rw [hl, execLoop, if_pos e4, hs1]
      rw [show k0 + 1 + n = k0 + (n + 1) by omega]
    · rw [hs2, e3]; omega
    · intro _
      rcases Nat.eq_zero_or_pos n with hn | hn
      · subst hn
        rw [hs0 rfl]
        exact ⟨e1, e2⟩
      · obtain ⟨r1, r2⟩ := hs3 hn
        rw [show k0 + (n + 1) - 1 = k0 + 1 + n - 1 by omega]
        exact ⟨r1, r2⟩

theorem successStatus_contains (status : Int) :
    successStatus.contains status = true ↔ status = 200 ∨ status = 204 ∨ status = 206 := by
  simp [successStatus]

/-! ## Where the loop of `execRequest` ends -/

/-- A response without a success status whose error body cannot be read ends
the loop at once, whatever its status: `execRequest` returns the response and
the error of the read. -/
theorem afterDo_unreadable (D : ErrorDecoder) (resp : Response) (err : GoError)
    (hs : successStatus.contains resp.StatusCode = false)
    (hr : resp.Body.readAll.2.1 = some err) :
    afterDo D (.answered resp) =
      (some ⟨resp.StatusCode, resp.Body.readAll.2.2⟩, some err, false) := by
  rcases hra : resp.Body.readAll with ⟨data, e, rest⟩
  rw [hra] at hr
  simp only at hr
  subst hr
  simp only [afterDo, hs, hra, Bool.false_eq_true, if_false]

/-- C15, counterexample: a transport that answers HTTP 503 with an error body
that cannot be read, and HTTP 200 from then on. The first outcome is retryable
in the words of the claim (status 503) and the second is not, but `execRequest`
returns after the first network call, with the error of the read. -/
theorem execRequest_unreadable_body_not_retried :
    retryableOutcome xmlDecoder (brokenThenOk 1).transport = true ∧
    retryableOutcome xmlDecoder (brokenThenOk 2).transport = false ∧
    (execRequest xmlDecoder MaxRetry .absent brokenThenOk).trace = [Event.call 1] ∧
    (execRequest xmlDecoder MaxRetry .absent brokenThenOk).calls = 1 ∧
    (execRequest xmlDecoder MaxRetry .absent brokenThenOk).err =
      some ⟨.notNetError, lit "unexpected EOF"⟩ ∧
    (execRequest xmlDecoder MaxRetry .absent brokenThenOk).resp.map
      (fun r => r.StatusCode) = some 503 := by
  refine ⟨by decide, by decide, by decide, by decide, by decide, by decide⟩

/-- C15, amended: when in the rounds 1 to `n + 1` the rewind of the body and
the construction of the request go well and every error body is read without
an error, the rounds 1 to `n` end in a retryable outcome and round `n + 1`,
still within `maxRetry`, in one that is not retryable, `execRequest` makes
`n + 1` network calls and returns with the last of them: a network error that
`isNetErrorRetryable` rejects with the response that came with it, a response
with status 200, 204 or 206 as it is and a nil error whatever its body, any
other response with its error body buffered and a nil error. Retryable is a
network error that `isNetErrorRetryable` accepts, or a response without a
success status whose S3 code is one of the nine retryable codes or whose
status is 429, 500, 502 or 503. -/
theorem execRequest_returns_at_first_non_retryable (D : ErrorDecoder) (maxRetry : Int)
    (cb : ContentBody) (env : Nat → Attempt) (n : Nat)
    (hn : (n : Int) < maxRetry)
    (hprep : ∀ k, 1 ≤ k → k ≤ n + 1 → (env k).prepared cb = true)
    (hread : ∀ k, 1 ≤ k → k ≤ n + 1 → (env k).transport.readable = true)
    (hretry : ∀ k, 1 ≤ k → k ≤ n → retryableOutcome D (env k).transport = true)
    (hstop : retryableOutcome D (env (n + 1)).transport = false) :
    (execRequest D maxRetry cb env).calls = n + 1 ∧
    (∃ pre, (execRequest D maxRetry cb env).trace = pre ++ [Event.call (n + 1)]) ∧
    (∀ resp err, (env (n + 1)).transport = .failed resp err →
      isNetErrorRetryable err = false ∧
      (execRequest D maxRetry cb env).resp = resp ∧
      (execRequest D maxRetry cb env).err = some err) ∧
    (∀ resp, (env (n + 1)).transport = .answered resp →
      (resp.StatusCode = 200 ∨ resp.StatusCode = 204 ∨ resp.StatusCode = 206) →
      (execRequest D maxRetry cb env).resp = some resp ∧
      (execRequest D maxRetry cb env).err = none) ∧
    (∀ resp, (env (n + 1)).transport = .answered resp →
      ¬ (resp.StatusCode = 200 ∨ resp.StatusCode = 204 ∨ resp.StatusCode = 206) →
      (execRequest D maxRetry cb env).resp =
        some ⟨resp.StatusCode, .reader resp.Body.readAll.1 0⟩ ∧
      (execRequest D maxRetry cb env).err = none) := by
  obtain ⟨rest, hrest⟩ : ∃ rest, maxRetry.toNat = n + (rest + 1) := ⟨maxRetry.toNat - (n + 1), by omega⟩
  obtain ⟨s', hs1, hs2, _, _⟩ := execLoop_retry D cb env n 1 (rest + 1) ⟨none, none, []⟩
    (fun k h1 h2 => ⟨hprep k h1 (by omega), hread k h1 (by omega), hretry k h1 (by omega)⟩)
  obtain ⟨e1, e2, e3, e4, e5⟩ :=
    execAttempt_prepared D cb (env (n + 1)) (n + 1) s' (hprep _ (by omega) (le_refl _))
  rw [afterDo_continue D _ (hread _ (by omega) (le_refl _)), hstop] at e4
  have hres : execRequest D maxRetry cb env = (execAttempt D cb (env (n + 1)) (n + 1) s').1 := by
    unfold execRequest retryAttempts
    rw [hrest, hs1]
    have hl : List.range' (1 + n) (rest + 1) = (n + 1) :: List.range' (n + 1 + 1) rest := by
      rw [Nat.add_comm 1 n]; rfl
    rw [hl, execLoop, if_neg (by rw [e4]; decide)]
  rw [hres]
  refine ⟨?_, e5, ?_, ?_, ?_⟩
  · rw [e3, hs2]; simp [Result.calls]
  · intro resp err ht
    rw [ht] at hstop
    rw [e1, e2, ht, afterDo_failed]
    exact ⟨hstop, rfl, rfl⟩
  · intro resp ht hs
    rw [e1, e2, ht, afterDo_success D resp ((successStatus_contains _).2 hs)]
    exact ⟨rfl, rfl⟩
  · intro resp ht hs
    have hs2 : successStatus.contains resp.StatusCode = false := by
      rw [← Bool.not_eq_true, successStatus_contains]; exact hs
    have hr : resp.Body.readAll.2.1 = none := by
      have h2 : (successStatus.contains resp.StatusCode ||
          resp.Body.readAll.2.1.isNone) = true := by
        have := hread (n + 1) (by omega) (le_refl _)
        rw [ht] at this
        exact this
      rw [hs2, Bool.false_or] at h2
      simpa using h2
    rw [ht, retryableOutcome_answered, hs2] at hstop
    have hc : ¬ (isS3CodeRetryable (D.ofResponse resp.StatusCode resp.Body.readAll.1) ||
        isHTTPStatusRetryable resp.StatusCode) = true := by
      simpa using hstop
    rw [e1, e2, ht, afterDo_error_response D resp hs2 hr, if_neg hc]
    exact ⟨rfl, rfl⟩

/-- Witness of `execRequest_returns_at_first_non_retryable`: a transport that
answers 503 twice and then 200 is called three times, and one that answers
404 with the code `NoSuchKey` once. -/
theorem execRequest_returns_at_first_non_retryable_witness :
    ((2 : Int) < MaxRetry ∧
      retryableOutcome xmlDecoder (twiceUnavailable 3).transport = false ∧
      (execRequest xmlDecoder MaxRetry .absent twiceUnavailable).calls = 3) ∧
    ((0 : Int) < MaxRetry ∧
      retryableOutcome xmlDecoder (noSuchKey 1).transport = false ∧
      (execRequest xmlDecoder MaxRetry .absent noSuchKey).calls = 1) :=
  ⟨⟨by decide, by decide,
      (execRequest_returns_at_first_non_retryable xmlDecoder MaxRetry .absent twiceUnavailable 2
        (by decide)
        (fun k h1 h2 => by interval_cases k <;> rfl)
        (fun k h1 h2 => by interval_cases k <;> rfl)
        (fun k h1 h2 => by interval_cases k <;> decide)
        (by decide)).1⟩,
    ⟨by decide, by decide,
      (execRequest_returns_at_first_non_retryable xmlDecoder MaxRetry .absent noSuchKey 0
        (by decide)
        (fun k h1 h2 => by interval_cases k; rfl)
        (fun k h1 h2 => by interval_cases k; rfl)
        (fun k h1 h2 => by omega)
        (by decide)).1⟩⟩

/-- C17, counterexample: a transport that always answers HTTP 500 with an
error body that cannot be read. Every outcome is retryable in the words of the
claim (status 500), but `execRequest` makes one network call, not `MaxRetry`,
and returns the error of the read. -/
theorem execRequest_unreadable_body_one_call :
    (∀ k, retryableOutcome xmlDecoder (alwaysBroken k).transport = true) ∧
    (execRequest xmlDecoder MaxRetry .absent alwaysBroken).trace = [Event.call 1] ∧
    (execRequest xmlDecoder MaxRetry .absent alwaysBroken).calls = 1 ∧
    (execRequest xmlDecoder MaxRetry .absent alwaysBroken).calls ≠ MaxRetry.toNat ∧
    (execRequest xmlDecoder MaxRetry .absent alwaysBroken).err =
      some ⟨.notNetError, lit "unexpected EOF"⟩ := by
  refine ⟨fun _ => ?_, by decide, by decide, by decide, by decide⟩
  show retryableOutcome xmlDecoder (brokenAnswer 500).transport = true
  decide

/-- C17, amended: when in every round the rewind of the body and the
construction of the request go well, every error body is read without an error
and the round ends in a retryable outcome, `execRequest` makes exactly
`maxRetry` network calls and returns the response and the error of the last
round: the network error with the response that came with it, or the response
with its error body buffered and a nil error. Whatever the rounds do, it never
makes more than `maxRetry` network calls. -/
theorem execRequest_exhausts_after_maxRetry (D : ErrorDecoder) (maxRetry : Int)
    (cb : ContentBody) (env : Nat → Attempt)
    (hmax : 0 < maxRetry)
    (hprep : ∀ k, 1 ≤ k → k ≤ maxRetry.toNat → (env k).prepared cb = true)
    (hread : ∀ k, 1 ≤ k → k ≤ maxRetry.toNat → (env k).transport.readable = true)
    (hretry : ∀ k, 1 ≤ k → k ≤ maxRetry.toNat →
      retryableOutcome D (env k).transport = true) :
    (execRequest D maxRetry cb env).calls = maxRetry.toNat ∧
    (∀ (cb2 : ContentBody) (env2 : Nat → Attempt),
      (execRequest D maxRetry cb2 env2).calls ≤ maxRetry.toNat) ∧
    (∀ resp err, (env maxRetry.toNat).transport = .failed resp err →
      (execRequest D maxRetry cb env).resp = resp ∧
      (execRequest D maxRetry cb env).err = some err) ∧
    (∀ resp, (env maxRetry.toNat).transport = .answered resp →
      (execRequest D maxRetry cb env).resp =
        some ⟨resp.StatusCode, .reader resp.Body.readAll.1
          (min (D.reads resp.StatusCode resp.Body.readAll.1) resp.Body.readAll.1.length)⟩ ∧
      (execRequest D maxRetry cb env).err = none) := by
  have hpos : 0 < maxRetry.toNat := by omega
  obtain ⟨s', hs1, hs2, _, hs3⟩ := execLoop_retry D cb env maxRetry.toNat 1 0 ⟨none, none, []⟩
    (fun k h1 h2 => ⟨hprep k h1 (by omega), hread k h1 (by omega), hretry k h1 (by omega)⟩)
  obtain ⟨r1, r2⟩ := hs3 hpos
  rw [show 1 + maxRetry.toNat - 1 = maxRetry.toNat by omega] at r1 r2
  have hres : execRequest D maxRetry cb env = s' := by
    unfold execRequest retryAttempts
    rw [← Nat.add_zero maxRetry.toNat, hs1]
    rfl
  have hlast := hretry maxRetry.toNat hpos (le_refl _)
  have hrd := hread maxRetry.toNat hpos (le_refl _)
  rw [hres]
  refine ⟨?_, ?_, ?_, ?_⟩
  · rw [hs2]; simp [Result.calls]
  · intro cb2 env2
    have := execLoop_calls_le D cb2 env2 (retryAttempts maxRetry) ⟨none, none, []⟩
    simpa [execRequest, retryAttempts, Result.calls] using this
  · intro resp err ht
    rw [r1, r2, ht, afterDo_failed]
    exact ⟨rfl, rfl⟩
  · intro resp ht
    rw [ht, retryableOutcome_answered] at hlast
    rw [Bool.and_eq_true] at hlast
    have hs2 : successStatus.contains resp.StatusCode = false := by simpa using hlast.1
    have hr : resp.Body.readAll.2.1 = none := by
      have h2 : (successStatus.contains resp.StatusCode ||
          resp.Body.readAll.2.1.isNone) = true := by
        rw [ht] at hrd
        exact hrd
      rw [hs2, Bool.false_or] at h2
      simpa using h2
    rw [r1, r2, ht, afterDo_error_response D resp hs2 hr, if_pos hlast.2]
    exact ⟨rfl, rfl⟩

/-- Witness of `execRequest_exhausts_after_maxRetry`: a transport that always
answers HTTP 500 is called 5 times with `MaxRetry` as initialised, and 3 times
when `MaxRetry` is 3. -/
theorem execRequest_exhausts_after_maxRetry_witness :
    ((0 : Int) < MaxRetry ∧
      (execRequest xmlDecoder MaxRetry .absent alwaysInternalError).calls = 5) ∧
    ((0 : Int) < 3 ∧ (execRequest xmlDecoder 3 .absent alwaysInternalError).calls = 3) :=
  ⟨⟨by decide,
      (execRequest_exhausts_after_maxRetry xmlDecoder MaxRetry .absent alwaysInternalError
        (by decide) (fun k _ _ => rfl) (fun k _ _ => rfl)
        (fun k _ _ => by
          show retryableOutcome xmlDecoder (answer 500 (lit "InternalError")).transport = true
          decide)).1⟩,
    ⟨by decide,
      (execRequest_exhausts_after_maxRetry xmlDecoder 3 .absent alwaysInternalError
        (by decide) (fun k _ _ => rfl) (fun k _ _ => rfl)
        (fun k _ _ => by
          show retryableOutcome xmlDecoder (answer 500 (lit "InternalError")).transport = true
          decide)).1⟩⟩

/-! ## The rewind of a seekable request body -/

theorem rewound_append_seek (T : List Event) (k : Nat) (b : Bool)
    (h : ∀ pre j post, T = pre ++ Event.call j :: post →
      ∃ pre', pre = pre' ++ [Event.seek j true]) :
    ∀ pre j post, T ++ [Event.seek k b] = pre ++ Event.call j :: post →
      ∃ pre', pre = pre' ++ [Event.seek j true] := by
  intro pre j post e
  rcases List.eq_nil_or_concat post with rfl | ⟨post', x, rfl⟩
  · have h2 := List.append_inj_right' e rfl
    cases h2
  · rw [List.concat_eq_append] at e
    have e2 : T ++ [Event.seek k b] = (pre ++ Event.call j :: post') ++ [x] := by
      rw [e]; simp
    exact h pre j post' (List.append_inj_left' e2 rfl)

theorem rewound_append_call (T : List Event) (k : Nat)
    (h : ∀ pre j post, T = pre ++ Event.call j :: post →
      ∃ pre', pre = pre' ++ [Event.seek j true]) :
    ∀ pre j post, T ++ [Event.seek k true] ++ [Event.call k] = pre ++ Event.call j :: post →
      ∃ pre', pre = pre' ++ [Event.seek j true] := by
  intro pre j post e
  rcases List.eq_nil_or_concat post with rfl | ⟨post', x, rfl⟩
  · obtain ⟨h1, h2⟩ := List.append_inj' e rfl
    cases h2
    exact ⟨T, h1.symm⟩
  · rw [List.concat_eq_append] at e
    have e2 : T ++ [Event.seek k true] ++ [Event.call k] =
        (pre ++ Event.call j :: post') ++ [x] := by
      rw [e]; simp
    exact rewound_append_seek T k true h pre j post' (List.append_inj_left' e2 rfl)

/-- The three ways a round with a seekable body can go: the rewind fails and
the function returns its error; the rewind goes well and no network call is
made, the request not being built; the rewind goes well and the network call
follows it. -/
theorem execAttempt_seekable (D : ErrorDecoder) (a : Attempt) (k : Nat) (s : Result) :
    (∃ e, a.seek = some e ∧
      execAttempt D .seekable a k s =
        (⟨s.resp, some e, s.trace ++ [Event.seek k false]⟩, false)) ∨
    (∃ r e c, execAttempt D .seekable a k s = (⟨r, e, s.trace ++ [Event.seek k true]⟩, c)) ∨
    (∃ r e c, execAttempt D .seekable a k s =
      (⟨r, e, s.trace ++ [Event.seek k true] ++ [Event.call k]⟩, c)) := by
  rcases hsk : a.seek with _ | e
  · right
    rcases hn : a.newRequest with _ | e2
    · right
      have h : execAttempt D .seekable a k s =
          (⟨(afterDo D a.transport).1, (afterDo D a.transport).2.1,
            s.trace ++ [Event.seek k true] ++ [Event.call k]⟩, (afterDo D a.transport).2.2) := by
        simp only [execAttempt, if_true, hsk, sendRequest, hn]
      exact ⟨_, _, _, h⟩
    · left
      by_cases hc : isS3CodeRetryable (D.ofError e2) = true
      · have h : execAttempt D .seekable a k s =
            (⟨s.resp, some e2, s.trace ++ [Event.seek k true]⟩, true) := by
          simp only [execAttempt, if_true, hsk, sendRequest, hn, hc]
        exact ⟨_, _, _, h⟩
      · have h : execAttempt D .seekable a k s =
            (⟨none, some e2, s.trace ++ [Event.seek k true]⟩, false) := by
          simp only [execAttempt, if_true, hsk, sendRequest, hn, hc, Bool.false_eq_true,
            if_false]
        exact ⟨_, _, _, h⟩
  · left
    exact ⟨e, rfl, by simp only [execAttempt, if_true, hsk]⟩

/-- The loop with a seekable body keeps every network call right behind a
successful rewind of the same round, and a failed rewind is the last thing it
does. -/
theorem execLoop_seekable (D : ErrorDecoder) (env : Nat → Attempt) (m : Nat) :
    ∀ (k0 : Nat) (s : Result),
      (∀ pre j post, s.trace = pre ++ Event.call j :: post →
        ∃ pre', pre = pre' ++ [Event.seek j true]) →
      (∀ j, Event.seek j false ∉ s.trace) →
      (∀ j, Event.call j ∈ s.trace → j < k0) →
      (∀ pre j post,
        (execLoop D .seekable env (List.range' k0 m) s).trace = pre ++ Event.call j :: post →
        ∃ pre', pre = pre' ++ [Event.seek j true]) ∧
      (∀ k, Event.seek k false ∈ (execLoop D .seekable env (List.range' k0 m) s).trace →
        (env k).seek = (execLoop D .seekable env (List.range' k0 m) s).err ∧
        (execLoop D .seekable env (List.range' k0 m) s).err ≠ none ∧
        (∃ pre, (execLoop D .seekable env (List.range' k0 m) s).trace =
          pre ++ [Event.seek k false]) ∧
        ∀ j, k ≤ j → Event.call j ∉ (execLoop D .seekable env (List.range' k0 m) s).trace) := by
  induction m with
  | zero =>
    intro k0 s h1 h2 _
    exact ⟨h1, fun k hk => absurd hk (h2 k)⟩
  | succ m ih =>
    intro k0 s h1 h2 h3
    have hl : List.range' k0 (m + 1) = k0 :: List.range' (k0 + 1) m := rfl
    rw [hl, execLoop]
    rcases execAttempt_seekable D (env k0) k0 s with ⟨e, he, hx⟩ | ⟨r, e, c, hx⟩ | ⟨r, e, c, hx⟩
    · rw [hx]
      simp only [Bool.false_eq_true, if_false]
      refine ⟨rewound_append_seek _ _ _ h1, ?_⟩
      intro k hk
      have hk0 : k = k0 := by
        rcases List.mem_append.1 hk with hk | hk
        · exact absurd hk (h2 k)
        · simpa using hk
      subst hk0
      refine ⟨he, by simp, ⟨s.trace, rfl⟩, ?_⟩
      intro j hj hmem
      rcases List.mem_append.1 hmem with hm | hm
      · exact absurd (h3 j hm) (by omega)
      · simp at hm
    · rw [hx]
      have g1 := rewound_append_seek s.trace k0 true h1
      have g2 : ∀ j, Event.seek j false ∉ s.trace ++ [Event.seek k0 true] := by
        intro j hj
        rcases List.mem_append.1 hj with hj | hj
        · exact h2 j hj
        · simp at hj
      have g3 : ∀ j, Event.call j ∈ s.trace ++ [Event.seek k0 true] → j < k0 + 1 := by
        intro j hj
        rcases List.mem_append.1 hj with hj | hj
        · have := h3 j hj; omega
        · simp at hj
      cases c with
      | true =>
        simp only [if_true]
        exact ih (k0 + 1) ⟨r, e, s.trace ++ [Event.seek k0 true]⟩ g1 g2 g3
      | false =>
        simp only [Bool.false_eq_true, if_false]
        exact ⟨g1, fun k hk => absurd hk (g2 k)⟩
    · rw [hx]
      have g1 := rewound_append_call s.trace k0 h1
      have g2 : ∀ j, Event.seek j false ∉ s.trace ++ [Event.seek k0 true] ++ [Event.call k0] := by
        intro j hj
        rcases List.mem_append.1 hj with hj | hj
        · rcases List.mem_append.1 hj with hj | hj
          · exact h2 j hj
          · simp at hj
        · simp at hj
      have g3 : ∀ j, Event.call j ∈ s.trace ++ [Event.seek k0 true] ++ [Event.call k0] →
          j < k0 + 1 := by
        intro j hj
        rcases List.mem_append.1 hj with hj | hj
        · rcases List.mem_append.1 hj with hj | hj
          · have := h3 j hj; omega
          · simp at hj
        · have : j = k0 := by simpa using hj
          omega
      cases c with
      | true =>
        simp only [if_true]
        exact ih (k0 + 1) ⟨r, e, s.trace ++ [Event.seek k0 true] ++ [Event.call k0]⟩ g1 g2 g3
      | false =>
        simp only [Bool.false_eq_true, if_false]
        exact ⟨g1, fun k hk => absurd hk (g2 k)⟩

/-- C18: with a seekable request body every network call of `execRequest`
comes right after a successful rewind of the body in the same round; when a
rewind fails, its error is what `execRequest` returns, the failed rewind is the
last thing it does, and no network call is made in that round or a later one.
A rewind that fails in the first round ends the function with no call. -/
theorem execRequest_seekable_rewinds (D : ErrorDecoder) (maxRetry : Int) (env : Nat → Attempt) :
    (∀ pre k post,
      (execRequest D maxRetry .seekable env).trace = pre ++ Event.call k :: post →
      ∃ pre', pre = pre' ++ [Event.seek k true]) ∧
    (∀ k, Event.seek k false ∈ (execRequest D maxRetry .seekable env).trace →
      (env k).seek = (execRequest D maxRetry .seekable env).err ∧
      (execRequest D maxRetry .seekable env).err ≠ none ∧
      (∃ pre, (execRequest D maxRetry .seekable env).trace = pre ++ [Event.seek k false]) ∧
      ∀ j, k ≤ j → Event.call j ∉ (execRequest D maxRetry .seekable env).trace) ∧
    (∀ e, 0 < maxRetry → (env 1).seek = some e →
      execRequest D maxRetry .seekable env = ⟨none, some e, [Event.seek 1 false]⟩) := by
  have h := execLoop_seekable D env maxRetry.toNat 1 ⟨none, none, []⟩
    (fun pre j post hp => by cases pre <;> cases hp)
    (fun j hj => by cases hj)
    (fun j hj => by cases hj)
  refine ⟨h.1, h.2, ?_⟩
  intro e hmax he
  obtain ⟨m, hm⟩ : ∃ m, maxRetry.toNat = m + 1 := ⟨maxRetry.toNat - 1, by omega⟩
  unfold execRequest retryAttempts
  rw [hm]
  have hl : List.range' 1 (m + 1) = 1 :: List.range' 2 m := rfl
  rw [hl, execLoop]
  simp only [execAttempt, if_true, he, Bool.false_eq_true, if_false, List.nil_append]

/-- A seekable body whose rewind fails in the second round: one network call,
made in the first round, and the error of the rewind returned with the
response of the first round. -/
theorem execRequest_seek_fails_second :
    (execRequest xmlDecoder MaxRetry .seekable seekFailsSecond).trace =
      [Event.seek 1 true, Event.call 1, Event.seek 2 false] ∧
    (execRequest xmlDecoder MaxRetry .seekable seekFailsSecond).err =
      some ⟨.notNetError, lit "seek failed"⟩ := by
  refine ⟨by decide, by decide⟩

/-! ## A request body that cannot be rewound -/

theorem execAttempt_plain (D : ErrorDecoder) (a : Attempt) (k : Nat) (s : Result) :
    execAttempt D .plain a k s = sendRequest D a k s := by
  simp [execAttempt]

theorem execAttempt_absent (D : ErrorDecoder) (a : Attempt) (k : Nat) (s : Result) :
    execAttempt D .absent a k s = sendRequest D a k s := by
  simp [execAttempt]

/-- A body that is not an `io.Seeker` is handled as no body at all: the flag
`isRetryable` only guards the rewind. -/
theorem execRequest_plain_eq_absent (D : ErrorDecoder) (maxRetry : Int) (env : Nat → Attempt) :
    execRequest D maxRetry .plain env = execRequest D maxRetry .absent env := by
  unfold execRequest
  generalize retryAttempts maxRetry = ks
  generalize (⟨none, none, []⟩ : Result) = s
  induction ks generalizing s with
  | nil => rfl
  | cons k ks ih =>
    rw [execLoop, execLoop, execAttempt_plain, execAttempt_absent]
    split_ifs
    · exact ih _
    · rfl

/-- C19, the code at the failing input: with a request body that is not
seekable and a transport that always answers HTTP 500, `execRequest` does not
stop after the first round: it makes the network call in each of the five
rounds, with no rewind of the body in between. -/
theorem execRequest_plain_body_sent_again :
    (execRequest xmlDecoder MaxRetry .plain alwaysInternalError).trace =
      [Event.call 1, Event.call 2, Event.call 3, Event.call 4, Event.call 5] ∧
    (execRequest xmlDecoder MaxRetry .plain alwaysInternalError).calls = 5 ∧
    retryableOutcome xmlDecoder (alwaysInternalError 1).transport = true := by
  refine ⟨by decide, by decide, by decide⟩

/-! ## The error body after the last round -/

/-- A response that is classified retryable leaves the round with its buffered
error body at the offset where the decoder stopped, whatever the decoder is:
the loop goes on without a rewind. -/
theorem afterDo_retryable_offset (D : ErrorDecoder) (resp : Response)
    (hs : successStatus.contains resp.StatusCode = false)
    (hr : resp.Body.readAll.2.1 = none)
    (hc : (isS3CodeRetryable (D.ofResponse resp.StatusCode resp.Body.readAll.1) ||
      isHTTPStatusRetryable resp.StatusCode) = true) :
    afterDo D (.answered resp) =
      (some ⟨resp.StatusCode, .reader resp.Body.readAll.1
        (min (D.reads resp.StatusCode resp.Body.readAll.1) resp.Body.readAll.1.length)⟩,
        none, true) := by
  rw [afterDo_error_response D resp hs hr, if_pos hc]

/-- C20, the code at the failing input: a transport that always answers
HTTP 500 with a non-empty error body. After the five rounds `execRequest`
returns the last response with its buffered error body at the offset where the
decoder stopped, here its end, so that nothing of it can be read; a response
that is not retried (404, `NoSuchKey`) is returned rewound, its whole error
body readable. -/
theorem execRequest_exhausted_body_not_rewound :
    (execRequest xmlDecoder MaxRetry .absent alwaysInternalError).resp =
      some ⟨500, .reader (errorBody (lit "InternalError"))
        (errorBody (lit "InternalError")).length⟩ ∧
    (execRequest xmlDecoder MaxRetry .absent alwaysInternalError).resp.map
      (fun r => r.Body.remaining) = some [] ∧
    errorBody (lit "InternalError") ≠ [] ∧
    (execRequest xmlDecoder MaxRetry .absent noSuchKey).resp.map
      (fun r => r.Body.remaining) = some (errorBody (lit "NoSuchKey")) := by
  refine ⟨by decide, by decide, by decide, by decide⟩


/-! ## The retry timer -/

theorem binomialWait_zero (unit : Int) : binomialWait unit 0 = 0 := by
  have h : shiftLeft64 1 (toUint64 (wrap64 (0 - 1))) = 0 := by decide
  rw [binomialWait, h]
  simp [wrap64]

/-- The wait that follows attempt index `k`, for `k` from 2 to 64: `unit`
times `2^(k-2)`, in 64-bit arithmetic. -/
theorem binomialWait_succ (unit : Int) (j : Nat) (hj : j < 63) :
    binomialWait unit ((j : Int) + 1) = wrap64 (unit * 2 ^ j) := by
  have h1 : wrap64 ((j : Int) + 1 - 1) = j := by
    rw [wrap64_of_range] <;> omega
  have h2 : toUint64 (j : Int) = j := by
    unfold toUint64
    rw [Int.emod_eq_of_lt (by omega) (by omega)]
    simp
  have h3 : (2 : Int) ^ j < 2 ^ 63 := by
    exact pow_lt_pow_right₀ (by norm_num) hj
  have h4 : (0 : Int) < 2 ^ j := by positivity
  rw [binomialWait, h1, h2, shiftLeft64, if_pos (by omega), one_mul,
    wrap64_of_range _ (by omega) h3]

/-- C21, the code at the failing input: `binomialWait` is called with the loop
index `i`, which is one less than the attempt index just sent, so the wait
after attempt index 1 is `unit * (1 << uint(-1))`, which is 0 and not one
unit, and the wait after attempt index 2 is one unit and not two. -/
theorem newRetryTimer_first_wait_is_zero (unit : Int) :
    binomialWait unit 0 = 0 ∧
    newRetryTimer 2 unit (fun _ => false) =
      [.yield 1, .wait 0, .yield 2, .wait (wrap64 unit), .close] ∧
    newRetryTimer 3 1000000000 (fun _ => false) =
      [.yield 1, .wait 0, .yield 2, .wait 1000000000, .yield 3, .wait 2000000000, .close] := by
  have h0 := binomialWait_zero unit
  have h1 : binomialWait unit 1 = wrap64 unit := by
    have := binomialWait_succ unit 0 (by norm_num)
    simpa using this
  refine ⟨h0, ?_, by decide⟩
  have hl : List.range (2 : Int).toNat = [0, 1] := by decide
  simp only [newRetryTimer, hl, retryTimerFrom, Bool.false_eq_true, if_false, Nat.cast_zero,
    Nat.cast_one, zero_add, h0, h1]
  norm_num

theorem retryTimerFrom_yields (unit : Int) (is : List Nat) :
    yields (retryTimerFrom unit (fun _ => false) is) = is.map (fun i : Nat => (i : Int) + 1) := by
  induction is with
  | nil => rfl
  | cons i is ih =>
    simp only [retryTimerFrom, Bool.false_eq_true, if_false, yields, List.filterMap_cons,
      TimerEvent.yielded, List.map_cons]
    exact congrArg _ ih

theorem retryTimerFrom_close (unit : Int) (is : List Nat) :
    ∃ pre, retryTimerFrom unit (fun _ => false) is = pre ++ [TimerEvent.close] ∧
      TimerEvent.close ∉ pre ∧ ∀ d, TimerEvent.stop d ∉ pre := by
  induction is with
  | nil => exact ⟨[], rfl, by simp, by simp⟩
  | cons i is ih =>
    obtain ⟨pre, h1, h2, h3⟩ := ih
    refine ⟨.yield ((i : Int) + 1) :: .wait (binomialWait unit i) :: pre, ?_, ?_, ?_⟩
    · simp only [retryTimerFrom, Bool.false_eq_true, if_false, h1, List.cons_append]
    · simp [h2]
    · intro d; simp [h3 d]

theorem range'_cast (n : Nat) :
    (List.range n).map (fun i : Nat => (i : Int) + 1) = (List.range' 1 n).map (fun k : Nat => (k : Int)) := by
  rw [List.range_eq_range', List.range'_eq_map_range 1 n, List.range_eq_range', List.map_map]
  apply List.map_congr_left
  intro a _
  simp [add_comm]

/-- C22: when the done signal never fires, the retry timer sends exactly the
attempt indices 1 to `maxRetry`, in increasing order and each once (none when
`maxRetry` is 0), and the last thing it does, once, is to close its channel. -/
theorem newRetryTimer_yields_all (maxRetry unit : Int) :
    yields (newRetryTimer maxRetry unit (fun _ => false)) =
      (List.range' 1 maxRetry.toNat).map (fun k : Nat => (k : Int)) ∧
    (yields (newRetryTimer maxRetry unit (fun _ => false))).length = maxRetry.toNat ∧
    (yields (newRetryTimer maxRetry unit (fun _ => false))).Sorted (fun a b => a < b) ∧
    (∀ k : Int, k ∈ yields (newRetryTimer maxRetry unit (fun _ => false)) ↔
      1 ≤ k ∧ k ≤ maxRetry) ∧
    ∃ pre, newRetryTimer maxRetry unit (fun _ => false) = pre ++ [TimerEvent.close] ∧
      TimerEvent.close ∉ pre ∧ ∀ d, TimerEvent.stop d ∉ pre := by
  have hy : yields (newRetryTimer maxRetry unit (fun _ => false)) =
      (List.range' 1 maxRetry.toNat).map (fun k : Nat => (k : Int)) := by
    rw [newRetryTimer, retryTimerFrom_yields, range'_cast]
  refine ⟨hy, ?_, ?_, ?_, retryTimerFrom_close unit _⟩
  · rw [hy]; simp
  · rw [hy]
    have : (List.range' 1 maxRetry.toNat).Sorted (fun a b => a < b) := by
      simpa [List.Sorted] using List.pairwise_lt_range' 1 maxRetry.toNat
    exact List.Pairwise.map _ (fun a b h => by exact_mod_cast h) this
  · intro k
    rw [hy, List.mem_map]
    constructor
    · rintro ⟨j, hj, rfl⟩
      rw [List.mem_range'_1] at hj
      omega
    · rintro ⟨h1, h2⟩
      refine ⟨k.toNat, ?_, by omega⟩
      rw [List.mem_range'_1]
      omega

/-- The attempt indices the timer sends are the rounds of the loop of
`execRequest`. -/
theorem yields_eq_retryAttempts (maxRetry unit : Int) :
    yields (newRetryTimer maxRetry unit (fun _ => false)) =
      (retryAttempts maxRetry).map (fun k : Nat => (k : Int)) := by
  rw [newRetryTimer, retryTimerFrom_yields, range'_cast, retryAttempts]

/-! ## The declared length of a chunked stream -/

theorem wrap64_stream (q fc r0 f0 : Int) :
    wrap64 (wrap64 (wrap64 (0 + wrap64 (wrap64 q * wrap64 fc)) + wrap64 r0) + wrap64 f0) =
      wrap64 (q * fc + r0 + f0) := by
  apply wrap64_congr
  have e1 := (wrap64_modEq q).mul (wrap64_modEq fc)
  have e2 := (wrap64_modEq (wrap64 q * wrap64 fc)).trans e1
  have e3 : 0 + wrap64 (wrap64 q * wrap64 fc) ≡ q * fc [ZMOD 2 ^ 64] := by
    rw [zero_add]; exact e2
  have e4 := ((wrap64_modEq _).trans e3).add (wrap64_modEq r0)
  exact (((wrap64_modEq _).trans e4).add (wrap64_modEq f0)).trans (by rfl)

theorem wrap64_stream_no_rest (q fc f0 : Int) :
    wrap64 (wrap64 (0 + wrap64 (wrap64 q * wrap64 fc)) + wrap64 f0) =
      wrap64 (q * fc + 0 + f0) := by
  apply wrap64_congr
  have e1 := (wrap64_modEq q).mul (wrap64_modEq fc)
  have e2 := (wrap64_modEq (wrap64 q * wrap64 fc)).trans e1
  have e3 : 0 + wrap64 (wrap64 q * wrap64 fc) ≡ q * fc [ZMOD 2 ^ 64] := by
    rw [zero_add]; exact e2
  have e4 := ((wrap64_modEq _).trans e3).add (wrap64_modEq f0)
  rw [add_zero]
  exact e4

theorem calculateSignedChunkLength_eq (n : Int) :
    calculateSignedChunkLength n = wrap64 (frame n) := rfl

/-- For positive lengths the code computes the formula in 64-bit arithmetic. -/
theorem calculateStreamContentLength_wrap (dataLen chunkSize : Int)
    (hd : 1 ≤ dataLen) (hc : 1 ≤ chunkSize) :
    calculateStreamContentLength dataLen chunkSize =
      some (wrap64 (streamFormula dataLen chunkSize)) := by
  have hq : Int.tdiv dataLen chunkSize = dataLen / chunkSize :=
    Int.tdiv_eq_ediv (by omega) (by omega)
  have hr : Int.tmod dataLen chunkSize = dataLen % chunkSize :=
    Int.tmod_eq_emod (by omega) (by omega)
  unfold calculateStreamContentLength streamFormula
  rw [if_neg (by omega), if_neg (by omega), hq, hr]
  simp only [calculateSignedChunkLength_eq]
  by_cases h : dataLen % chunkSize > 0
  · rw [if_pos h, if_pos h, wrap64_stream]
  · rw [if_neg h, if_neg h, wrap64_stream_no_rest]

theorem frame_nonneg (n : Int) (h : 0 ≤ n) : 0 ≤ frame n := by
  unfold frame
  have : (0 : Int) ≤ ((sprintfHex n).length : Int) := Int.natCast_nonneg _
  omega

theorem streamFormula_nonneg (dataLen chunkSize : Int) (hd : 1 ≤ dataLen) (hc : 1 ≤ chunkSize) :
    0 ≤ streamFormula dataLen chunkSize := by
  unfold streamFormula
  have h1 : 0 ≤ dataLen / chunkSize := Int.ediv_nonneg (by omega) (by omega)
  have h2 := frame_nonneg chunkSize (by omega)
  have h3 := frame_nonneg 0 (le_refl _)
  have h4 : 0 ≤ dataLen % chunkSize := Int.emod_nonneg _ (by omega)
  have h5 := frame_nonneg (dataLen % chunkSize) h4
  have h6 : 0 ≤ dataLen / chunkSize * frame chunkSize := mul_nonneg h1 h2
  split_ifs <;> omega

/-- C23, counterexample: for `dataLen = 2^62` and `chunkSize = 1` the formula
is `2^62 * 87 + 86`, which does not fit an `int64`; the code returns the
negative number `-2^62 + 86`. -/
theorem calculateStreamContentLength_overflow :
    streamFormula (2 ^ 62) 1 = 2 ^ 62 * 87 + 86 ∧
    calculateStreamContentLength (2 ^ 62) 1 = some (-2 ^ 62 + 86) ∧
    calculateStreamContentLength (2 ^ 62) 1 ≠ some (streamFormula (2 ^ 62) 1) := by
  have hf : streamFormula (2 ^ 62) 1 = 2 ^ 62 * 87 + 86 := by
    have f1 : frame 1 = 87 := by decide
    have f0 : frame 0 = 86 := by decide
    unfold streamFormula
    rw [f1, f0]
    norm_num
  have hc : calculateStreamContentLength (2 ^ 62) 1 = some (-2 ^ 62 + 86) := by
    rw [calculateStreamContentLength_wrap _ _ (by norm_num) (by norm_num), hf]
    unfold wrap64
    norm_num
  refine ⟨hf, hc, ?_⟩
  rw [hc, hf]
  norm_num

/-- C23, amended: for `dataLen >= 1` and `chunkSize >= 1` whose formula value
fits an `int64`, `calculateStreamContentLength` is the number of full chunks
times the frame of a full chunk, plus the frame of the remainder chunk if
there is one, plus the frame of the zero-length chunk, a frame being
`len(hex(n)) + 17 + 64 + 2 + n + 2`, which is `calculateSignedChunkLength(n)`. -/
theorem calculateStreamContentLength_formula (dataLen chunkSize : Int)
    (hd : 1 ≤ dataLen) (hc : 1 ≤ chunkSize)
    (hfit : streamFormula dataLen chunkSize < 2 ^ 63) :
    calculateStreamContentLength dataLen chunkSize = some (streamFormula dataLen chunkSize) ∧
    (dataLen / chunkSize ≠ 0 → calculateSignedChunkLength chunkSize = frame chunkSize) ∧
    (dataLen % chunkSize > 0 →
      calculateSignedChunkLength (dataLen % chunkSize) = frame (dataLen % chunkSize)) ∧
    calculateSignedChunkLength 0 = frame 0 ∧ frame 0 = 86 := by
  have hnn := streamFormula_nonneg dataLen chunkSize hd hc
  have h1 : 0 ≤ dataLen / chunkSize := Int.ediv_nonneg (by omega) (by omega)
  have h2 := frame_nonneg chunkSize (by omega)
  have h4 : 0 ≤ dataLen % chunkSize := Int.emod_nonneg _ (by omega)
  have h5 := frame_nonneg (dataLen % chunkSize) h4
  have h3 : frame 0 = 86 := by decide
  refine ⟨?_, ?_, ?_, by decide, h3⟩
  · rw [calculateStreamContentLength_wrap _ _ hd hc, wrap64_of_range _ (by omega) hfit]
  · intro hq
    rw [calculateSignedChunkLength_eq]
    apply wrap64_of_range _ (by omega)
    have hq1 : 1 ≤ dataLen / chunkSize := by omega
    have : frame chunkSize ≤ dataLen / chunkSize * frame chunkSize := by nlinarith
    unfold streamFormula at hfit
    split_ifs at hfit <;> omega
  · intro hr
    rw [calculateSignedChunkLength_eq]
    apply wrap64_of_range _ (by omega)
    have : 0 ≤ dataLen / chunkSize * frame chunkSize := mul_nonneg h1 h2
    unfold streamFormula at hfit
    rw [if_pos hr] at hfit
    omega

/-- Witness of `calculateStreamContentLength_formula`: 70000 bytes in chunks of
65536 give 65626 + 4553 + 86 = 70265. -/
theorem calculateStreamContentLength_formula_witness :
    streamFormula 70000 65536 = 65626 + 4553 + 86 ∧
    calculateStreamContentLength 70000 65536 = some 70265 := by
  have hf : streamFormula 70000 65536 = 65626 + 4553 + 86 := by decide
  refine ⟨hf, ?_⟩
  have h := (calculateStreamContentLength_formula 70000 65536 (by norm_num) (by norm_num)
    (by rw [hf]; norm_num)).1
  rw [h, hf]
  rfl

/-- C24, counterexample: for an empty body the code returns 0, not the 86
bytes of the frame of the zero-length chunk. -/
theorem calculateStreamContentLength_empty_body :
    calculateStreamContentLength 0 65536 = some 0 ∧ frame 0 = 86 ∧
    calculateStreamContentLength 0 65536 ≠ some (frame 0) := by
  refine ⟨by decide, by decide, by decide⟩

/-- C24, amended: for an empty body, and for any `dataLen` that is not
positive, `calculateStreamContentLength` returns 0 whatever the chunk size:
the frame of the zero-length chunk is not counted. -/
theorem calculateStreamContentLength_not_positive (dataLen chunkSize : Int)
    (h : dataLen ≤ 0) : calculateStreamContentLength dataLen chunkSize = some 0 := by
  rw [calculateStreamContentLength, if_pos h]

/-- Witness of `calculateStreamContentLength_not_positive`: an empty body and
chunks of 65536 bytes. -/
theorem calculateStreamContentLength_not_positive_witness :
    (0 : Int) ≤ 0 ∧ calculateStreamContentLength 0 65536 = some 0 :=
  ⟨le_refl _, calculateStreamContentLength_not_positive 0 65536 (le_refl _)⟩
end S3Verify

namespace Xray

open V4

/-! ## The full frame rectangle -/

/-- The field `Height` is never read: the result is the same for every height. -/
theorem GetFullFrameRect_ignores_Height (fr : frameRecord) (height : Str) :
    (frameRecord.mk fr.ClientID
        ⟨fr.Frame.ID, fr.Frame.Format, fr.Frame.Width, height, fr.Frame.Rotation,
          fr.Frame.Timestamp⟩ fr.Faces).GetFullFrameRect = fr.GetFullFrameRect := rfl

/-- The rectangle returned is a square: its height is its width. -/
theorem GetFullFrameRect_square (fr : frameRecord) :
    fr.GetFullFrameRect.1.Max.Y = fr.GetFullFrameRect.1.Max.X := by
  unfold frameRecord.GetFullFrameRect
  cases Atoi fr.Frame.Width <;> cases Atoi fr.Frame.ID <;> rfl

/-- C26, the code at the failing input: for a frame record with width "960",
height "720" and id "1", all decimal integers, `GetFullFrameRect` returns the
rectangle (0,0)-(960,960), the id 1 and a nil error: the height is converted
from the width field. -/
theorem GetFullFrameRect_height_is_width :
    Atoi (lit "960") = .ok 960 ∧ Atoi (lit "720") = .ok 720 ∧ Atoi (lit "1") = .ok 1 ∧
    (frameOf (lit "1")).Frame.Width = lit "960" ∧
    (frameOf (lit "1")).Frame.Height = lit "720" ∧
    (frameOf (lit "1")).GetFullFrameRect = (⟨⟨0, 0⟩, ⟨960, 960⟩⟩, 1, none) ∧
    (frameOf (lit "1")).GetFullFrameRect.1 ≠ ⟨⟨0, 0⟩, ⟨960, 720⟩⟩ := by
  refine ⟨by rfl, by rfl, by rfl, rfl, rfl, by rfl, by decide⟩

/-! ## Old snapshot timestamps -/

/-- A single timestamp that is too old is kept, whatever its age. -/
theorem keptTimestamps_single (clock : Nat → Int) (t : Int) (tick : Nat) :
    keptTimestamps clock [t] tick = [t] := by
  unfold keptTimestamps
  by_cases h : clock tick - t ≥ maxTimestampsAge
  · simp [thresholdScan, h]
  · simp [thresholdScan, h]

/-- C28, the code at the failing input: a recorder whose only snapshot
timestamp is 61 seconds old still holds it after `threshold()`; and of the
timestamps 0 s, 1 s and 100 s at the time 101 s only the first is removed, the
one of 1 s, which is 100 seconds old, stays. -/
theorem threshold_keeps_old_timestamp :
    ((motionRecorder.mk none false [] [0]).threshold intFloat
      (fun _ => 61000000000) 0).2.1.snapshotTimestamps = [0] ∧
    (61000000000 : Int) - 0 ≥ maxTimestampsAge ∧
    ((motionRecorder.mk none false [] [0, 1000000000, 100000000000]).threshold intFloat
      (fun _ => 101000000000) 0).2.1.snapshotTimestamps = [1000000000, 100000000000] ∧
    (101000000000 : Int) - 1000000000 ≥ maxTimestampsAge := by
  refine ⟨by decide, by decide, by decide, by decide⟩

/-! ## The closest rectangle -/

theorem square_mod_four (x : Int) : x * x % 4 = 0 ∨ x * x % 4 = 1 := by
  have h : x % 4 = 0 ∨ x % 4 = 1 ∨ x % 4 = 2 ∨ x % 4 = 3 := by omega
  rw [Int.mul_emod]
  rcases h with h | h | h | h <;> rw [h] <;> norm_num

/-- The value of `di` is never `math.MaxInt64`: a sum of two squares is not 3
modulo 4. -/
theorem squareDistance_lt (px py nx ny : Int) : squareDistance px py nx ny < 2 ^ 63 - 1 := by
  have hr := wrap64_range (wrap64 (wrap64 (px - nx) * wrap64 (px - nx)) +
    wrap64 (wrap64 (py - ny) * wrap64 (py - ny)))
  have hm : squareDistance px py nx ny ≡
      wrap64 (px - nx) * wrap64 (px - nx) + wrap64 (py - ny) * wrap64 (py - ny) [ZMOD 2 ^ 64] :=
    (wrap64_modEq _).trans ((wrap64_modEq _).add (wrap64_modEq _))
  have h4 : squareDistance px py nx ny ≡
      wrap64 (px - nx) * wrap64 (px - nx) + wrap64 (py - ny) * wrap64 (py - ny) [ZMOD 4] :=
    Int.ModEq.of_dvd (by norm_num) hm
  have hx := square_mod_four (wrap64 (px - nx))
  have hy := square_mod_four (wrap64 (py - ny))
  unfold Int.ModEq at h4
  rw [Int.add_emod] at h4
  have hne : squareDistance px py nx ny ≠ 2 ^ 63 - 1 := by
    intro he
    rw [he] at h4
    rcases hx with hx | hx <;> rcases hy with hy | hy <;> rw [hx, hy] at h4 <;> norm_num at h4
  unfold squareDistance at hne ⊢
  omega

theorem findClosestFrom_range (px py : Int) (rest : List Rectangle) :
    ∀ j n distance : Int,
      findClosestFrom px py rest j n distance = n ∨
      (j ≤ findClosestFrom px py rest j n distance ∧
        findClosestFrom px py rest j n distance < j + rest.length) := by
  induction rest with
  | nil => intro j n distance; left; rfl
  | cons next rest ih =>
    intro j n distance
    rw [findClosestFrom]
    split_ifs
    · right
      rcases ih (j + 1) j (squareDistance px py next.centerX next.centerY) with h | h
      · rw [h, List.length_cons]; push_cast; omega
      · rw [List.length_cons]; push_cast; omega
    · rcases ih (j + 1) n distance with h | h
      · left; exact h
      · right; rw [List.length_cons]; push_cast; omega

/-- For a list of faces that is not empty the index returned is in range, and
for an empty list it is -1. -/
theorem findClosestRectangle_in_range (face : Rectangle) (faces : List Rectangle) :
    (faces = [] → findClosestRectangle face faces = -1) ∧
    (faces ≠ [] → 0 ≤ findClosestRectangle face faces ∧
      findClosestRectangle face faces < faces.length) := by
  constructor
  · rintro rfl; rfl
  · intro hne
    cases faces with
    | nil => exact absurd rfl hne
    | cons next rest =>
      unfold findClosestRectangle
      rw [findClosestFrom, if_pos (squareDistance_lt _ _ _ _), zero_add, List.length_cons]
      have h := findClosestFrom_range face.centerX face.centerY rest 1 0
        (squareDistance face.centerX face.centerY next.centerX next.centerY)
      push_cast
      rcases h with h | h
      · rw [h]; omega
      · omega

/-- What the code takes for the centre of a rectangle is its `Max` corner. -/
theorem centerX_eq_Max (r : Rectangle) : r.centerX = wrap64 r.Max.X ∧ r.centerY = wrap64 r.Max.Y := by
  constructor
  · unfold Rectangle.centerX Rectangle.Dx
    apply wrap64_congr
    have := (Int.ModEq.refl r.Min.X).add (wrap64_modEq (r.Max.X - r.Min.X))
    exact this.trans (by rw [add_sub_cancel])
  · unfold Rectangle.centerY Rectangle.Dy
    apply wrap64_congr
    have := (Int.ModEq.refl r.Min.Y).add (wrap64_modEq (r.Max.Y - r.Min.Y))
    exact this.trans (by rw [add_sub_cancel])

/-- C30, the code at the failing input: for the face (0,0)-(10,10) and the
faces (4,4)-(6,6) and (9,9)-(11,11) the first has the same centre as the face
and the second a centre at squared distance 50, but `findClosestRectangle`
returns the index 1: it adds the whole width and height to `Min` and so
compares the `Max` corners, (6,6) and (11,11) against (10,10). -/
theorem findClosestRectangle_compares_corners :
    squaredEuclidean (centre (Rect 4 4 6 6)) (centre (Rect 0 0 10 10)) = 0 ∧
    squaredEuclidean (centre (Rect 9 9 11 11)) (centre (Rect 0 0 10 10)) = 50 ∧
    findClosestRectangle (Rect 0 0 10 10) [Rect 4 4 6 6, Rect 9 9 11 11] = 1 ∧
    (Rect 0 0 10 10).centerX = 10 ∧ (Rect 0 0 10 10).centerY = 10 ∧
    squareDistance 10 10 (Rect 4 4 6 6).centerX (Rect 4 4 6 6).centerY = 32 ∧
    squareDistance 10 10 (Rect 9 9 11 11).centerX (Rect 9 9 11 11).centerY = 2 := by
  refine ⟨by decide, by decide, by decide, by decide, by decide, by decide, by decide⟩

/-! ## The zoom factor -/

theorem Empty_iff (r : Rectangle) :
    r.Empty = true ↔ r.Max.X ≤ r.Min.X ∨ r.Max.Y ≤ r.Min.Y := by
  simp [Rectangle.Empty]

theorem Empty_false_iff (r : Rectangle) :
    r.Empty = false ↔ r.Min.X < r.Max.X ∧ r.Min.Y < r.Max.Y := by
  rw [← Bool.not_eq_true, Empty_iff]
  omega

theorem In_of_nonempty (r s : Rectangle) (h : r.Empty = false) :
    r.In s = true ↔
      s.Min.X ≤ r.Min.X ∧ r.Max.X ≤ s.Max.X ∧ s.Min.Y ≤ r.Min.Y ∧ r.Max.Y ≤ s.Max.Y := by
  simp [Rectangle.In, h, and_assoc]

/-- The union of two rectangles is empty exactly when both are. -/
theorem Union_Empty (r s : Rectangle) : (r.Union s).Empty = (r.Empty && s.Empty) := by
  unfold Rectangle.Union
  cases hr : r.Empty
  · cases hs : s.Empty
    · simp only [Bool.false_eq_true, if_false, Bool.and_self]
      rw [Empty_false_iff] at hr hs ⊢
      simp only
      split_ifs <;> omega
    · simp [hr]
  · simp

theorem foldl_Union_Empty (rects : List Rectangle) :
    ∀ acc : Rectangle, (rects.foldl Rectangle.Union acc).Empty =
      (acc.Empty && rects.all Rectangle.Empty) := by
  induction rects with
  | nil => intro acc; simp
  | cons r rects ih =>
    intro acc
    rw [List.foldl_cons, ih, Union_Empty, List.all_cons, Bool.and_assoc]

/-- The union of a list of rectangles is empty exactly when each of them is. -/
theorem unionAll_Empty (rects : List Rectangle) :
    (unionAll rects).Empty = true ↔ ∀ r ∈ rects, r.Empty = true := by
  unfold unionAll
  rw [foldl_Union_Empty]
  have : ZR.Empty = true := by decide
  simp [this]

/-- A rectangle that is not empty and lies in a rectangle that lies in a third
one lies in the third. -/
theorem In_trans (a b c : Rectangle) (ha : a.Empty = false) (hab : a.In b = true)
    (hbc : b.In c = true) : a.In c = true := by
  rw [In_of_nonempty a b ha] at hab
  have hb : b.Empty = false := by
    rw [Empty_false_iff] at ha ⊢
    omega
  rw [In_of_nonempty b c hb] at hbc
  rw [In_of_nonempty a c ha]
  omega

theorem zoom_values (rects : List Rectangle) (box : Rectangle) :
    calculateOptimalZoomFactor rects box ∈ ([-5, -1, 0, 5, 10, 15] : List Int) := by
  unfold calculateOptimalZoomFactor zoomBoost
  split_ifs <;> decide

theorem zoom_eq_neg_one (rects : List Rectangle) (box : Rectangle) :
    calculateOptimalZoomFactor rects box = -1 ↔ (unionAll rects).Empty = true := by
  unfold calculateOptimalZoomFactor zoomBoost
  split_ifs with h <;> simp_all

/-- C27: for a bounding box and two lists of rectangles with non-empty unions,
the union of the first inside the union of the second, the zoom factor of the
first list is not lower than that of the second. The zoom factor is always one
of -5, -1, 0, 5, 10 and 15, and it is -1 exactly when every rectangle given is
empty. -/
theorem calculateOptimalZoomFactor_monotone (A B : List Rectangle) (box : Rectangle)
    (hA : (unionAll A).Empty = false) (hB : (unionAll B).Empty = false)
    (hin : (unionAll A).In (unionAll B) = true) :
    calculateOptimalZoomFactor B box ≤ calculateOptimalZoomFactor A box ∧
    (∀ (rects : List Rectangle) (boundingBox : Rectangle),
      calculateOptimalZoomFactor rects boundingBox ∈ ([-5, -1, 0, 5, 10, 15] : List Int)) ∧
    (∀ (rects : List Rectangle) (boundingBox : Rectangle),
      calculateOptimalZoomFactor rects boundingBox = -1 ↔ ∀ r ∈ rects, r.Empty = true) := by
  refine ⟨?_, zoom_values, fun rects bb => (zoom_eq_neg_one rects bb).trans (unionAll_Empty rects)⟩
  have ht : ∀ c, (unionAll B).In c = true → (unionAll A).In c = true :=
    fun c h => In_trans _ _ c hA hin h
  unfold calculateOptimalZoomFactor zoomBoost
  rw [hA, hB]
  simp only [Bool.false_eq_true, if_false]
  split_ifs with b3 a3 a2 a1 a0 b2 a3 a2 a1 a0 b1 a3 a2 a1 a0 b0 a3 a2 a1 a0 <;>
    first
    | decide
    | exact absurd (ht _ b3) a3
    | exact absurd (ht _ b2) a2
    | exact absurd (ht _ b1) a1
    | exact absurd (ht _ b0) a0

/-- Witness of `calculateOptimalZoomFactor_monotone`: in the box
(0,0)-(960,720) a face of 50 by 50 in the middle gets the zoom factor 15 and a
face of 250 by 250 around it the zoom factor 10. -/
theorem calculateOptimalZoomFactor_monotone_witness :
    (unionAll [Rect 455 335 505 385]).In (unionAll [Rect 355 235 605 485]) = true ∧
    calculateOptimalZoomFactor [Rect 455 335 505 385] (Rect 0 0 960 720) = 15 ∧
    calculateOptimalZoomFactor [Rect 355 235 605 485] (Rect 0 0 960 720) = 10 ∧
    calculateOptimalZoomFactor [Rect 355 235 605 485] (Rect 0 0 960 720) ≤
      calculateOptimalZoomFactor [Rect 455 335 505 385] (Rect 0 0 960 720) := by
  have h1 : (unionAll [Rect 455 335 505 385]).In (unionAll [Rect 355 235 605 485]) = true := by
    decide
  have h2 : (unionAll [Rect 455 335 505 385]).Empty = false := by decide
  have h3 : (unionAll [Rect 355 235 605 485]).Empty = false := by decide
  have h4 : calculateOptimalZoomFactor [Rect 455 335 505 385] (Rect 0 0 960 720) = 15 := by
    set_option maxRecDepth 4000 in decide
  have h5 : calculateOptimalZoomFactor [Rect 355 235 605 485] (Rect 0 0 960 720) = 10 := by
    set_option maxRecDepth 4000 in decide
  exact ⟨h1, h4, h5,
    (calculateOptimalZoomFactor_monotone [Rect 455 335 505 385] [Rect 355 235 605 485]
      (Rect 0 0 960 720) h2 h3 h1).1⟩

/-! ## The area of the difference of two rectangles -/

theorem max_of_le {a b : Int} (h : a ≤ b) : max a b = b := by
  unfold max; split_ifs <;> omega

theorem max_of_ge {a b : Int} (h : b ≤ a) : max a b = a := by
  unfold max; split_ifs <;> omega

theorem min_of_le {a b : Int} (h : a ≤ b) : min a b = a := by
  unfold min; split_ifs <;> omega

theorem min_of_ge {a b : Int} (h : b ≤ a) : min a b = b := by
  unfold min; split_ifs <;> omega

theorem Rect_ordered {x0 y0 x1 y1 : Int} (hx : x0 ≤ x1) (hy : y0 ≤ y1) :
    Rect x0 y0 x1 y1 = ⟨⟨x0, y0⟩, ⟨x1, y1⟩⟩ := by
  unfold Rect
  rw [if_neg (by omega), if_neg (by omega), if_neg (by omega), if_neg (by omega)]

theorem area_Rect {x0 y0 x1 y1 : Int} (hx : x0 ≤ x1) (hy : y0 ≤ y1) :
    area (Rect x0 y0 x1 y1) = (x1 - x0) * (y1 - y0) := by
  rw [Rect_ordered hx hy]; rfl

theorem Rect_wellFormed (x0 y0 x1 y1 : Int) : (Rect x0 y0 x1 y1).wellFormed := by
  unfold Rect Rectangle.wellFormed
  constructor <;> simp only <;> split_ifs <;> omega

theorem area_nonneg (r : Rectangle) (h : r.wellFormed) : 0 ≤ area r := by
  unfold area
  exact mul_nonneg (by have := h.1; omega) (by have := h.2; omega)

theorem sumAreas_step (acc : Int) (r : Rectangle) :
    wrap64 (acc + wrap64 (r.Dx * r.Dy)) ≡ acc + area r [ZMOD 2 ^ 64] := by
  refine (wrap64_modEq _).trans ((Int.ModEq.refl acc).add ?_)
  exact (wrap64_modEq _).trans ((wrap64_modEq _).mul (wrap64_modEq _))

theorem sumAreas_foldl (rects : List Rectangle) :
    ∀ acc : Int,
      rects.foldl (fun diff r => wrap64 (diff + wrap64 (r.Dx * r.Dy))) acc ≡
        acc + (rects.map area).sum [ZMOD 2 ^ 64] ∧
      (-2 ^ 63 ≤ acc → acc < 2 ^ 63 →
        -2 ^ 63 ≤ rects.foldl (fun diff r => wrap64 (diff + wrap64 (r.Dx * r.Dy))) acc ∧
        rects.foldl (fun diff r => wrap64 (diff + wrap64 (r.Dx * r.Dy))) acc < 2 ^ 63) := by
  induction rects with
  | nil => intro acc; exact ⟨by simp [Int.ModEq], fun h1 h2 => ⟨h1, h2⟩⟩
  | cons r rects ih =>
    intro acc
    obtain ⟨h1, h2⟩ := ih (wrap64 (acc + wrap64 (r.Dx * r.Dy)))
    have hr := wrap64_range (acc + wrap64 (r.Dx * r.Dy))
    refine ⟨?_, fun _ _ => h2 hr.1 hr.2⟩
    rw [List.foldl_cons, List.map_cons, List.sum_cons, ← add_assoc]
    exact h1.trans ((sumAreas_step acc r).add (Int.ModEq.refl _))

/-- The sum that `sumAreas` computes is the sum of the areas in 64-bit
arithmetic. -/
theorem sumAreasInt_eq (rects : List Rectangle) :
    sumAreasInt rects = wrap64 ((rects.map area).sum) := by
  obtain ⟨h1, h2⟩ := sumAreas_foldl rects 0
  obtain ⟨h3, h4⟩ := h2 (by norm_num) (by norm_num)
  unfold sumAreasInt
  rw [← wrap64_of_range _ h3 h4]
  apply wrap64_congr
  rw [zero_add] at h1
  exact h1

theorem Intersect_of_Empty (r s : Rectangle) (h : (r.Intersect s).Empty = true) :
    r.Intersect s = ZR := by
  unfold Rectangle.Intersect at h ⊢
  by_cases ht : (r.clip s).Empty = true
  · rw [if_pos ht]
  · rw [if_neg ht] at h
    exact absurd h ht

theorem Intersect_of_not_Empty (r s : Rectangle) (h : (r.Intersect s).Empty = false) :
    r.Intersect s = r.clip s ∧ (r.clip s).Min.X < (r.clip s).Max.X ∧
      (r.clip s).Min.Y < (r.clip s).Max.Y := by
  unfold Rectangle.Intersect at h ⊢
  by_cases ht : (r.clip s).Empty = true
  · rw [if_pos ht] at h
    exact absurd h (by decide)
  · rw [if_neg ht]
    exact ⟨rfl, (Empty_false_iff _).1 (by simpa using ht)⟩

/-- The areas of the pieces that `XorRects` returns for sorted coordinates. -/
theorem xorPieces_sum (r s : Rectangle) (a b c d e f g h : Int)
    (hab : a ≤ b) (hbc : b ≤ c) (hcd : c ≤ d) (hef : e ≤ f) (hfg : f ≤ g) (hgh : g ≤ h) :
    ((xorPieces r s a b c d e f g h).map area).sum =
      (c - b) * (f - e) + (b - a) * (g - f) + (d - c) * (g - f) + (c - b) * (h - g) +
        (if (r.Min.X = a ∧ r.Min.Y = e) ∨ (s.Min.X = a ∧ s.Min.Y = e) then
          (b - a) * (f - e) + (d - c) * (h - g)
        else (d - c) * (f - e) + (b - a) * (h - g)) := by
  unfold xorPieces
  split_ifs
  · simp only [List.cons_append, List.nil_append, List.map_cons, List.map_nil, List.sum_cons,
      List.sum_nil, area_Rect hbc hef, area_Rect hab hfg, area_Rect hcd hfg, area_Rect hbc hgh,
      area_Rect hab hef, area_Rect hcd hgh]
    ring
  · simp only [List.cons_append, List.nil_append, List.map_cons, List.map_nil, List.sum_cons,
      List.sum_nil, area_Rect hbc hef, area_Rect hab hfg, area_Rect hcd hfg, area_Rect hbc hgh,
      area_Rect hcd hef, area_Rect hab hgh]
    ring

theorem xorPieces_wellFormed (r s : Rectangle) (a b c d e f g h : Int) :
    ∀ p ∈ xorPieces r s a b c d e f g h, p.wellFormed := by
  intro p hp
  unfold xorPieces at hp
  split_ifs at hp <;>
    simp only [List.cons_append, List.nil_append, List.mem_cons, List.mem_nil_iff,
      or_false] at hp <;>
    rcases hp with rfl | rfl | rfl | rfl | rfl | rfl <;> exact Rect_wellFormed _ _ _ _

theorem sum_area_nonneg (rects : List Rectangle) (h : ∀ p ∈ rects, p.wellFormed) :
    0 ≤ (rects.map area).sum := by
  apply List.sum_nonneg
  intro x hx
  obtain ⟨p, hp, rfl⟩ := List.mem_map.1 hx
  exact area_nonneg p (h p hp)

/-- For two rectangles that do not overlap, or of which one lies to the lower
left or to the upper left of the other, the areas of the rectangles of
`XorRects` add up to the area of the symmetric difference. -/
theorem XorRects_area_sum (r s : Rectangle)
    (hcase : (r.Intersect s).Empty = true ∨ lowerLeft r s ∨ lowerLeft s r ∨
      upperLeft r s ∨ upperLeft s r) :
    ((XorRects r s).map area).sum = area r + area s - 2 * area (r.Intersect s) := by
  by_cases he : (r.Intersect s).Empty = true
  · rw [XorRects, if_pos he, Intersect_of_Empty r s he]
    simp [area, ZR]
  · have he2 : (r.Intersect s).Empty = false := by simpa using he
    obtain ⟨hi, hx, hy⟩ := Intersect_of_not_Empty r s he2
    rw [XorRects, if_neg he, hi]
    simp only [Rectangle.clip]
    rcases hcase with h | ⟨h1, h2, h3, h4⟩ | ⟨h1, h2, h3, h4⟩ | ⟨h1, h2, h3, h4⟩ |
      ⟨h1, h2, h3, h4⟩
    · exact absurd h he
    · have e1 : (if r.Min.X < s.Min.X then s.Min.X else r.Min.X) = s.Min.X := by
        split_ifs <;> omega
      have e2 : (if r.Min.Y < s.Min.Y then s.Min.Y else r.Min.Y) = s.Min.Y := by
        split_ifs <;> omega
      have e3 : (if r.Max.X > s.Max.X then s.Max.X else r.Max.X) = r.Max.X := by
        split_ifs <;> omega
      have e4 : (if r.Max.Y > s.Max.Y then s.Max.Y else r.Max.Y) = r.Max.Y := by
        split_ifs <;> omega
      simp only [Rectangle.clip] at hx hy
      rw [e1, e3] at hx
      rw [e2, e4] at hy
      rw [e1, e2, e3, e4, min_of_le h1, max_of_le h1, min_of_le h3, max_of_le h3, min_of_le h2,
        max_of_le h2, min_of_le h4, max_of_le h4,
        xorPieces_sum r s _ _ _ _ _ _ _ _ h1 (by omega) h3 h2 (by omega) h4,
        if_pos (Or.inl ⟨rfl, rfl⟩)]
      simp only [area]
      ring
    · have e1 : (if r.Min.X < s.Min.X then s.Min.X else r.Min.X) = r.Min.X := by
        split_ifs <;> omega
      have e2 : (if r.Min.Y < s.Min.Y then s.Min.Y else r.Min.Y) = r.Min.Y := by
        split_ifs <;> omega
      have e3 : (if r.Max.X > s.Max.X then s.Max.X else r.Max.X) = s.Max.X := by
        split_ifs <;> omega
      have e4 : (if r.Max.Y > s.Max.Y then s.Max.Y else r.Max.Y) = s.Max.Y := by
        split_ifs <;> omega
      simp only [Rectangle.clip] at hx hy
      rw [e1, e3] at hx
      rw [e2, e4] at hy
      rw [e1, e2, e3, e4, min_of_ge h1, max_of_ge h1, min_of_ge h3, max_of_ge h3, min_of_ge h2,
        max_of_ge h2, min_of_ge h4, max_of_ge h4,
        xorPieces_sum r s _ _ _ _ _ _ _ _ h1 (by omega) h3 h2 (by omega) h4,
        if_pos (Or.inr ⟨rfl, rfl⟩)]
      simp only [area]
      ring
    · have e1 : (if r.Min.X < s.Min.X then s.Min.X else r.Min.X) = s.Min.X := if_pos h1
      have e2 : (if r.Min.Y < s.Min.Y then s.Min.Y else r.Min.Y) = r.Min.Y := by
        split_ifs <;> omega
      have e3 : (if r.Max.X > s.Max.X then s.Max.X else r.Max.X) = r.Max.X := by
        split_ifs <;> omega
      have e4 : (if r.Max.Y > s.Max.Y then s.Max.Y else r.Max.Y) = s.Max.Y := by
        split_ifs <;> omega
      simp only [Rectangle.clip] at hx hy
      rw [e1, e3] at hx
      rw [e2, e4] at hy
      have c1 : ¬ ((r.Min.X = r.Min.X ∧ r.Min.Y = s.Min.Y) ∨
          (s.Min.X = r.Min.X ∧ s.Min.Y = s.Min.Y)) := by omega
      rw [e1, e2, e3, e4, min_of_le (le_of_lt h1), max_of_le (le_of_lt h1), min_of_le h3,
        max_of_le h3, min_of_ge (le_of_lt h2), max_of_ge (le_of_lt h2), min_of_ge h4,
        max_of_ge h4,
        xorPieces_sum r s _ _ _ _ _ _ _ _ (le_of_lt h1) (by omega) h3 (le_of_lt h2) (by omega) h4,
        if_neg c1]
      simp only [area]
      ring
    · have e1 : (if r.Min.X < s.Min.X then s.Min.X else r.Min.X) = r.Min.X := by
        split_ifs <;> omega
      have e2 : (if r.Min.Y < s.Min.Y then s.Min.Y else r.Min.Y) = s.Min.Y := if_pos h2
      have e3 : (if r.Max.X > s.Max.X then s.Max.X else r.Max.X) = s.Max.X := by
        split_ifs <;> omega
      have e4 : (if r.Max.Y > s.Max.Y then s.Max.Y else r.Max.Y) = r.Max.Y := by
        split_ifs <;> omega
      simp only [Rectangle.clip] at hx hy
      rw [e1, e3] at hx
      rw [e2, e4] at hy
      have c1 : ¬ ((r.Min.X = s.Min.X ∧ r.Min.Y = r.Min.Y) ∨
          (s.Min.X = s.Min.X ∧ s.Min.Y = r.Min.Y)) := by omega
      rw [e1, e2, e3, e4, min_of_ge (le_of_lt h1), max_of_ge (le_of_lt h1), min_of_ge h3,
        max_of_ge h3, min_of_le (le_of_lt h2), max_of_le (le_of_lt h2), min_of_le h4,
        max_of_le h4,
        xorPieces_sum r s _ _ _ _ _ _ _ _ (le_of_lt h1) (by omega) h3 (le_of_lt h2) (by omega) h4,
        if_neg c1]
      simp only [area]
      ring

theorem XorRects_wellFormed (r s : Rectangle) (hr : r.wellFormed) (hs : s.wellFormed) :
    ∀ p ∈ XorRects r s, p.wellFormed := by
  intro p hp
  unfold XorRects at hp
  split_ifs at hp
  · simp only [List.mem_cons, List.mem_nil_iff, or_false] at hp
    rcases hp with rfl | rfl
    · exact hr
    · exact hs
  · exact xorPieces_wellFormed _ _ _ _ _ _ _ _ _ _ p hp

theorem area_Intersect_nonneg (r s : Rectangle) : 0 ≤ area (r.Intersect s) := by
  cases he : (r.Intersect s).Empty
  · obtain ⟨hi, hx, hy⟩ := Intersect_of_not_Empty r s he
    rw [hi]
    unfold area
    exact mul_nonneg (by omega) (by omega)
  · rw [Intersect_of_Empty r s he]; decide

/-- C25, counterexample: (100,100)-(200,200) lies inside (99,99)-(201,201); the
area of the difference is 10404 - 10000 = 404, but the rectangles of
`XorRects` add up to 402, the number the test of the repository expects: two
of the four corner pieces are left out. For (0,0)-(30,30) around
(10,10)-(20,20) they add up to 600, not 800. -/
theorem XorRects_nested_misses_corners :
    sumAreasInt (XorRects (Rect 100 100 200 200) (Rect 99 99 201 201)) = 402 ∧
    area (Rect 100 100 200 200) + area (Rect 99 99 201 201) -
      2 * area ((Rect 100 100 200 200).Intersect (Rect 99 99 201 201)) = 404 ∧
    sumAreasInt (XorRects (Rect 0 0 30 30) (Rect 10 10 20 20)) = 600 ∧
    area (Rect 0 0 30 30) + area (Rect 10 10 20 20) -
      2 * area ((Rect 0 0 30 30).Intersect (Rect 10 10 20 20)) = 800 := by
  refine ⟨by set_option maxRecDepth 4000 in decide, by decide,
    by set_option maxRecDepth 4000 in decide, by decide⟩

/-- C25, amended: for two well-formed rectangles whose areas add up to less
than 2^63 and that do not overlap, or of which one lies to the lower left or
to the upper left of the other, the areas of the rectangles of `XorRects` add
up to `area(r) + area(s) - 2 * area(r intersect s)`, and `sumAreas` returns
that number as a `float64`. -/
theorem XorRects_area (r s : Rectangle) (hr : r.wellFormed) (hs : s.wellFormed)
    (hcase : (r.Intersect s).Empty = true ∨ lowerLeft r s ∨ lowerLeft s r ∨
      upperLeft r s ∨ upperLeft s r)
    (hfit : area r + area s < 2 ^ 63) :
    sumAreasInt (XorRects r s) = area r + area s - 2 * area (r.Intersect s) ∧
    ∀ (F : Type) (fl : Float64 F),
      sumAreas fl (XorRects r s) = fl.ofInt (area r + area s - 2 * area (r.Intersect s)) := by
  have h1 := XorRects_area_sum r s hcase
  have h2 := sum_area_nonneg _ (XorRects_wellFormed r s hr hs)
  have h3 := area_Intersect_nonneg r s
  have h4 : sumAreasInt (XorRects r s) = area r + area s - 2 * area (r.Intersect s) := by
    rw [sumAreasInt_eq, h1]
    rw [h1] at h2
    exact wrap64_of_range _ (by omega) (by omega)
  exact ⟨h4, fun F fl => by rw [sumAreas, h4]⟩

/-- Witness of `XorRects_area`: 10100 for (100,100)-(200,200) against
(150,101)-(250,201), 0 for two equal rectangles and 20000 for two squares of
100 by 100 that do not overlap. -/
theorem XorRects_area_witness :
    sumAreasInt (XorRects (Rect 100 100 200 200) (Rect 150 101 250 201)) = 10100 ∧
    sumAreasInt (XorRects (Rect 100 100 200 200) (Rect 100 100 200 200)) = 0 ∧
    sumAreasInt (XorRects (Rect 100 100 200 200) (Rect 300 300 400 400)) = 20000 := by
  have w := Rect_wellFormed
  refine ⟨?_, ?_, ?_⟩
  · rw [(XorRects_area (Rect 100 100 200 200) (Rect 150 101 250 201) (w _ _ _ _) (w _ _ _ _)
      (Or.inr (Or.inl (by unfold lowerLeft; decide))) (by decide)).1]
    decide
  · rw [(XorRects_area (Rect 100 100 200 200) (Rect 100 100 200 200) (w _ _ _ _) (w _ _ _ _)
      (Or.inr (Or.inl (by unfold lowerLeft; decide))) (by decide)).1]
    decide
  · rw [(XorRects_area (Rect 100 100 200 200) (Rect 300 300 400 400) (w _ _ _ _) (w _ _ _ _)
      (Or.inl (by decide)) (by decide)).1]
    decide

/-! ## The motion recorder -/

theorem index_isSome {α : Type} (l : List α) (i : Int) (h0 : 0 ≤ i) (h1 : i < l.length) :
    ∃ x, index l i = some x := by
  unfold index
  rw [if_neg (by omega)]
  have h : i.toNat < l.length := by omega
  exact ⟨l.get ⟨i.toNat, h⟩, List.get?_eq_get h⟩

/-- The first loop of `analyseBetweenFrames` does not index out of range. -/
theorem analysePaired_isSome {F : Type} (fl : Float64 F) (prevFaces : List Rectangle)
    (hp : prevFaces ≠ []) (nexts : List Rectangle) :
    ∀ result : F, ∃ d, analysePaired fl prevFaces nexts result = some d := by
  induction nexts with
  | nil => intro result; exact ⟨result, rfl⟩
  | cons nextFace rest ih =>
    intro result
    obtain ⟨h0, h1⟩ := (findClosestRectangle_in_range nextFace prevFaces).2 hp
    obtain ⟨x, hx⟩ := index_isSome prevFaces _ h0 h1
    rw [analysePaired, hx]
    exact ih _

/-- `analyseBetweenFrames` returns for every two frame records. -/
theorem analyseBetweenFrames_isSome {F : Type} (fl : Float64 F) (prev next : frameRecord) :
    ∃ d, analyseBetweenFrames fl prev next = some d := by
  unfold analyseBetweenFrames
  have h : ∃ d, analysePaired fl (prev.GetFaceRectangles fl).1
      ((next.GetFaceRectangles fl).1.take
        (Min.min (prev.GetFaceRectangles fl).1.length (next.GetFaceRectangles fl).1.length))
      (fl.ofInt 0) = some d := by
    by_cases hp : (prev.GetFaceRectangles fl).1 = []
    · rw [hp, List.length_nil, Nat.zero_min, List.take_zero]
      exact ⟨_, rfl⟩
    · exact analysePaired_isSome fl _ hp _ _
  obtain ⟨d, hd⟩ := h
  rw [hd]
  exact ⟨_, rfl⟩

theorem appendBounded_length {α : Type} (s : List α) (x : α) (limit : Nat)
    (h : s.length ≤ limit) :
    (appendBounded s x limit).length ≤ limit ∧
      (appendBounded s x limit).length = if s.length < limit then s.length + 1 else limit := by
  unfold appendBounded
  by_cases h1 : (s ++ [x]).length > limit
  · rw [if_pos h1, List.length_drop]
    rw [List.length_append, List.length_singleton] at h1 ⊢
    rw [if_neg (by omega)]
    omega
  · rw [if_neg h1]
    rw [List.length_append, List.length_singleton] at h1 ⊢
    rw [if_pos (by omega)]
    omega

theorem appendBounded_suffix {α : Type} (s : List α) (x : α) (limit : Nat) :
    appendBounded s x limit <:+ s ++ [x] := by
  unfold appendBounded
  split_ifs
  · exact List.drop_suffix _ _
  · exact List.suffix_refl _

theorem appendBounded_chain (s : List Int) (x : Int) (limit : Nat) (R : Int → Int → Prop)
    (hs : s.Chain' R) (hx : ∀ y ∈ s.getLast?, R y x) :
    (appendBounded s x limit).Chain' R := by
  have h : (s ++ [x]).Chain' R := by
    rw [List.chain'_append]
    refine ⟨hs, List.chain'_singleton _, ?_⟩
    intro y hy z hz
    simp only [List.head?_cons, Option.mem_def, Option.some.injEq] at hz
    subst hz
    exact hx y hy
  unfold appendBounded
  split_ifs
  · exact h.drop 1
  · exact h

theorem thresholdScan_bound (clock : Nat → Int) (timestamps : List Int) (n : Nat) :
    ∀ tick : Nat, (thresholdScan clock timestamps n tick).1 < n ∧
      tick ≤ (thresholdScan clock timestamps n tick).2 := by
  induction n with
  | zero => intro tick; simp [thresholdScan]
  | succ n ih =>
    intro tick
    rw [thresholdScan]
    split_ifs
    · simp
    · obtain ⟨h1, h2⟩ := ih (tick + 1)
      push_cast
      omega

/-- The timestamps that `threshold` keeps are the last ones of the list, the
last one among them. -/
theorem keptTimestamps_drop (clock : Nat → Int) (timestamps : List Int) (tick : Nat) :
    ∃ k, keptTimestamps clock timestamps tick = timestamps.drop k ∧
      (timestamps ≠ [] → k < timestamps.length) := by
  unfold keptTimestamps
  have h := (thresholdScan_bound clock timestamps timestamps.length tick).1
  split_ifs with hk
  · exact ⟨_, rfl, fun _ => by omega⟩
  · refine ⟨0, rfl, fun hne => ?_⟩
    exact List.length_pos.2 hne

theorem keptTimestamps_props (clock : Nat → Int) (timestamps : List Int) (tick : Nat)
    (R : Int → Int → Prop) (hlen : timestamps.length ≤ maxTimestamps)
    (hchain : timestamps.Chain' R) :
    (keptTimestamps clock timestamps tick).length ≤ maxTimestamps ∧
    (keptTimestamps clock timestamps tick).Chain' R ∧
    (keptTimestamps clock timestamps tick).getLast? = timestamps.getLast? := by
  obtain ⟨k, hk, hlt⟩ := keptTimestamps_drop clock timestamps tick
  rw [hk]
  refine ⟨by rw [List.length_drop]; omega, hchain.drop k, ?_⟩
  rw [List.getLast?_drop]
  by_cases hne : timestamps = []
  · subst hne; simp
  · rw [if_neg (by have := hlt hne; omega)]

/-- What `DetectMotion` does to the recorder: the frames are left alone, at
most `maxTimestamps` timestamps are held, and with a clock that does not run
backwards any two consecutive ones are `minimalTimestampDiff` apart. -/
theorem DetectMotion_props {F : Type} (fl : Float64 F) (clock : Nat → Int)
    (hclock : Monotone clock) (mr : motionRecorder F) (tick : Nat)
    (hlen : mr.snapshotTimestamps.length ≤ maxTimestamps)
    (hchain : mr.snapshotTimestamps.Chain' (fun a b => a + minimalTimestampDiff ≤ b)) :
    (mr.DetectMotion fl clock tick).2.1.prevFrame = mr.prevFrame ∧
    (mr.DetectMotion fl clock tick).2.1.frameMotions = mr.frameMotions ∧
    (mr.DetectMotion fl clock tick).2.1.snapshotTimestamps.length ≤ maxTimestamps ∧
    (mr.DetectMotion fl clock tick).2.1.snapshotTimestamps.Chain'
      (fun a b => a + minimalTimestampDiff ≤ b) := by
  rcases hl : mr.snapshotTimestamps.getLast? with _ | last
  · have hnil : mr.snapshotTimestamps = [] := List.getLast?_eq_none_iff.1 hl
    have hk : keptTimestamps clock mr.snapshotTimestamps tick = [] := by
      rw [hnil]; rfl
    unfold motionRecorder.DetectMotion
    simp only [hl]
    split_ifs
    · simp only [motionRecorder.threshold, hk, true_and]
      constructor
      · unfold appendBounded maxTimestamps; simp
      · unfold appendBounded maxTimestamps; simp
    · simp only [motionRecorder.threshold, hk, true_and]
      simp
  · obtain ⟨k1, k2, k3⟩ := keptTimestamps_props clock mr.snapshotTimestamps (tick + 1) _ hlen hchain
    have htick := (thresholdScan_bound clock mr.snapshotTimestamps
      mr.snapshotTimestamps.length (tick + 1)).2
    unfold motionRecorder.DetectMotion
    simp only [hl]
    split_ifs with h5 hge
    · exact ⟨rfl, rfl, hlen, hchain⟩
    · simp only [motionRecorder.threshold, true_and]
      refine ⟨(appendBounded_length _ _ _ k1).1, appendBounded_chain _ _ _ _ k2 ?_⟩
      intro y hy
      rw [k3, hl] at hy
      simp only [Option.mem_def, Option.some.injEq] at hy
      subst hy
      have hm : clock tick ≤ clock (thresholdScan clock mr.snapshotTimestamps
          mr.snapshotTimestamps.length (tick + 1)).2 := hclock (by omega)
      omega
    · simp only [motionRecorder.threshold, true_and]
      exact ⟨k1, k2⟩

theorem motionsOf_append {F : Type} (fl : Float64 F) (fs : List frameRecord) (fr : frameRecord) :
    motionsOf fl (fs ++ [fr]) =
      motionsOf fl fs ++
        (match fs.getLast? with
          | none => []
          | some prev => [analyseBetweenFrames fl prev fr]) := by
  induction fs with
  | nil => rfl
  | cons a fs ih =>
    cases fs with
    | nil => rfl
    | cons b rest =>
      have h1 : (a :: b :: rest) ++ [fr] = a :: b :: (rest ++ [fr]) := rfl
      have h2 : (b :: rest) ++ [fr] = b :: (rest ++ [fr]) := rfl
      rw [h1, motionsOf, ← h2, ih, motionsOf, List.cons_append]
      have h3 : (a :: b :: rest).getLast? = (b :: rest).getLast? := by
        simp [List.getLast?_cons_cons]
      rw [h3]

/-- What `Append` does to the recorder: it returns, the frame is the new
previous frame, the timestamps are left alone, and from the second frame on
the motion between the previous frame and the new one is put at the end of
`frameMotions`, the first of them taken off when there are more than
`maxFrames`. -/
theorem Append_props {F : Type} (fl : Float64 F) (mr : motionRecorder F) (fr : frameRecord) :
    ∃ mr2, mr.Append fl fr = some mr2 ∧ mr2.prevFrame = some fr ∧
      mr2.snapshotTimestamps = mr.snapshotTimestamps ∧
      (mr.prevFrame = none → mr2.frameMotions = mr.frameMotions) ∧
      (∀ prev, mr.prevFrame = some prev →
        ∃ d, analyseBetweenFrames fl prev fr = some d ∧
          mr2.frameMotions = appendBounded mr.frameMotions d maxFrames) := by
  rcases hp : mr.prevFrame with _ | prev
  · have h : mr.Append fl fr =
        some ⟨some fr, decide (fr.Faces.length > 0), mr.frameMotions, mr.snapshotTimestamps⟩ := by
      simp only [motionRecorder.Append, hp]
    refine ⟨_, h, rfl, rfl, fun _ => rfl, ?_⟩
    intro prev h; cases h
  · obtain ⟨d, hd⟩ := analyseBetweenFrames_isSome fl prev fr
    have h : mr.Append fl fr =
        some ⟨some fr, decide (fr.Faces.length > 0), appendBounded mr.frameMotions d maxFrames,
          mr.snapshotTimestamps⟩ := by
      simp only [motionRecorder.Append, hp, hd]
    refine ⟨_, h, rfl, rfl, ?_, ?_⟩
    · intro h; cases h
    · intro p h
      cases h
      exact ⟨d, hd, rfl⟩

theorem motionsOf_length {F : Type} (fl : Float64 F) (fs : List frameRecord) :
    (motionsOf fl fs).length = fs.length - 1 := by
  induction fs with
  | nil => rfl
  | cons a fs ih =>
    cases fs with
    | nil => rfl
    | cons b rest =>
      rw [motionsOf, List.length_cons, ih]
      simp

/-- The properties of the recorder hold after every sequence of calls that
starts in a state where they hold; `fs` are the frames appended before. -/
theorem runCalls_invariant {F : Type} (fl : Float64 F) (clock : Nat → Int)
    (hclock : Monotone clock) (calls : List Call) :
    ∀ (fs : List frameRecord) (mr : motionRecorder F) (tick : Nat),
      mr.prevFrame = fs.getLast? →
      mr.frameMotions.map some <:+ motionsOf fl fs →
      mr.frameMotions.length = Min.min (fs.length - 1) maxFrames →
      mr.snapshotTimestamps.length ≤ maxTimestamps →
      mr.snapshotTimestamps.Chain' (fun a b => a + minimalTimestampDiff ≤ b) →
      ∃ mr2 tick2, runCalls fl clock calls (mr, tick) = some (mr2, tick2) ∧
        mr2.prevFrame = (fs ++ framesOf calls).getLast? ∧
        mr2.frameMotions.map some <:+ motionsOf fl (fs ++ framesOf calls) ∧
        mr2.frameMotions.length = Min.min ((fs ++ framesOf calls).length - 1) maxFrames ∧
        mr2.snapshotTimestamps.length ≤ maxTimestamps ∧
        mr2.snapshotTimestamps.Chain' (fun a b => a + minimalTimestampDiff ≤ b) := by
  induction calls with
  | nil =>
    intro fs mr tick h1 h2 h3 h4 h5
    refine ⟨mr, tick, rfl, ?_, ?_, ?_, h4, h5⟩
    · simpa [framesOf] using h1
    · simpa [framesOf] using h2
    · simpa [framesOf] using h3
  | cons c calls ih =>
    intro fs mr tick h1 h2 h3 h4 h5
    cases c with
    | DetectMotion =>
      obtain ⟨d1, d2, d3, d4⟩ := DetectMotion_props fl clock hclock mr tick h4 h5
      rw [runCalls]
      have hf : framesOf (Call.DetectMotion :: calls) = framesOf calls := rfl
      rw [hf]
      exact ih fs _ _ (by rw [d1, h1]) (by rw [d2]; exact h2) (by rw [d2]; exact h3) d3 d4
    | Append fr =>
      obtain ⟨mr2, a1, a2, a3, a4, a5⟩ := Append_props fl mr fr
      rw [runCalls]
      simp only [a1]
      have hf : fs ++ framesOf (Call.Append fr :: calls) = (fs ++ [fr]) ++ framesOf calls := by
        simp [framesOf]
      rw [hf]
      refine ih (fs ++ [fr]) mr2 tick (by rw [a2, List.getLast?_concat]) ?_ ?_ (by rw [a3]; exact h4)
        (by rw [a3]; exact h5)
      · rw [motionsOf_append]
        rcases hl : fs.getLast? with _ | prev
        · rw [a4 (by rw [h1, hl])]
          simpa using h2
        · obtain ⟨d, hd, hm⟩ := a5 prev (by rw [h1, hl])
          simp only
          rw [hm, hd]
          have hs := (appendBounded_suffix mr.frameMotions d maxFrames).map some
          rw [List.map_append, List.map_cons, List.map_nil] at hs
          refine hs.trans ?_
          obtain ⟨pre, hpre⟩ := h2
          exact ⟨pre, by rw [← hpre, List.append_assoc]⟩
      · rcases hl : fs.getLast? with _ | prev
        · have hnil : fs = [] := List.getLast?_eq_none_iff.1 hl
          rw [a4 (by rw [h1, hl]), h3, hnil]
          simp
        · obtain ⟨d, hd, hm⟩ := a5 prev (by rw [h1, hl])
          have hne : fs ≠ [] := by
            intro h; rw [h] at hl; cases hl
          have hpos : 0 < fs.length := List.length_pos.2 hne
          have hle : mr.frameMotions.length ≤ maxFrames := by
            rw [h3]; exact Nat.min_le_right _ _
          rw [hm, (appendBounded_length mr.frameMotions d maxFrames hle).2, h3,
            List.length_append, List.length_singleton]
          unfold maxFrames
          split_ifs <;> omega

/-- C29: from an empty recorder, with a clock that does not run backwards,
every sequence of `Append` and `DetectMotion` calls returns and leaves
`frameMotions` with `min(n - 1, 30)` entries after `n` appended frames (none
for `n = 0`), these being the last motions between consecutive frames, and
`snapshotTimestamps` with at most 10 entries, any two consecutive ones at
least 5 seconds apart. -/
theorem motionRecorder_bounds {F : Type} (fl : Float64 F) (clock : Nat → Int)
    (calls : List Call) (hclock : Monotone clock) :
    ∃ mr tick, runCalls fl clock calls (emptyRecorder F, 0) = some (mr, tick) ∧
      mr.frameMotions.length ≤ 30 ∧
      mr.frameMotions.length = Min.min ((framesOf calls).length - 1) 30 ∧
      mr.frameMotions.map some <:+ motionsOf fl (framesOf calls) ∧
      (motionsOf fl (framesOf calls)).length = (framesOf calls).length - 1 ∧
      mr.snapshotTimestamps.length ≤ 10 ∧
      mr.snapshotTimestamps.Chain' (fun a b => a + 5 * 1000000000 ≤ b) := by
  obtain ⟨mr, tick, h0, _, h2, h3, h4, h5⟩ :=
    runCalls_invariant fl clock hclock calls [] (emptyRecorder F) 0 rfl
      (List.suffix_refl _) rfl (Nat.zero_le _) List.chain'_nil
  rw [List.nil_append] at h2 h3
  refine ⟨mr, tick, h0, ?_, h3, h2, motionsOf_length fl _, h4, h5⟩
  rw [h3]
  exact Nat.min_le_right _ _

/-- Witness of `motionRecorder_bounds`: two frames, each followed by
`DetectMotion`, with a clock that advances by one second per reading. -/
theorem motionRecorder_bounds_witness :
    Monotone secondsClock ∧
    ∃ mr tick,
      runCalls intFloat secondsClock
        [.Append (frameOf (lit "1")), .DetectMotion, .Append (frameOf (lit "2")),
          .DetectMotion] (emptyRecorder Int, 0) = some (mr, tick) ∧
      mr.frameMotions.length ≤ 30 ∧
      mr.frameMotions.length = Min.min ((framesOf
        [.Append (frameOf (lit "1")), .DetectMotion, .Append (frameOf (lit "2")),
          .DetectMotion]).length - 1) 30 ∧
      mr.frameMotions.map some <:+ motionsOf intFloat (framesOf
        [.Append (frameOf (lit "1")), .DetectMotion, .Append (frameOf (lit "2")),
          .DetectMotion]) ∧
      (motionsOf intFloat (framesOf
        [.Append (frameOf (lit "1")), .DetectMotion, .Append (frameOf (lit "2")),
          .DetectMotion])).length = (framesOf
        [.Append (frameOf (lit "1")), .DetectMotion, .Append (frameOf (lit "2")),
          .DetectMotion]).length - 1 ∧
      mr.snapshotTimestamps.length ≤ 10 ∧
      mr.snapshotTimestamps.Chain' (fun a b => a + 5 * 1000000000 ≤ b) :=
  ⟨fun a b h => by unfold secondsClock; nlinarith [Int.ofNat_le.2 h],
    motionRecorder_bounds intFloat secondsClock _
      (fun a b h => by unfold secondsClock; nlinarith [Int.ofNat_le.2 h])⟩


/-! ## Unions as sets of points -/

theorem Point_In_iff (p : Point) (r : Rectangle) :
    p.In r = true ↔ r.Min.X ≤ p.X ∧ p.X < r.Max.X ∧ r.Min.Y ≤ p.Y ∧ p.Y < r.Max.Y := by
  simp [Point.In, and_assoc]

/-- The coordinates of a union that is not empty: each rectangle that is not
empty lies inside, and each bound is the bound of one of them. -/
theorem Union_bounds (r s : Rectangle) (h : (r.Union s).Empty = false) :
    (r.Empty = false → (r.Union s).Min.X ≤ r.Min.X ∧ (r.Union s).Min.Y ≤ r.Min.Y ∧
      r.Max.X ≤ (r.Union s).Max.X ∧ r.Max.Y ≤ (r.Union s).Max.Y) ∧
    (s.Empty = false → (r.Union s).Min.X ≤ s.Min.X ∧ (r.Union s).Min.Y ≤ s.Min.Y ∧
      s.Max.X ≤ (r.Union s).Max.X ∧ s.Max.Y ≤ (r.Union s).Max.Y) ∧
    ((r.Empty = false ∧ (r.Union s).Min.X = r.Min.X) ∨
      (s.Empty = false ∧ (r.Union s).Min.X = s.Min.X)) ∧
    ((r.Empty = false ∧ (r.Union s).Min.Y = r.Min.Y) ∨
      (s.Empty = false ∧ (r.Union s).Min.Y = s.Min.Y)) ∧
    ((r.Empty = false ∧ (r.Union s).Max.X = r.Max.X) ∨
      (s.Empty = false ∧ (r.Union s).Max.X = s.Max.X)) ∧
    ((r.Empty = false ∧ (r.Union s).Max.Y = r.Max.Y) ∨
      (s.Empty = false ∧ (r.Union s).Max.Y = s.Max.Y)) := by
  rw [Union_Empty] at h
  unfold Rectangle.Union
  cases hr : r.Empty
  · cases hs : s.Empty
    · simp only [Bool.false_eq_true, if_false, true_and, forall_true_left]
      refine ⟨?_, ?_, ?_, ?_, ?_, ?_⟩ <;> split_ifs <;> omega
    · simp [hr]
  · rw [hr] at h
    have hs : s.Empty = false := by simpa using h
    simp [hs]

theorem foldl_Union_bounds (rects : List Rectangle) :
    ∀ acc : Rectangle, (rects.foldl Rectangle.Union acc).Empty = false →
      (∀ r, r = acc ∨ r ∈ rects → r.Empty = false →
        (rects.foldl Rectangle.Union acc).Min.X ≤ r.Min.X ∧
        (rects.foldl Rectangle.Union acc).Min.Y ≤ r.Min.Y ∧
        r.Max.X ≤ (rects.foldl Rectangle.Union acc).Max.X ∧
        r.Max.Y ≤ (rects.foldl Rectangle.Union acc).Max.Y) ∧
      (∃ r, (r = acc ∨ r ∈ rects) ∧ r.Empty = false ∧
        (rects.foldl Rectangle.Union acc).Min.X = r.Min.X) ∧
      (∃ r, (r = acc ∨ r ∈ rects) ∧ r.Empty = false ∧
        (rects.foldl Rectangle.Union acc).Min.Y = r.Min.Y) ∧
      (∃ r, (r = acc ∨ r ∈ rects) ∧ r.Empty = false ∧
        (rects.foldl Rectangle.Union acc).Max.X = r.Max.X) ∧
      (∃ r, (r = acc ∨ r ∈ rects) ∧ r.Empty = false ∧
        (rects.foldl Rectangle.Union acc).Max.Y = r.Max.Y) := by
  induction rects with
  | nil =>
    intro acc h
    simp only [List.foldl_nil] at h ⊢
    refine ⟨?_, ⟨acc, Or.inl rfl, h, rfl⟩, ⟨acc, Or.inl rfl, h, rfl⟩, ⟨acc, Or.inl rfl, h, rfl⟩,
      ⟨acc, Or.inl rfl, h, rfl⟩⟩
    intro r hr _
    rcases hr with rfl | hr
    · omega
    · cases hr
  | cons x rects ih =>
    intro acc h
    rw [List.foldl_cons] at h ⊢
    obtain ⟨i1, i2, i3, i4, i5⟩ := ih (acc.Union x) h
    have hu : acc.Empty = false ∨ x.Empty = false → (acc.Union x).Empty = false := by
      intro hax
      rw [Union_Empty]
      rcases hax with hax | hax <;> simp [hax]
    have step : ∀ (P : Rectangle → Prop),
        (∃ r, (r = acc.Union x ∨ r ∈ rects) ∧ r.Empty = false ∧ P r) →
        ((acc.Union x).Empty = false → P (acc.Union x) →
          (acc.Empty = false ∧ P acc) ∨ (x.Empty = false ∧ P x)) →
        ∃ r, (r = acc ∨ r ∈ x :: rects) ∧ r.Empty = false ∧ P r := by
      intro P hex hP
      obtain ⟨r, hr, hne, hp⟩ := hex
      rcases hr with rfl | hr
      · rcases hP hne hp with ⟨a, b⟩ | ⟨a, b⟩
        · exact ⟨acc, Or.inl rfl, a, b⟩
        · exact ⟨x, Or.inr (List.mem_cons_self _ _), a, b⟩
      · exact ⟨r, Or.inr (List.mem_cons_of_mem _ hr), hne, hp⟩
    refine ⟨?_, ?_, ?_, ?_, ?_⟩
    · intro r hr hne
      rcases hr with rfl | hr
      · have hn := hu (Or.inl hne)
        have := (Union_bounds r x hn).1 hne
        have := i1 (r.Union x) (Or.inl rfl) hn
        omega
      · rcases List.mem_cons.1 hr with rfl | hr
        · have hn := hu (Or.inr hne)
          have := (Union_bounds acc r hn).2.1 hne
          have := i1 (acc.Union r) (Or.inl rfl) hn
          omega
        · exact i1 r (Or.inr hr) hne
    · refine step (fun r => (List.foldl Rectangle.Union (acc.Union x) rects).Min.X = r.Min.X)
        i2 ?_
      intro hn hp
      rcases (Union_bounds acc x hn).2.2.1 with ⟨a, b⟩ | ⟨a, b⟩
      · exact Or.inl ⟨a, by rw [hp, b]⟩
      · exact Or.inr ⟨a, by rw [hp, b]⟩
    · refine step (fun r => (List.foldl Rectangle.Union (acc.Union x) rects).Min.Y = r.Min.Y)
        i3 ?_
      intro hn hp
      rcases (Union_bounds acc x hn).2.2.2.1 with ⟨a, b⟩ | ⟨a, b⟩
      · exact Or.inl ⟨a, by rw [hp, b]⟩
      · exact Or.inr ⟨a, by rw [hp, b]⟩
    · refine step (fun r => (List.foldl Rectangle.Union (acc.Union x) rects).Max.X = r.Max.X)
        i4 ?_
      intro hn hp
      rcases (Union_bounds acc x hn).2.2.2.2.1 with ⟨a, b⟩ | ⟨a, b⟩
      · exact Or.inl ⟨a, by rw [hp, b]⟩
      · exact Or.inr ⟨a, by rw [hp, b]⟩
    · refine step (fun r => (List.foldl Rectangle.Union (acc.Union x) rects).Max.Y = r.Max.Y)
        i5 ?_
      intro hn hp
      rcases (Union_bounds acc x hn).2.2.2.2.2 with ⟨a, b⟩ | ⟨a, b⟩
      · exact Or.inl ⟨a, by rw [hp, b]⟩
      · exact Or.inr ⟨a, by rw [hp, b]⟩

theorem nonempty_of_point (p : Point) (r : Rectangle) (h : p.In r = true) : r.Empty = false := by
  rw [Point_In_iff] at h
  rw [Empty_false_iff]
  omega

/-- When every point of a rectangle of `A` is a point of a rectangle of `B`,
the union of `A` lies in the union of `B` in the sense of `Rectangle.In`. -/
theorem unionAll_In_of_points (A B : List Rectangle)
    (h : ∀ p : Point, (∃ a ∈ A, p.In a = true) → ∃ b ∈ B, p.In b = true) :
    (unionAll A).In (unionAll B) = true := by
  cases hA : (unionAll A).Empty
  · obtain ⟨_, a2, a3, a4, a5⟩ := foldl_Union_bounds A ZR hA
    have hz : ZR.Empty = true := by decide
    have fix : ∀ r : Rectangle, (r = ZR ∨ r ∈ A) → r.Empty = false → r ∈ A := by
      intro r hr hne
      rcases hr with rfl | hr
      · rw [hz] at hne; cases hne
      · exact hr
    have key : ∀ a ∈ A, ∀ p : Point, p.In a = true →
        (unionAll B).Min.X ≤ p.X ∧ p.X < (unionAll B).Max.X ∧
        (unionAll B).Min.Y ≤ p.Y ∧ p.Y < (unionAll B).Max.Y := by
      intro a ha p hp
      obtain ⟨b, hb, hpb⟩ := h p ⟨a, ha, hp⟩
      have hbne := nonempty_of_point p b hpb
      have hB : (unionAll B).Empty = false := by
        cases hc : (unionAll B).Empty
        · rfl
        · have := (unionAll_Empty B).1 hc b hb
          rw [hbne] at this; cases this
      have hin := (foldl_Union_bounds B ZR hB).1 b (Or.inr hb) hbne
      rw [Point_In_iff] at hpb
      unfold unionAll
      omega
    rw [In_of_nonempty _ _ hA]
    obtain ⟨r1, m1, n1, e1⟩ := a2
    obtain ⟨r2, m2, n2, e2⟩ := a3
    obtain ⟨r3, m3, n3, e3⟩ := a4
    obtain ⟨r4, m4, n4, e4⟩ := a5
    rw [Empty_false_iff] at n1 n2 n3 n4
    have k1 := key r1 (fix r1 m1 ((Empty_false_iff r1).2 n1)) r1.Min
      ((Point_In_iff _ _).2 (by omega))
    have k2 := key r2 (fix r2 m2 ((Empty_false_iff r2).2 n2)) r2.Min
      ((Point_In_iff _ _).2 (by omega))
    have k3 := key r3 (fix r3 m3 ((Empty_false_iff r3).2 n3)) ⟨r3.Max.X - 1, r3.Min.Y⟩
      ((Point_In_iff _ _).2 (by simp only; omega))
    have k4 := key r4 (fix r4 m4 ((Empty_false_iff r4).2 n4)) ⟨r4.Min.X, r4.Max.Y - 1⟩
      ((Point_In_iff _ _).2 (by simp only; omega))
    unfold unionAll at k1 k2 k3 k4 ⊢
    simp only at k3 k4
    omega
  · simp [Rectangle.In, hA]

/-- A run of fourteen `DetectMotion` calls on an empty recorder, with a clock
that advances by one second per reading: three timestamps are recorded, 7 and
8 seconds apart. -/
theorem runCalls_fourteen_detections :
    (runCalls intFloat secondsClock (List.replicate 14 Call.DetectMotion)
      (emptyRecorder Int, 0)).map (fun state => state.1.snapshotTimestamps) =
      some [0, 7000000000, 15000000000] := by
  set_option maxRecDepth 8000 in decide
end Xray
